import Mathlib

/-!
# irctun: a verification development of the session engine of `main.go`

The Go program is embedded shallowly.  A Go `string` / `[]byte` is a list of
bytes (`Str`), a byte is a natural number, Go `int` fields that can go negative
are `Int`, indices that the program only ever uses non-negatively are `Nat`.
Pointers to `Channel` objects are positions in a per-session heap, so that the
aliasing between `Session.serverCh` and `Session.channels[0]` is kept.

Functions of the Go standard library that depend on Unicode tables
(`strings.ToLower`, `strings.ToUpper`, `strings.Fields`) are taken as a
parameter `L : StrOps`; every general theorem holds for every `L`, and
`asciiOps` is the instance used to evaluate the program on ASCII inputs.
-/

namespace Irctun

/-- A Go string or byte slice: the sequence of its bytes. -/
abbrev Str := List Nat

/-- The bytes of an ASCII string literal. -/
def ascii (s : String) : Str := s.toList.map Char.toNat

/-- Library functions of package `strings` whose result depends on Unicode tables. -/
structure StrOps where
  toLower : Str → Str
  toUpper : Str → Str
  fields : Str → List Str

/-- The byte-wise lower-casing that `strings.ToLower` performs on ASCII strings. -/
def asciiToLower (s : Str) : Str := s.map (fun b => if 65 ≤ b ∧ b ≤ 90 then b + 32 else b)

/-- The byte-wise upper-casing that `strings.ToUpper` performs on ASCII strings. -/
def asciiToUpper (s : Str) : Str := s.map (fun b => if 97 ≤ b ∧ b ≤ 122 then b - 32 else b)

/-- The ASCII white space bytes: tab, line feed, vertical tab, form feed, carriage return, space. -/
def isAsciiSpace (b : Nat) : Bool := b == 9 || b == 10 || b == 11 || b == 12 || b == 13 || b == 32

/-- Worker of `asciiFields`: `cur` is the field being read, in reverse. -/
def asciiFieldsAux : Str → Str → List Str
  | [], cur => if cur = [] then [] else [cur.reverse]
  | b :: rest, cur =>
    if isAsciiSpace b then
      (if cur = [] then asciiFieldsAux rest [] else cur.reverse :: asciiFieldsAux rest [])
    else asciiFieldsAux rest (b :: cur)

/-- The splitting around white space that `strings.Fields` performs on ASCII strings. -/
def asciiFields (s : Str) : List Str := asciiFieldsAux s []

/-- The library functions restricted to ASCII input. -/
def asciiOps : StrOps := ⟨asciiToLower, asciiToUpper, asciiFields⟩

/-- `strings.IndexByte(s, c)`: the first position of `c`, `none` for the Go result `-1`. -/
def indexByte : Str → Nat → Option Nat
  | [], _ => none
  | b :: rest, c => if b = c then some 0 else (indexByte rest c).map (· + 1)

/-- The Go slice expression `s[lo:hi]`; `none` is the run-time panic for bounds out of range. -/
def slice (s : Str) (lo hi : Nat) : Option Str :=
  if lo ≤ hi ∧ hi ≤ s.length then some ((s.take hi).drop lo) else none

/-- The Go index expression `s[i]`; `none` is the run-time panic for an index out of range. -/
def byteAt (s : Str) (i : Nat) : Option Nat := s.get? i

/-! ## Constants -/

def defW : Int := 80
def defH : Int := 24
def chanListW : Int := 14
def nickListW : Int := 22
def maxMsgs : Nat := 500

def iacByte : Nat := 0xFF
def iacSB : Nat := 0xFA
def iacSE : Nat := 0xF0
def iacWILL : Nat := 0xFB
def iacWONT : Nat := 0xFC
def iacDO : Nat := 0xFD
def iacDONT : Nat := 0xFE
def optNAWS : Nat := 0x1F

/-! ## Channel buffer -/

/-- The Go `Channel` struct; the `nicks` map is an association list from key to display form. -/
structure Channel where
  name : Str
  topic : Str
  mode : Str
  msgs : List Str
  nicks : List (Str × Str)
  nickScroll : Int
  unread : Bool
  highlight : Bool
deriving DecidableEq, Repr

/-- `newChannel(name)`: every field but the name has its zero value, the map is empty. -/
def newChannel (name : Str) : Channel :=
  { name := name, topic := [], mode := [], msgs := [], nicks := [], nickScroll := 0,
    unread := false, highlight := false }

/-- `Channel.addMsg(line)`: append, then keep the last `maxMsgs` entries. -/
def Channel.addMsg (c : Channel) (line : Str) : Channel :=
  let msgs := c.msgs ++ [line]
  if msgs.length > maxMsgs then { c with msgs := msgs.drop (msgs.length - maxMsgs) }
  else { c with msgs := msgs }

/-! ## IRC parser -/

/-- The Go `ircMsg` struct. -/
structure ircMsg where
  pfx : Str
  command : Str
  params : List Str
deriving DecidableEq, Repr

/-- `ircMsg.nick()`: the prefix up to its first `!`; `none` would be a slice panic. -/
def ircMsg.nick (m : ircMsg) : Option Str :=
  match indexByte m.pfx 33 with
  | some i => slice m.pfx 0 i
  | none => some m.pfx

/-- `ircMsg.trail()`: the last parameter, the empty string without parameters;
`none` would be an index panic. -/
def ircMsg.trail (m : ircMsg) : Option Str :=
  if m.params.length > 0 then m.params.get? (m.params.length - 1) else some []

/-- The `for line != ""` loop of `parseIRC`, without the final upper-casing.  Every pass
shortens `line`, so `fuel = len(line)` passes are enough; `none` is a run-time panic
(or the fuel running out). -/
def parseLoop : Nat → Str → ircMsg → Option ircMsg
  | fuel, line, m =>
    if line = [] then some m else
    match fuel with
    | 0 => none
    | fuel + 1 =>
      match byteAt line 0 with
      | none => none
      | some b0 =>
        if b0 = 58 then
          (slice line 1 line.length).map (fun t => { m with params := m.params ++ [t] })
        else
          match indexByte line 32 with
          | none =>
            if m.command = [] then some { m with command := line }
            else some { m with params := m.params ++ [line] }
          | some i =>
            match slice line 0 i, slice line (i + 1) line.length with
            | some tok, some rest =>
              if m.command = [] then parseLoop fuel rest { m with command := tok }
              else parseLoop fuel rest { m with params := m.params ++ [tok] }
            | _, _ => none

/-- `parseIRC(line)`; `none` is a run-time panic. -/
def parseIRC (L : StrOps) (line : Str) : Option ircMsg :=
  let finish (r : Option ircMsg) : Option ircMsg :=
    r.map (fun m => { m with command := L.toUpper m.command })
  let m : ircMsg := { pfx := [], command := [], params := [] }
  if line.length > 0 ∧ byteAt line 0 = some 58 then
    match indexByte line 32 with
    | none => (slice line 1 line.length).map (fun p => { pfx := p, command := [], params := [] })
    | some i =>
      match slice line 1 i, slice line (i + 1) line.length with
      | some p, some rest => finish (parseLoop rest.length rest { m with pfx := p })
      | _, _ => none
  else finish (parseLoop line.length line m)

/-! ## Session -/

/-- A `*Channel`: the position of the object in the session heap. -/
abbrev Ptr := Nat

/-- The Go `Session` struct without its sockets and mutexes.  `heap` holds every `Channel`
object made by `newChannel`, in allocation order; `channels` and `serverCh` point into it. -/
structure Session where
  nick : Str
  w : Int
  h : Int
  alive : Bool
  heap : List Channel
  channels : List Ptr
  active : Int
  showNick : Bool
  showChan : Bool
  serverCh : Ptr
  history : List Str
  historyPos : Int
deriving DecidableEq, Repr

/-- The object a channel pointer refers to. -/
def Session.deref (s : Session) (p : Ptr) : Channel := s.heap.getD p (newChannel [])

/-- The name of the status window. -/
def statusName : Str := ascii "*status"

/-- `newSession(conn)`; the random nickname drawn by `randNick()` is the argument. -/
def newSession (nick : Str) : Session :=
  { nick := nick, w := defW, h := defH, alive := true,
    heap := [newChannel statusName], channels := [0], active := 0,
    showNick := true, showChan := true, serverCh := 0, history := [], historyPos := 0 }

/-- The position of the first window whose lower-cased name is `low`: the search loop
shared by `getChan`, `switchTo` and `removeChan`. -/
def Session.findIdx (L : StrOps) (s : Session) (low : Str) : Option Nat :=
  let i := s.channels.findIdx (fun p => L.toLower (s.deref p).name = low)
  if i < s.channels.length then some i else none

/-- `Session.activeChan()`; `none` is the index panic of a negative `active`. -/
def Session.activeChan (s : Session) : Option Ptr :=
  if s.active < s.channels.length then
    (if 0 ≤ s.active then s.channels.get? s.active.toNat else none)
  else some s.serverCh

/-- `Session.removeChan(name)`: splice out the first window with that name (compared
lower-cased), then clamp `active` from above and from below. -/
def Session.removeChan (L : StrOps) (s : Session) (name : Str) : Session :=
  let low := L.toLower name
  match s.findIdx L low with
  | none => s
  | some i =>
    let channels := s.channels.take i ++ s.channels.drop (i + 1)
    let active : Int := if s.active ≥ channels.length then (channels.length : Int) - 1 else s.active
    let active : Int := if active < 0 then 0 else active
    { s with channels := channels, active := active }

/-- `Session.addHistory(line)`: drop the first equal entry, append, keep the last 100. -/
def Session.addHistory (s : Session) (line : Str) : Session :=
  let history :=
    match s.history.findIdx? (fun h => decide (h = line)) with
    | some i => s.history.take i ++ s.history.drop (i + 1)
    | none => s.history
  let history := history ++ [line]
  let history := if history.length > 100 then history.drop (history.length - 100) else history
  { s with history := history, historyPos := history.length }

/-- `Session.resize(w, h)`: the state change; the redraw it triggers only writes output. -/
def Session.resize (s : Session) (w h : Int) : Session :=
  if w = s.w ∧ h = s.h then s else { s with w := w, h := h }

/-! ## Input handling: the commands that remove a window -/

/-- `strings.HasPrefix(s, p)`. -/
def hasPrefix (s p : Str) : Bool := p.isPrefixOf s

/-- The command word and the argument `handleInput` takes from a slash command:
`parts := strings.SplitN(text, " ", 2)`, `cmd := strings.ToLower(parts[0])`, `arg := parts[1]`
when there is a second part. -/
def commandOf (L : StrOps) (text : Str) : Str × Str :=
  match indexByte text 32 with
  | none => (L.toLower text, [])
  | some i => (L.toLower (text.take i), text.drop (i + 1))

/-- `handleInput`, `case "/part", "/leave"`, on the argument `arg`: the state change (the
`PART` line sent upstream and the redraw are output only); `none` is a run-time panic. -/
def Session.handleInputPart (L : StrOps) (s : Session) (arg : Str) : Option Session :=
  match s.activeChan with
  | none => none
  | some ac =>
    let target := (s.deref ac).name
    let target? := if arg ≠ [] then (L.fields arg).head? else some target
    match target? with
    | none => none
    | some target => if target = statusName then some s else some (s.removeChan L target)

/-- `handleInput`, `case "/close"`: the state change; `none` is a run-time panic. -/
def Session.handleInputClose (L : StrOps) (s : Session) : Option Session :=
  match s.activeChan with
  | none => none
  | some ac =>
    let name := (s.deref ac).name
    if name = statusName then some s else some (s.removeChan L name)

/-! ## clientReader: telnet and cursor-position decoding -/

/-- The Go `clientReader` struct: the session it points to and the line buffer. -/
structure clientReader where
  sess : Session
  buf : Str
deriving DecidableEq, Repr

/-- Go `int` arithmetic: the result of an operation, wrapped to signed 64 bits. -/
def wrapInt (x : Int) : Int := (x + 2 ^ 63) % 2 ^ 64 - 2 ^ 63

/-- One pass of the loop of `simpleAtoi`: `if c >= '0' && c <= '9' { n = n*10 + int(c-'0') }`. -/
def atoiStep (n : Int) (c : Nat) : Int :=
  if 48 ≤ c ∧ c ≤ 57 then wrapInt (n * 10 + ((c : Int) - 48)) else n

/-- `simpleAtoi(s)`.  The Go loop ranges over runes; a rune in `'0'..'9'` is exactly a byte
in `48..57`, so the loop over the bytes accumulates the same digits. -/
def simpleAtoi (s : Str) : Int := s.foldl atoiStep 0

/-- `strings.Split(s, sep)` for a one-byte separator. -/
def splitByte (sep : Nat) : Str → List Str
  | [] => [[]]
  | b :: rest =>
    if b = sep then [] :: splitByte sep rest
    else
      match splitByte sep rest with
      | [] => [[b]]
      | p :: ps => (b :: p) :: ps

/-- The search loop of `handleIAC`, `case iacSB`: `for j := i + 2; j < len(data)-1; j++`.
The first argument is `data[j:]`; the result is the first `j` with `data[j] == iacByte`
and `data[j+1] == iacSE`, `none` when the loop runs to its end. -/
def findSE : Str → Nat → Option Nat
  | a :: b :: rest, j => if a = iacByte ∧ b = iacSE then some j else findSE (b :: rest) (j + 1)
  | _, _ => none

/-- The body of `handleIAC` for a terminated subnegotiation `sub := data[i+2 : j]`: a
window-size payload above the 10 x 5 floor resizes the session. -/
def clientReader.subneg (r : clientReader) (sub : Str) : clientReader :=
  if sub.length ≥ 5 ∧ sub.getD 0 0 = optNAWS then
    let w : Int := ((sub.getD 1 0 <<< 8 ||| sub.getD 2 0 : Nat) : Int)
    let h : Int := ((sub.getD 3 0 <<< 8 ||| sub.getD 4 0 : Nat) : Int)
    if w > 10 ∧ h > 5 then { r with sess := r.sess.resize w h } else r
  else r

/-- `clientReader.handleIAC(data, i)`: the number of bytes consumed and the reader after. -/
def clientReader.handleIAC (r : clientReader) (data : Str) (i : Nat) : Nat × clientReader :=
  if i + 1 ≥ data.length then (1, r) else
  let cmd := data.getD (i + 1) 0
  if cmd = iacByte then (2, { r with buf := r.buf ++ [0xFF] })
  else if cmd = iacWILL ∨ cmd = iacWONT ∨ cmd = iacDO ∨ cmd = iacDONT then
    (if i + 2 ≥ data.length then (2, r) else (3, r))
  else if cmd = iacSB then
    match findSE (data.drop (i + 2)) (i + 2) with
    | some j => (j + 2 - i, r.subneg ((data.take j).drop (i + 2)))
    | none => (data.length - i, r)
  else (2, r)

/-- The loop of `clientReader.ingest` from position `i`.  Every pass moves `i` forward,
so `len(data)` passes are enough. -/
def clientReader.ingestLoop : Nat → clientReader → Str → Nat → clientReader
  | 0, r, _, _ => r
  | fuel + 1, r, data, i =>
    if i < data.length then
      let b := data.getD i 0
      if b = iacByte ∧ i + 1 < data.length then
        let res := r.handleIAC data i
        if res.1 > 0 then ingestLoop fuel res.2 data (i + res.1)
        else ingestLoop fuel { res.2 with buf := res.2.buf ++ [b] } data (i + 1)
      else ingestLoop fuel { r with buf := r.buf ++ [b] } data (i + 1)
    else r

/-- `clientReader.ingest(data)`. -/
def clientReader.ingest (r : clientReader) (data : Str) : clientReader :=
  r.ingestLoop data.length data 0

/-- The inner loop of `extractCPR`: from `j`, step over digits and `;`.  The first
argument is `buf[j:]`; the result is the `j` at which the loop stops. -/
def skipNums : Str → Nat → Nat
  | [], j => j
  | b :: rest, j => if (48 ≤ b ∧ b ≤ 57) ∨ b = 59 then skipNums rest (j + 1) else j

/-- The loop of `clientReader.extractCPR` from position `i`.  Every pass either moves `i`
forward or shortens the buffer, so `len(buf)` passes are enough. -/
def clientReader.extractCPRLoop : Nat → clientReader → Nat → clientReader
  | 0, r, _ => r
  | fuel + 1, r, i =>
    if i < r.buf.length then
      if r.buf.getD i 0 = 0x1B ∧ i + 1 < r.buf.length ∧ r.buf.getD (i + 1) 0 = 91 then
        let j := skipNums (r.buf.drop (i + 2)) (i + 2)
        if j < r.buf.length ∧ r.buf.getD j 0 = 82 then
          let nums := (r.buf.take j).drop (i + 2)
          let parts := splitByte 59 nums
          let r1 :=
            if parts.length = 2 then
              let row := simpleAtoi (parts.getD 0 [])
              let col := simpleAtoi (parts.getD 1 [])
              if row > 5 ∧ col > 10 then { r with sess := r.sess.resize col row } else r
            else r
          extractCPRLoop fuel { r1 with buf := r.buf.take i ++ r.buf.drop (j + 1) } i
        else extractCPRLoop fuel r (i + 1)
      else extractCPRLoop fuel r (i + 1)
    else r

/-- `clientReader.extractCPR()`. -/
def clientReader.extractCPR (r : clientReader) : clientReader :=
  r.extractCPRLoop r.buf.length 0

/-! ## Nick sorting -/

/-- The rank-prefix characters `~ & @ % +`. -/
def isRankChar (c : Nat) : Bool := c == 126 || c == 38 || c == 64 || c == 37 || c == 43

/-- The Go comparison `a < b` of two strings: byte-wise lexicographic. -/
def strLess : Str → Str → Bool
  | [], [] => false
  | [], _ :: _ => true
  | _ :: _, [] => false
  | a :: as, b :: bs => if a < b then true else if b < a then false else strLess as bs

/-- The loop of `nickSortKey` over `rest`, the part of `display` not yet read, with the
tier character found so far.  The Go loop ranges over runes; the five rank characters are
ASCII, so the first rune that is none of them starts at the first byte that is none of
them. -/
def nickSortKeyLoop (L : StrOps) (display : Str) : Str → Nat → Str
  | [], tier => tier :: L.toLower display
  | ch :: rest, tier =>
    if ch = 126 then nickSortKeyLoop L display rest 48
    else if ch = 38 then nickSortKeyLoop L display rest 49
    else if ch = 64 then nickSortKeyLoop L display rest 50
    else if ch = 37 then nickSortKeyLoop L display rest 51
    else if ch = 43 then nickSortKeyLoop L display rest 52
    else tier :: L.toLower display

/-- `nickSortKey(display)`. -/
def nickSortKey (L : StrOps) (display : Str) : Str := nickSortKeyLoop L display display 53

/-- The `less` function `sortedNicks` hands to `sort.Slice`. -/
def nickLess (L : StrOps) (a b : Str) : Bool := strLess (nickSortKey L a) (nickSortKey L b)

/-- `sortedNicks(nicks)`.  The map is ranged over in the order of the association list (Go
leaves the order open), and `sort.Slice` is an insertion sort: `a` goes before the first
`b` that is not less than it. -/
def sortedNicks (L : StrOps) (nicks : List (Str × Str)) : List Str :=
  (nicks.map Prod.snd).insertionSort (fun a b => nickLess L b a = false)

/-! ## Window management -/

/-- The write `*p = f(*p)` through a channel pointer. -/
def Session.modify (s : Session) (p : Ptr) (f : Channel → Channel) : Session :=
  { s with heap := s.heap.set p (f (s.deref p)) }

/-- `Session.getChan(name)`; `none` is the Go result `nil`. -/
def Session.getChan (L : StrOps) (s : Session) (name : Str) : Option Ptr :=
  match s.findIdx L (L.toLower name) with
  | none => none
  | some i => s.channels.get? i

/-- The statement `s.channels = append(s.channels, c)` for a `Channel` object `c` just made:
the object is allocated at the end of the heap. -/
def Session.pushChan (s : Session) (c : Channel) : Session :=
  { s with heap := s.heap ++ [c], channels := s.channels ++ [s.heap.length] }

/-- `Session.getOrMakeChan(name)`: the window returned and the session after. -/
def Session.getOrMakeChan (L : StrOps) (s : Session) (name : Str) : Ptr × Session :=
  match s.getChan L name with
  | some c => (c, s)
  | none => (s.heap.length, s.pushChan (newChannel name))

/-- `Session.switchToIdx(idx)`: the result and the session after. -/
def Session.switchToIdx (s : Session) (idx : Int) : Bool × Session :=
  if idx ≥ 0 ∧ idx < s.channels.length then
    (true, ({ s with active := idx }).modify (s.channels.getD idx.toNat 0)
      (fun c => { c with unread := false, highlight := false }))
  else (false, s)

/-- `Session.switchTo(name)`: the result and the session after. -/
def Session.switchTo (L : StrOps) (s : Session) (name : Str) : Bool × Session :=
  match s.findIdx L (L.toLower name) with
  | some i =>
    (true, ({ s with active := (i : Int) }).modify (s.channels.getD i 0)
      (fun c => { c with unread := false, highlight := false }))
  | none => (false, s)

/-! ## Escape-aware truncation -/

/-- The test `(r >= 'a' && r <= 'z') || (r >= 'A' && r <= 'Z')` of `truncVis`. -/
def isAsciiLetter (r : Nat) : Bool := (97 ≤ r && r ≤ 122) || (65 ≤ r && r ≤ 90)

/-- The loop of `truncVis` on the runes of `s` not yet read, with the loop variables `vis`
and `inEsc`; the result is what the loop writes to the builder from here on.  `break` ends
the writing. -/
def truncVisLoop : List Nat → Int → Int → Bool → List Nat
  | [], _, _, _ => []
  | r :: rest, maxW, vis, inEsc =>
    if r = 0x1B then r :: truncVisLoop rest maxW vis true
    else if inEsc then
      r :: truncVisLoop rest maxW vis (if isAsciiLetter r then false else true)
    else if vis ≥ maxW then []
    else r :: truncVisLoop rest maxW (vis + 1) false

/-- `truncVis(s, maxW)` on rune sequences: the argument is the sequence of runes that
`for _, r := range s` yields, the result the sequence of runes written to the builder. -/
def truncVis (s : List Nat) (maxW : Int) : List Nat := truncVisLoop s maxW 0 false

/-! ## Library, constants and environment of the event handlers -/

/-- The standard-library functions the event handlers use beyond `StrOps`, whose result
depends on Unicode tables, on UTF-8 decoding or on the verbs of a format string. -/
structure GoLib extends StrOps where
  /-- The function `strings.EqualFold`. -/
  equalFold : Str → Str → Bool
  /-- The function `strings.TrimSpace`. -/
  trimSpace : Str → Str
  /-- The runes `for _, r := range s` yields. -/
  runes : Str → List Nat
  /-- The call `fmt.Sprintf(format, args...)` with string arguments. -/
  sprintf : Str → List Str → Str

/-- The `%s` substitution `fmt.Sprintf` performs on a format without other verbs. -/
def asciiSprintf : Str → List Str → Str
  | [], _ => []
  | [b], _ => [b]
  | 37 :: 115 :: rest, a :: args => a ++ asciiSprintf rest args
  | b :: c :: rest, args => b :: asciiSprintf (c :: rest) args

/-- The trimming `strings.TrimSpace` performs on ASCII strings. -/
def asciiTrimSpace (s : Str) : Str :=
  ((s.dropWhile isAsciiSpace).reverse.dropWhile isAsciiSpace).reverse

/-- The library functions restricted to ASCII input. -/
def asciiLib : GoLib :=
  { toStrOps := asciiOps
    equalFold := fun a b => decide (asciiToLower a = asciiToLower b)
    trimSpace := asciiTrimSpace
    runes := fun s => s
    sprintf := asciiSprintf }

/-- An ANSI escape sequence: ESC followed by ASCII text. -/
def esc (s : String) : Str := 27 :: ascii s

def rst : Str := esc "[0m"
def bold : Str := esc "[1m"
def fgRed : Str := esc "[31m"
def fgGreen : Str := esc "[32m"
def fgYellow : Str := esc "[33m"
def fgBlue : Str := esc "[34m"
def fgMagenta : Str := esc "[35m"
def fgCyan : Str := esc "[36m"
def fgWhite : Str := esc "[37m"
def fgGrey : Str := esc "[90m"

/-- The UTF-8 bytes of `←`. -/
def arrowL : Str := [0xE2, 0x86, 0x90]

/-- The UTF-8 bytes of `→`. -/
def arrowR : Str := [0xE2, 0x86, 0x92]

/-- The UTF-8 bytes of `│`. -/
def vbar : Str := [0xE2, 0x94, 0x82]

/-- The UTF-8 bytes of `─`. -/
def hbar : Str := [0xE2, 0x94, 0x80]

def defChan : Str := ascii "#superbowl"

def ircAddr : Str := ascii "irc.supernets.org:6667"

def words : List Str :=
  [ascii "dark", ascii "cyber", ascii "acid", ascii "hex", ascii "null", ascii "void",
   ascii "byte", ascii "neo", ascii "max", ascii "zed", ascii "fox", ascii "ace",
   ascii "dex", ascii "arc", ascii "zen", ascii "wolf", ascii "lynx", ascii "hawk",
   ascii "echo", ascii "nova", ascii "ash", ascii "sol", ascii "mint", ascii "jade",
   ascii "ruby", ascii "axel", ascii "rex", ascii "tux", ascii "blaze", ascii "storm",
   ascii "ghost", ascii "frost", ascii "steel", ascii "chrome", ascii "sigma"]

/-- The loop of `fmtDec`: the digits of `n`, put in front of `acc`. -/
def fmtDecLoop : Nat → Nat → Str → Str
  | 0, _, acc => acc
  | fuel + 1, n, acc =>
    if n < 10 then (48 + n) :: acc else fmtDecLoop fuel (n / 10) ((48 + n % 10) :: acc)

/-- The call `fmt.Sprintf("%d", n)` for `n ≥ 0`: the decimal digits of `n`. -/
def fmtDec (n : Nat) : Str := fmtDecLoop (n + 1) n []

/-- `randNick()` for the two draws `i = rand.Intn(len(words))` and `j = rand.Intn(900)`. -/
def randNick (i j : Nat) : Str := words.getD i [] ++ fmtDec (j + 100)

/-- What a handler reads from outside the session while it handles one line: the clock
text `time.Now().Format("15:04")` at each of its calls of `fmtMsg` (numbered in the order
of the calls), and the two draws of `randNick()`. -/
structure Env where
  now : Nat → Str
  word : Nat
  num : Nat

/-- `Session.fmtMsg(format, args...)` at clock text `now`. -/
def fmtMsg (G : GoLib) (now : Str) (format : Str) (args : List Str) : Str :=
  fgGrey ++ now ++ rst ++ ascii " " ++ G.sprintf format args

/-- `strings.Join(parts, sep)`. -/
def joinStr (sep : Str) : List Str → Str
  | [] => []
  | [a] => a
  | a :: b :: rest => a ++ sep ++ joinStr sep (b :: rest)

/-- `strings.Contains(s, sub)`. -/
def containsStr (s sub : Str) : Bool := decide (sub <:+: s)

/-- `strings.HasSuffix(s, suf)`. -/
def hasSuffix (s suf : Str) : Bool := suf.isSuffixOf s

/-! ## The roster map -/

/-- The lookup `v, ok := m[k]`, `none` when the key is absent. -/
def mapGet (m : List (Str × Str)) (k : Str) : Option Str :=
  (m.find? (fun e => decide (e.1 = k))).map Prod.snd

/-- The statement `delete(m, k)`. -/
def mapDelete (m : List (Str × Str)) (k : Str) : List (Str × Str) :=
  m.filter (fun e => decide (e.1 ≠ k))

/-- The statement `m[k] = v`. -/
def mapSet (m : List (Str × Str)) (k v : Str) : List (Str × Str) :=
  mapDelete m k ++ [(k, v)]

/-- The number of keys, `len(m)`. -/
def mapLen (m : List (Str × Str)) : Nat := (m.map Prod.fst).dedup.length

/-! ## IRC event handlers

Each handler is one case of the `switch m.command` in the reader loop of `run`.  Its result
is the session after and the lines handed to `ircSend`, in order; `none` is a run-time
panic.  What a handler writes to the client (`raw`, `draw`) is output only and is left out.
The sections a handler runs under the lock are taken together as one step. -/

/-- The statement `ch.addMsg(line)` through a channel pointer. -/
def Session.addMsg (s : Session) (ch : Ptr) (line : Str) : Session :=
  s.modify ch (fun c => c.addMsg line)

/-- `Session.addMsgTo(ch, line)`; `none` is the panic of `activeChan()`. -/
def Session.addMsgTo (s : Session) (ch : Ptr) (line : Str) : Option Session :=
  match (s.addMsg ch line).activeChan with
  | none => none
  | some a =>
    if ch ≠ a then some ((s.addMsg ch line).modify ch (fun c => { c with unread := true }))
    else some (s.addMsg ch line)

/-- The statement `s.activeChan().addMsg(line)`. -/
def Session.addMsgActive (s : Session) (line : Str) : Option Session :=
  match s.activeChan with
  | none => none
  | some a => some (s.addMsg a line)

/-- `Session.chansWithNick(nick)`. -/
def Session.chansWithNick (L : StrOps) (s : Session) (nick : Str) : List Ptr :=
  s.channels.filter (fun c => (mapGet (s.deref c).nicks (L.toLower nick)).isSome)

/-- The test `isNum` of the reader loop. -/
def isNum (m : ircMsg) : Bool :=
  decide (m.command.length ≥ 3 ∧ m.command.getD 0 0 ≥ 48 ∧ m.command.getD 0 0 ≤ 57)

/-- The routing of numeric replies to the status window, before the `switch`. -/
def Session.routeNumeric (G : GoLib) (E : Env) (s : Session) (m : ircMsg) : Option Session :=
  if isNum m = true ∧ m.command ≠ ascii "353" ∧ m.command ≠ ascii "366" then
    match m.trail with
    | none => none
    | some t =>
      let display := if t = [] then joinStr (ascii " ") m.params else t
      s.addMsgTo s.serverCh
        (fmtMsg G (E.now 0) (fgGrey ++ ascii "[" ++ m.command ++ ascii "]" ++ rst ++ ascii " %s")
          [display])
  else some s

/-- `case "001"`: the session after, the `joined` flag after, the lines sent. -/
def Session.on001 (G : GoLib) (E : Env) (s : Session) (joined : Bool) :
    Session × Bool × List Str :=
  if joined then (s, joined, [])
  else
    (s.addMsg s.serverCh
        (fmtMsg G (E.now 1)
          (fgGreen ++ bold ++ ascii "Connected! Type /help for commands" ++ rst) []),
      true, [ascii "JOIN " ++ defChan])

/-- `case "324"`. -/
def Session.on324 (L : StrOps) (s : Session) (m : ircMsg) : Session :=
  if m.params.length ≥ 3 then
    match s.getChan L (m.params.getD 1 []) with
    | some c => s.modify c (fun ch => { ch with mode := joinStr (ascii " ") (m.params.drop 2) })
    | none => s
  else s

/-- `case "332"`. -/
def Session.on332 (L : StrOps) (s : Session) (m : ircMsg) : Option Session :=
  if m.params.length ≥ 2 then
    match m.trail with
    | none => none
    | some topic =>
      match s.getChan L (m.params.getD 1 []) with
      | some c => some (s.modify c (fun ch => { ch with topic := topic }))
      | none => some s
  else some s

/-- The roster key of a name of a name-reply: `strings.ToLower(strings.TrimLeft(n, "~&@%+"))`. -/
def nickKey (L : StrOps) (n : Str) : Str := L.toLower (n.dropWhile isRankChar)

/-- The loop `for _, n := range names { c.nicks[key(n)] = n }` of `case "353"`. -/
def addNames (L : StrOps) (nicks : List (Str × Str)) (names : List Str) : List (Str × Str) :=
  names.foldl (fun m n => mapSet m (nickKey L n) n) nicks

/-- `case "353"`. -/
def Session.on353 (L : StrOps) (s : Session) (m : ircMsg) : Option Session :=
  match m.params.find? (fun p => hasPrefix p (ascii "#")) with
  | none => some s
  | some chName =>
    if chName = [] then some s
    else
      match m.trail with
      | none => none
      | some t =>
        match s.getChan L chName with
        | some c => some (s.modify c (fun ch => { ch with nicks := addNames L ch.nicks (L.fields t) }))
        | none => some s

/-- `case "433"`: the session after and the line sent. -/
def Session.on433 (G : GoLib) (E : Env) (s : Session) : Session × List Str :=
  (({ s with nick := randNick E.word E.num }).addMsg s.serverCh
      (fmtMsg G (E.now 1)
        (fgGrey ++ ascii "Nick taken, trying " ++ fgGreen ++ randNick E.word E.num ++ rst) []),
    [ascii "NICK " ++ randNick E.word E.num])

/-- The channel name `case "JOIN"` reads: `m.trail()`, or `m.params[0]` when that is empty. -/
def firstOrTrail (m : ircMsg) : Option Str :=
  match m.trail with
  | none => none
  | some t => if t = [] ∧ m.params.length > 0 then m.params.get? 0 else some t

/-- `case "JOIN"`. -/
def Session.onJoin (G : GoLib) (E : Env) (s : Session) (m : ircMsg) :
    Option (Session × List Str) :=
  match m.nick, firstOrTrail m with
  | some who, some chName =>
    if G.equalFold who s.nick then
      let r := s.getOrMakeChan G.toStrOps chName
      let s1 := r.2.modify r.1 (fun ch => { ch with nicks := [] })
      let s2 := s1.addMsg r.1
        (fmtMsg G (E.now 0) (fgGrey ++ ascii "Joined " ++ fgCyan ++ bold ++ chName ++ rst) [])
      let s3 := s2.addMsg r.1
        (fmtMsg G (E.now 1)
          (fgGrey ++ ascii "Type to chat " ++ vbar ++ ascii " /help for commands" ++ rst) [])
      some ((s3.switchTo G.toStrOps chName).2, [ascii "MODE " ++ chName])
    else
      match s.getChan G.toStrOps chName with
      | some c =>
        (((s.modify c (fun ch => { ch with nicks := mapSet ch.nicks (G.toLower who) who })).addMsgTo c
          (fmtMsg G (E.now 0) (fgGrey ++ arrowR ++ ascii " %s joined" ++ rst) [who])).map
          (fun s1 => (s1, [])))
      | none => some (s, [])
  | _, _ => none

/-- `case "PART"`. -/
def Session.onPart (G : GoLib) (E : Env) (s : Session) (m : ircMsg) : Option Session :=
  match m.nick with
  | none => none
  | some who =>
    let chName := if m.params.length > 0 then m.params.getD 0 [] else []
    if G.equalFold who s.nick then some (s.removeChan G.toStrOps chName)
    else
      match s.getChan G.toStrOps chName with
      | some c =>
        (s.modify c (fun ch => { ch with nicks := mapDelete ch.nicks (G.toLower who) })).addMsgTo c
          (fmtMsg G (E.now 0) (fgGrey ++ arrowL ++ ascii " %s left" ++ rst) [who])
      | none => some s

/-- The line `case "QUIT"` appends to a window, at clock text `now`. -/
def quitLine (G : GoLib) (now who reason : Str) : Str :=
  if reason ≠ [] then
    fmtMsg G now (fgGrey ++ arrowL ++ ascii " %s quit (%s)" ++ rst) [who, reason]
  else fmtMsg G now (fgGrey ++ arrowL ++ ascii " %s quit" ++ rst) [who]

/-- The loop `for _, c := range s.chansWithNick(who)` that `case "QUIT"` and `case "NICK"`
share: the roster of each window is updated by `upd`, then `addMsgTo` appends the line of
the pass; `k` numbers the calls of `fmtMsg`. -/
def Session.eachChan (upd : List (Str × Str) → List (Str × Str)) (line : Nat → Str) :
    Session → List Ptr → Nat → Option Session
  | s, [], _ => some s
  | s, c :: cs, k =>
    match (s.modify c (fun ch => { ch with nicks := upd ch.nicks })).addMsgTo c (line k) with
    | none => none
    | some s1 => Session.eachChan upd line s1 cs (k + 1)

/-- `case "QUIT"`. -/
def Session.onQuit (G : GoLib) (E : Env) (s : Session) (m : ircMsg) : Option Session :=
  match m.nick, m.trail with
  | some who, some reason =>
    s.eachChan (fun nicks => mapDelete nicks (G.toLower who))
      (fun k => quitLine G (E.now k) who reason) (s.chansWithNick G.toStrOps who) 0
  | _, _ => none

/-- The palette `nickColors`. -/
def nickColors : List Str := [fgRed, fgGreen, fgYellow, fgBlue, fgMagenta, fgCyan]

/-- One pass of the loop of `nickColor`: `h = h*31 + int(c)` in Go `int` arithmetic. -/
def hashStep (h : Int) (c : Nat) : Int := wrapInt (h * 31 + (c : Int))

/-- `nickColor(nick)`; `none` is the panic of an index outside the palette.  The Go `%`
truncates toward zero. -/
def nickColor (G : GoLib) (nick : Str) : Option Str :=
  let h := (G.runes nick).foldl hashStep 0
  let h := if h < 0 then wrapInt (-h) else h
  if 0 ≤ Int.tmod h 6 then nickColors.get? (Int.tmod h 6).toNat else none

/-- The chat line `<sender> msg` in the sender's colour. -/
def chatLine (G : GoLib) (now sender msg : Str) : Option Str :=
  (nickColor G sender).map (fun col =>
    fmtMsg G now (col ++ ascii "<%s>" ++ rst ++ ascii " %s") [sender, msg])

/-- The action line `* sender msg`. -/
def actionLine (G : GoLib) (now sender msg : Str) : Str :=
  fmtMsg G now (fgMagenta ++ ascii "* %s %s" ++ rst) [sender, msg]

/-- The test `isAction` of `case "PRIVMSG"`. -/
def isAction (msg : Str) : Bool := hasPrefix msg (1 :: ascii "ACTION ") && hasSuffix msg [1]

/-- The statement `c.highlight = true` when `c` is not the active window; `none` is the
panic of `activeChan()`. -/
def Session.highlightUnlessActive (s : Session) (c : Ptr) : Option Session :=
  match s.activeChan with
  | none => none
  | some a => if c ≠ a then some (s.modify c (fun ch => { ch with highlight := true })) else some s

/-- `case "PRIVMSG"`. -/
def Session.onPrivmsg (G : GoLib) (E : Env) (s : Session) (m : ircMsg) : Option Session :=
  match m.nick with
  | none => none
  | some sender =>
    if m.params.length < 2 then some s
    else
      match m.trail with
      | none => none
      | some msg0 =>
        match (if isAction msg0 then slice msg0 8 (msg0.length - 1) else some msg0) with
        | none => none
        | some msg =>
          if hasPrefix (m.params.getD 0 []) (ascii "#") then
            match s.getChan G.toStrOps (m.params.getD 0 []) with
            | none => some s
            | some c =>
              if isAction msg0 then s.addMsgTo c (actionLine G (E.now 0) sender msg)
              else if !G.equalFold sender s.nick then
                match chatLine G (E.now 0) sender msg with
                | none => none
                | some line =>
                  match s.addMsgTo c line with
                  | none => none
                  | some s1 =>
                    if containsStr (G.toLower msg) (G.toLower s1.nick) then
                      s1.highlightUnlessActive c
                    else some s1
              else some s
          else if G.equalFold (m.params.getD 0 []) s.nick then
            let r := s.getOrMakeChan G.toStrOps sender
            let line? := if isAction msg0 then some (actionLine G (E.now 0) sender msg)
              else chatLine G (E.now 0) sender msg
            match line? with
            | none => none
            | some line =>
              match r.2.addMsgTo r.1 line with
              | none => none
              | some s1 => s1.highlightUnlessActive r.1
          else some s

/-- `case "NOTICE"`. -/
def Session.onNotice (G : GoLib) (E : Env) (s : Session) (m : ircMsg) : Option Session :=
  match m.nick, m.trail with
  | some sender, some t =>
    if !containsStr m.pfx (ascii "!") then
      s.addMsgTo s.serverCh
        (fmtMsg G (E.now 0) (fgYellow ++ ascii "-%s-" ++ rst ++ ascii " %s") [sender, t])
    else
      s.addMsgActive
        (fmtMsg G (E.now 0) (fgYellow ++ ascii "-%s-" ++ rst ++ ascii " %s") [sender, t])
  | _, _ => none

/-- The roster update of `case "NICK"` for a third party: the rank characters of the old
display form are kept and put in front of the new name, the key moves from old to new. -/
def renameNick (L : StrOps) (nicks : List (Str × Str)) (who newN : Str) : List (Str × Str) :=
  match mapGet nicks (L.toLower who) with
  | some d =>
    mapSet (mapDelete nicks (L.toLower who)) (L.toLower newN) (d.takeWhile isRankChar ++ newN)
  | none => mapSet nicks (L.toLower newN) newN

/-- The line `case "NICK"` appends to a window, at clock text `now`. -/
def renameLine (G : GoLib) (now who newN : Str) : Str :=
  fmtMsg G now (fgGrey ++ ascii "%s " ++ arrowR ++ ascii " %s" ++ rst) [who, newN]

/-- `case "NICK"`. -/
def Session.onNick (G : GoLib) (E : Env) (s : Session) (m : ircMsg) : Option Session :=
  match m.nick, firstOrTrail m with
  | some who, some newN =>
    if G.equalFold who s.nick then
      ({ s with nick := newN }).addMsgActive
        (fmtMsg G (E.now 0) (fgGrey ++ ascii "You are now " ++ fgGreen ++ bold ++ newN ++ rst) [])
    else
      s.eachChan (fun nicks => renameNick G.toStrOps nicks who newN)
        (fun k => renameLine G (E.now k) who newN) (s.chansWithNick G.toStrOps who) 0
  | _, _ => none

/-- `case "KICK"`. -/
def Session.onKick (G : GoLib) (E : Env) (s : Session) (m : ircMsg) :
    Option (Session × List Str) :=
  if m.params.length < 2 then some (s, [])
  else
    match m.trail with
    | none => none
    | some reason =>
      if G.equalFold (m.params.getD 1 []) s.nick then
        match s.getChan G.toStrOps (m.params.getD 0 []) with
        | some c =>
          some (s.addMsg c
              (fmtMsg G (E.now 0) (fgRed ++ bold ++ ascii "Kicked! (%s) Rejoining..." ++ rst)
                [reason]),
            [ascii "JOIN " ++ m.params.getD 0 []])
        | none => some (s, [ascii "JOIN " ++ m.params.getD 0 []])
      else
        match s.getChan G.toStrOps (m.params.getD 0 []) with
        | some c =>
          ((s.modify c (fun ch =>
              { ch with nicks := mapDelete ch.nicks (G.toLower (m.params.getD 1 [])) })).addMsgTo c
            (fmtMsg G (E.now 0) (fgGrey ++ arrowL ++ ascii " %s kicked (%s)" ++ rst)
              [m.params.getD 1 [], reason])).map (fun s1 => (s1, []))
        | none => some (s, [])

/-- `case "MODE"`. -/
def Session.onMode (L : StrOps) (s : Session) (m : ircMsg) : Session × List Str :=
  if m.params.length > 0 ∧ hasPrefix (m.params.getD 0 []) (ascii "#") = true then
    ((match s.getChan L (m.params.getD 0 []) with
      | some c => s.modify c (fun ch => { ch with nicks := [] })
      | none => s),
     [ascii "MODE " ++ m.params.getD 0 [], ascii "NAMES " ++ m.params.getD 0 []])
  else (s, [])

/-- The `default` case: a command that is not numeric is shown in the status window. -/
def Session.onOther (G : GoLib) (E : Env) (s : Session) (m : ircMsg) : Option Session :=
  if isNum m = false then
    s.addMsgTo s.serverCh
      (fmtMsg G (E.now 0)
        (fgGrey ++ m.command ++ ascii " " ++ joinStr (ascii " ") m.params ++ rst) [])
  else some s

/-- The `switch m.command` of the reader loop, after the routing of numeric replies. -/
def Session.dispatch (G : GoLib) (E : Env) (s : Session) (joined : Bool) (m : ircMsg) :
    Option (Session × Bool × List Str) :=
  if m.command = ascii "PING" then m.trail.map (fun t => (s, joined, [ascii "PONG :" ++ t]))
  else if m.command = ascii "001" then some (s.on001 G E joined)
  else if m.command = ascii "324" then some (s.on324 G.toStrOps m, joined, [])
  else if m.command = ascii "332" then (s.on332 G.toStrOps m).map (fun s1 => (s1, joined, []))
  else if m.command = ascii "353" then (s.on353 G.toStrOps m).map (fun s1 => (s1, joined, []))
  else if m.command = ascii "366" then some (s, joined, [])
  else if m.command = ascii "433" then some ((s.on433 G E).1, joined, (s.on433 G E).2)
  else if m.command = ascii "JOIN" then (s.onJoin G E m).map (fun r => (r.1, joined, r.2))
  else if m.command = ascii "PART" then (s.onPart G E m).map (fun s1 => (s1, joined, []))
  else if m.command = ascii "QUIT" then (s.onQuit G E m).map (fun s1 => (s1, joined, []))
  else if m.command = ascii "PRIVMSG" then
    (s.onPrivmsg G E m).map (fun s1 => (s1, joined, []))
  else if m.command = ascii "NOTICE" then (s.onNotice G E m).map (fun s1 => (s1, joined, []))
  else if m.command = ascii "NICK" then (s.onNick G E m).map (fun s1 => (s1, joined, []))
  else if m.command = ascii "KICK" then (s.onKick G E m).map (fun r => (r.1, joined, r.2))
  else if m.command = ascii "MODE" then
    some ((s.onMode G.toStrOps m).1, joined, (s.onMode G.toStrOps m).2)
  else (s.onOther G E m).map (fun s1 => (s1, joined, []))

/-- The handling of one parsed server message: the routing of numeric replies, then the
`switch`.  The result is the session after, the `joined` flag after and the lines sent. -/
def Session.onMsg (G : GoLib) (E : Env) (s : Session) (joined : Bool) (m : ircMsg) :
    Option (Session × Bool × List Str) :=
  match s.routeNumeric G E m with
  | none => none
  | some s0 => s0.dispatch G E joined m

/-- The body of the reader loop for one line of the server. -/
def Session.onLine (G : GoLib) (E : Env) (s : Session) (joined : Bool) (rawLine : Str) :
    Option (Session × Bool × List Str) :=
  match parseIRC G.toStrOps rawLine with
  | none => none
  | some m => s.onMsg G E joined m

/-! ## handleInput

One call of `handleInput` is taken as one step; its result is the session after, `none` is
a run-time panic.  The lines handed to `ircSend` and what is written to the client are
output only and are left out. -/

/-- `Session.mainH()`. -/
def Session.mainH (s : Session) : Int :=
  if wrapInt (s.h - 3) < 1 then 1 else wrapInt (s.h - 3)

/-- The step `n` of `/nup` and `/ndown`: 5, or `simpleAtoi(arg)` when the argument is not
empty and that number is positive. -/
def scrollStep (arg : Str) : Int :=
  if arg ≠ [] ∧ simpleAtoi arg > 0 then simpleAtoi arg else 5

/-- `handleInput`, `case "/nup"`. -/
def Session.handleInputNup (s : Session) (arg : Str) : Option Session :=
  match s.activeChan with
  | none => none
  | some ac =>
    some (s.modify ac (fun c =>
      if wrapInt (c.nickScroll - scrollStep arg) < 0 then { c with nickScroll := 0 }
      else { c with nickScroll := wrapInt (c.nickScroll - scrollStep arg) }))

/-- The bound `maxScroll` of `case "/ndown"` for a roster of `total` entries. -/
def Session.maxScroll (s : Session) (total : Nat) : Int :=
  if wrapInt (wrapInt ((total : Int) - s.mainH) + 2) < 0 then 0
  else wrapInt (wrapInt ((total : Int) - s.mainH) + 2)

/-- `handleInput`, `case "/ndown", "/nd"`. -/
def Session.handleInputNdown (s : Session) (arg : Str) : Option Session :=
  match s.activeChan with
  | none => none
  | some ac =>
    some (s.modify ac (fun c =>
      if wrapInt (c.nickScroll + scrollStep arg) > s.maxScroll (mapLen c.nicks) then
        { c with nickScroll := s.maxScroll (mapLen c.nicks) }
      else { c with nickScroll := wrapInt (c.nickScroll + scrollStep arg) }))

/-- `strings.SplitN(text, " ", 2)`: the first part, and the second part (empty when there
is none). -/
def splitSpace (text : Str) : Str × Str :=
  match indexByte text 32 with
  | none => (text, [])
  | some i => (text.take i, text.drop (i + 1))

/-- The arrow characters of the help text, in UTF-8. -/
def arrowUp : Str := [0xE2, 0x86, 0x91]

/-- The arrow down. -/
def arrowDown : Str := [0xE2, 0x86, 0x93]

/-- The lines of `case "/help"`. -/
def helpLines : List Str :=
  [ fgCyan ++ bold ++ hbar ++ hbar ++ ascii " Commands " ++ hbar ++ hbar ++ rst,
    fgGreen ++ ascii " /join #channel  " ++ rst ++ ascii " Join a channel",
    fgGreen ++ ascii " /part [#chan]    " ++ rst ++ ascii " Leave channel/close PM",
    fgGreen ++ ascii " /sw <N|#chan>    " ++ rst ++ ascii " Switch window",
    fgGreen ++ ascii " /nick <name>    " ++ rst ++ ascii " Change nick",
    fgGreen ++ ascii " /me <action>    " ++ rst ++ ascii " Action message",
    fgGreen ++ ascii " /msg <to> [txt] " ++ rst ++ ascii " Open PM (optional msg)",
    fgGreen ++ ascii " /query <nick>   " ++ rst ++ ascii " Open PM window",
    fgGreen ++ ascii " /close          " ++ rst ++ ascii " Close current window",
    fgGreen ++ ascii " /topic [text]   " ++ rst ++ ascii " View/set topic",
    fgCyan ++ bold ++ hbar ++ hbar ++ ascii " Panels " ++ hbar ++ hbar ++ rst,
    fgGreen ++ ascii " /nl             " ++ rst ++ ascii " Toggle nicklist",
    fgGreen ++ ascii " /cl             " ++ rst ++ ascii " Toggle channel list",
    fgGreen ++ ascii " /nup [N]        " ++ rst ++ ascii " Scroll nicks up",
    fgGreen ++ ascii " /nd [N]         " ++ rst ++ ascii " Scroll nicks down",
    fgCyan ++ bold ++ hbar ++ hbar ++ ascii " Other " ++ hbar ++ hbar ++ rst,
    fgGreen ++ ascii " /rd             " ++ rst ++ ascii " Redraw screen",
    fgGreen ++ ascii " /resize         " ++ rst ++ ascii " Re-detect term size",
    fgGreen ++ ascii " /quit           " ++ rst ++ ascii " Disconnect",
    [],
    fgGrey ++ ascii " " ++ arrowUp ++ ascii "/" ++ arrowDown ++
      ascii " + Enter = command history" ++ rst ]

/-- The loop `for _, l := range help { ac.addMsg(s.fmtMsg(l)) }`; `k` numbers the calls of
`fmtMsg`. -/
def Session.addLines (G : GoLib) (E : Env) (ac : Ptr) : Session → List Str → Nat → Session
  | s, [], _ => s
  | s, l :: ls, k => Session.addLines G E ac (s.addMsg ac (fmtMsg G (E.now k) l [])) ls (k + 1)

/-- `handleInput` on a text that does not start with `/`: the line typed goes to the
active window, unless that is the status window. -/
def Session.handleInputText (G : GoLib) (E : Env) (s : Session) (text : Str) : Option Session :=
  match s.activeChan with
  | none => none
  | some ac =>
    if (s.deref ac).name = statusName then
      some (s.addMsg s.serverCh
        (fmtMsg G (E.now 0) (fgGrey ++ ascii "Cannot send to status. Use /join #channel" ++ rst)
          []))
    else
      match nickColor G s.nick with
      | none => none
      | some col =>
        some (s.addMsg ac
          (fmtMsg G (E.now 0) (col ++ ascii "<%s>" ++ rst ++ ascii " %s") [s.nick, text]))

/-- `handleInput`, `case "/sw", "/switch", "/w"`. -/
def Session.handleInputSw (L : StrOps) (s : Session) (arg : Str) : Session :=
  if arg = [] then s
  else if arg.getD 0 0 ≥ 48 ∧ arg.getD 0 0 ≤ 57 then (s.switchToIdx (simpleAtoi arg)).2
  else (s.switchTo L arg).2

/-- `handleInput`, `case "/me"`. -/
def Session.handleInputMe (G : GoLib) (E : Env) (s : Session) (arg : Str) : Option Session :=
  if arg = [] then some s
  else
    match s.activeChan with
    | none => none
    | some ac =>
      if (s.deref ac).name = statusName then some s
      else
        some (s.addMsg ac
          (fmtMsg G (E.now 0) (fgMagenta ++ ascii "* %s %s" ++ rst) [s.nick, arg]))

/-- `handleInput`, `case "/msg"`. -/
def Session.handleInputMsg (G : GoLib) (E : Env) (s : Session) (arg : Str) : Option Session :=
  if (splitSpace arg).1 ≠ [] then
    let r := s.getOrMakeChan G.toStrOps (splitSpace arg).1
    if (splitSpace arg).2 ≠ [] then
      match nickColor G r.2.nick with
      | none => none
      | some col =>
        some (((r.2.addMsg r.1
          (fmtMsg G (E.now 0) (col ++ ascii "<%s>" ++ rst ++ ascii " %s")
            [r.2.nick, (splitSpace arg).2])).switchTo G.toStrOps (splitSpace arg).1).2)
    else some (r.2.switchTo G.toStrOps (splitSpace arg).1).2
  else some s

/-- `handleInput`, `case "/query", "/q"`. -/
def Session.handleInputQuery (L : StrOps) (s : Session) (arg : Str) : Option Session :=
  if arg = [] then some s
  else
    match (L.fields arg).head? with
    | none => none
    | some target => some (((s.getOrMakeChan L target).2).switchTo L target).2

/-- `handleInput`, `case "/nicklist", "/nl"`. -/
def Session.handleInputNl (G : GoLib) (E : Env) (s : Session) : Option Session :=
  ({ s with showNick := !s.showNick }).addMsgActive
    (fmtMsg G (E.now 0)
      (fgGrey ++ ascii "Nicklist " ++ (if !s.showNick then ascii "shown" else ascii "hidden") ++
        ascii " [/nl]" ++ rst) [])

/-- `handleInput`, `case "/chanlist", "/cl"`. -/
def Session.handleInputCl (G : GoLib) (E : Env) (s : Session) : Option Session :=
  ({ s with showChan := !s.showChan }).addMsgActive
    (fmtMsg G (E.now 0)
      (fgGrey ++ ascii "Channel list " ++
        (if !s.showChan then ascii "shown" else ascii "hidden") ++ ascii " [/cl]" ++ rst) [])

/-- The `switch cmd` of `handleInput`. -/
def Session.handleInputCmd (G : GoLib) (E : Env) (s : Session) (cmd arg : Str) :
    Option Session :=
  if cmd = ascii "/quit" ∨ cmd = ascii "/exit" then
    (s.addMsgActive (fmtMsg G (E.now 0) (fgGrey ++ ascii "Goodbye." ++ rst) [])).map
      (fun s1 => { s1 with alive := false })
  else if cmd = ascii "/join" ∨ cmd = ascii "/j" then
    (if arg = [] then some s else ((G.fields arg).head?).map (fun _ => s))
  else if cmd = ascii "/part" ∨ cmd = ascii "/leave" then s.handleInputPart G.toStrOps arg
  else if cmd = ascii "/sw" ∨ cmd = ascii "/switch" ∨ cmd = ascii "/w" then
    some (s.handleInputSw G.toStrOps arg)
  else if cmd = ascii "/nick" then some s
  else if cmd = ascii "/me" then s.handleInputMe G E arg
  else if cmd = ascii "/msg" then s.handleInputMsg G E arg
  else if cmd = ascii "/query" ∨ cmd = ascii "/q" then s.handleInputQuery G.toStrOps arg
  else if cmd = ascii "/close" then s.handleInputClose G.toStrOps
  else if cmd = ascii "/topic" then s.activeChan.map (fun _ => s)
  else if cmd = ascii "/nicklist" ∨ cmd = ascii "/nl" then s.handleInputNl G E
  else if cmd = ascii "/chanlist" ∨ cmd = ascii "/cl" then s.handleInputCl G E
  else if cmd = ascii "/nup" then s.handleInputNup arg
  else if cmd = ascii "/ndown" ∨ cmd = ascii "/nd" then s.handleInputNdown arg
  else if cmd = ascii "/redraw" ∨ cmd = ascii "/rd" then some s
  else if cmd = ascii "/resize" then
    s.addMsgActive (fmtMsg G (E.now 0) (fgGrey ++ ascii "Querying terminal size..." ++ rst) [])
  else if cmd = ascii "/help" then s.activeChan.map (fun ac => s.addLines G E ac helpLines 0)
  else
    s.addMsgActive (fmtMsg G (E.now 0) (fgGrey ++ ascii "Unknown command. Type /help" ++ rst) [])

/-- `Session.handleInput(text)`. -/
def Session.handleInput (G : GoLib) (E : Env) (s : Session) (text : Str) : Option Session :=
  if hasPrefix text (ascii "/") = false then s.handleInputText G E text
  else
    s.handleInputCmd G E (commandOf G.toStrOps text).1 (commandOf G.toStrOps text).2

/-! ## clientReader.ReadLine -/

/-- `strings.TrimRight(s, "\r")`. -/
def trimRightCR (s : Str) : Str := (s.reverse.dropWhile (fun b => b == 13)).reverse

/-- `clientReader.ReadLine()`.  `reads` holds what the calls of `conn.Read` still to come
deliver, one entry for each successful call; the call after the last entry fails.  The
result is the line returned, the reader after and the reads not yet made; `none` is the
error return. -/
def clientReader.ReadLine (G : GoLib) : clientReader → List Str →
    Option (Str × clientReader × List Str)
  | r, [] =>
    match indexByte r.extractCPR.buf 10 with
    | some i =>
      some (G.trimSpace (trimRightCR (r.extractCPR.buf.take i)),
        { r.extractCPR with buf := r.extractCPR.buf.drop (i + 1) }, [])
    | none => none
  | r, d :: reads =>
    match indexByte r.extractCPR.buf 10 with
    | some i =>
      some (G.trimSpace (trimRightCR (r.extractCPR.buf.take i)),
        { r.extractCPR with buf := r.extractCPR.buf.drop (i + 1) }, d :: reads)
    | none => clientReader.ReadLine G (r.extractCPR.ingest d) reads

/-! ## The column math of draw -/

/-- `Session.clW()`. -/
def Session.clW (s : Session) : Int :=
  if s.showChan = false ∨ s.w < 50 then 0 else chanListW

/-- `Session.nlW()`. -/
def Session.nlW (s : Session) : Int :=
  if s.showNick = false ∨ s.w < 60 then 0 else nickListW

/-- The widths `draw` computes before it builds the frame: `clW`, `nlW` (0 when the name
of the active window does not start with `#`), `seps` and `cw`; `none` is the panic of
`activeChan()`. -/
def Session.drawColumns (s : Session) : Option (Int × Int × Int × Int) :=
  match s.activeChan with
  | none => none
  | some ac =>
    let clW := s.clW
    let nlW := if hasPrefix (s.deref ac).name (ascii "#") = false then 0 else s.nlW
    let seps : Int := 0
    let seps := if clW > 0 then wrapInt (seps + 1) else seps
    let seps := if nlW > 0 then wrapInt (seps + 1) else seps
    let cw := wrapInt (wrapInt (wrapInt (s.w - clW) - nlW) - seps)
    let cw := if cw < 5 then 5 else cw
    some (clW, nlW, seps, cw)

/-! ## truncVis on strings: UTF-8 decoding and encoding

`truncVis` reads its argument with `for _, r := range s` and writes with
`strings.Builder.WriteRune`.  The two definitions below are those two steps of the Go
language and library: the decoding of one rune at the head of a string, with U+FFFD and
width 1 for a byte that does not start a well-formed sequence, and the encoding of one
rune, with U+FFFD for a value that is no Unicode scalar. -/

/-- A UTF-8 continuation byte. -/
def isCont (b : Nat) : Bool := 0x80 ≤ b && b ≤ 0xBF

/-- The rune at the head of a string and its width in bytes, as `range` over a string
decodes it.  The sums are the Go expressions `b0&mask<<k | b1&0x3F<<j | ...`, whose bit
fields do not overlap. -/
def decodeRune (s : Str) : Nat × Nat :=
  if s.getD 0 0 < 0x80 then (s.getD 0 0, 1)
  else if 0xC2 ≤ s.getD 0 0 ∧ s.getD 0 0 ≤ 0xDF then
    if 2 ≤ s.length ∧ isCont (s.getD 1 0) = true then
      ((s.getD 0 0 - 0xC0) * 64 + (s.getD 1 0 - 0x80), 2)
    else (0xFFFD, 1)
  else if 0xE0 ≤ s.getD 0 0 ∧ s.getD 0 0 ≤ 0xEF then
    if 3 ≤ s.length ∧ (if s.getD 0 0 = 0xE0 then 0xA0 else 0x80) ≤ s.getD 1 0 ∧
        s.getD 1 0 ≤ (if s.getD 0 0 = 0xED then 0x9F else 0xBF) ∧
        isCont (s.getD 2 0) = true then
      ((s.getD 0 0 - 0xE0) * 4096 + (s.getD 1 0 - 0x80) * 64 + (s.getD 2 0 - 0x80), 3)
    else (0xFFFD, 1)
  else if 0xF0 ≤ s.getD 0 0 ∧ s.getD 0 0 ≤ 0xF4 then
    if 4 ≤ s.length ∧ (if s.getD 0 0 = 0xF0 then 0x90 else 0x80) ≤ s.getD 1 0 ∧
        s.getD 1 0 ≤ (if s.getD 0 0 = 0xF4 then 0x8F else 0xBF) ∧
        isCont (s.getD 2 0) = true ∧ isCont (s.getD 3 0) = true then
      ((s.getD 0 0 - 0xF0) * 262144 + (s.getD 1 0 - 0x80) * 4096 + (s.getD 2 0 - 0x80) * 64
        + (s.getD 3 0 - 0x80), 4)
    else (0xFFFD, 1)
  else (0xFFFD, 1)

/-- The loop `for _, r := range s`: decode a rune, step over its bytes.  Every pass
consumes at least one byte, so `len(s)` passes are enough. -/
def utf8RunesLoop : Nat → Str → List Nat
  | 0, _ => []
  | fuel + 1, s =>
    if s = [] then [] else (decodeRune s).1 :: utf8RunesLoop fuel (s.drop (decodeRune s).2)

/-- The runes `for _, r := range s` yields. -/
def utf8Runes (s : Str) : List Nat := utf8RunesLoop s.length s

/-- The bytes `WriteRune(r)` appends.  The sums are the Go expressions `t | byte(r>>k)`,
`tx | byte(r>>j)&maskx`, whose bit fields do not overlap. -/
def encodeRune (r : Nat) : Str :=
  if r ≤ 0x7F then [r]
  else if r ≤ 0x7FF then [0xC0 + r / 64, 0x80 + r % 64]
  else if r > 0x10FFFF ∨ (0xD800 ≤ r ∧ r ≤ 0xDFFF) then [0xEF, 0xBF, 0xBD]
  else if r ≤ 0xFFFF then [0xE0 + r / 4096, 0x80 + r / 64 % 64, 0x80 + r % 64]
  else [0xF0 + r / 262144, 0x80 + r / 4096 % 64, 0x80 + r / 64 % 64, 0x80 + r % 64]

/-- The string a run of `WriteRune` calls builds. -/
def utf8Encode (rs : List Nat) : Str := (rs.map encodeRune).flatten

/-- `truncVis(s, maxW)` on strings. -/
def truncVisStr (s : Str) (maxW : Int) : Str := utf8Encode (truncVis (utf8Runes s) maxW)

/-! ## The colour of a roster entry -/

/-- `nickDisplayColor(n)`: the colour of the rank the first character stands for; the loop
returns in its first pass.  A rank character is ASCII, so the first rune is one of them
exactly when the first byte is. -/
def nickDisplayColor (n : Str) : Str :=
  match n with
  | [] => fgWhite
  | ch :: _ =>
    if ch = 126 then fgRed ++ bold
    else if ch = 38 then fgRed
    else if ch = 64 then fgGreen
    else if ch = 37 then fgCyan
    else if ch = 43 then fgYellow
    else fgWhite

/-! ## Specification vocabulary -/

/-- The last `n` entries of a list, in their order. -/
def lastN {α : Type} (n : Nat) (l : List α) : List α := l.drop (l.length - n)

/-- The list without the first occurrence of `x`. -/
def eraseFirst {α : Type} [DecidableEq α] (l : List α) (x : α) : List α := l.erase x

/-- The wire form of what follows the command: each middle parameter followed by a space,
then `:` and the trailing parameter. -/
def tokens : List Str → Str → Str
  | [], t => 58 :: t
  | m :: ms, t => m ++ 32 :: tokens ms t

/-- A middle token of an IRC line: not empty, without a space, not starting with `:`. -/
def isMiddle (m : Str) : Prop := m ≠ [] ∧ 32 ∉ m ∧ m.head? ≠ some 58

instance (m : Str) : Decidable (isMiddle m) := by unfold isMiddle; infer_instance

/-- The number written by a run of decimal digit bytes. -/
def decVal (ds : Str) : Nat := ds.foldl (fun n d => n * 10 + (d - 48)) 0

/-- A run of decimal digit bytes, `'0'..'9'`. -/
def isDigits (ds : Str) : Prop := ∀ d ∈ ds, 48 ≤ d ∧ d ≤ 57

instance (ds : Str) : Decidable (isDigits ds) := by unfold isDigits; infer_instance

/-- A complete telnet unit, as one pass of the loop of `ingest` consumes it: a data byte
other than IAC; IAC followed by a byte that is neither SB nor WILL, WONT, DO, DONT (this
includes IAC IAC); IAC, one of WILL, WONT, DO, DONT, and an option byte; or IAC SB, a
payload in which no IAC is directly followed by SE, and IAC SE. -/
inductive IsUnit : Str → Prop
  | data (b : Nat) (h : b ≠ iacByte) : IsUnit [b]
  | two (x : Nat) (h : x ∉ [iacSB, iacWILL, iacWONT, iacDO, iacDONT]) : IsUnit [iacByte, x]
  | neg (v o : Nat) (h : v ∈ [iacWILL, iacWONT, iacDO, iacDONT]) : IsUnit [iacByte, v, o]
  | sub (p : Str) (h : ¬ [iacByte, iacSE] <:+: p) :
      IsUnit ([iacByte, iacSB] ++ p ++ [iacByte, iacSE])

/-- The rank of a character: `~` 0, `&` 1, `@` 2, `%` 3, `+` 4, any other 5. -/
def rankOf (c : Nat) : Nat :=
  if c = 126 then 0 else if c = 38 then 1 else if c = 64 then 2 else if c = 37 then 3
  else if c = 43 then 4 else 5

/-- The tier of a display form: the rank of its leading character, 5 for the empty one. -/
def tier : Str → Nat
  | [] => 5
  | c :: _ => rankOf c

/-- The name of a display form: what follows its leading run of rank-prefix characters. -/
def nickName (display : Str) : Str := display.dropWhile isRankChar

/-- The order the specification gives for two neighbours of the sorted roster: a lower
tier first, and within a tier the lower-cased names in byte order. -/
def tierNameLe (L : StrOps) (a b : Str) : Prop :=
  tier a < tier b ∨
    (tier a = tier b ∧ strLess (L.toLower (nickName b)) (L.toLower (nickName a)) = false)

instance (L : StrOps) (a b : Str) : Decidable (tierNameLe L a b) :=
  inferInstanceAs (Decidable (tier a < tier b ∨
    (tier a = tier b ∧ strLess (L.toLower (nickName b)) (L.toLower (nickName a)) = false)))

/-- A display form with at most one leading rank-prefix character. -/
def singleRank (display : Str) : Prop := (display.takeWhile isRankChar).length ≤ 1

instance (display : Str) : Decidable (singleRank display) :=
  inferInstanceAs (Decidable ((display.takeWhile isRankChar).length ≤ 1))

/-- What the specification's order needs of `strings.ToLower`: a leading rank-prefix
character is kept and the rest is lower-cased on its own. -/
def keepsRank (L : StrOps) : Prop :=
  ∀ (c : Nat) (s : Str), isRankChar c = true → L.toLower (c :: s) = c :: L.toLower s

/-- The lower-cased names of the windows, in window order. -/
def Session.lowNames (L : StrOps) (s : Session) : List Str :=
  s.channels.map (fun p => L.toLower (s.deref p).name)

/-- Every window pointer refers to an allocated `Channel` object. -/
def Session.allocated (s : Session) : Prop := ∀ p ∈ s.channels, p < s.heap.length

instance (s : Session) : Decidable s.allocated :=
  inferInstanceAs (Decidable (∀ p ∈ s.channels, p < s.heap.length))

/-- The number of visible runes of a rune sequence read from a position inside (`inEsc`) or
outside an escape sequence: an escape sequence runs from an ESC rune up to and including
the next ASCII letter, and a rune is visible when it lies outside every escape sequence. -/
def visCount : List Nat → Bool → Nat
  | [], _ => 0
  | r :: rest, inEsc =>
    if r = 27 then visCount rest true
    else if inEsc then visCount rest (!isAsciiLetter r)
    else visCount rest false + 1

/-- The representation invariant of a session: `active` is not negative, the windows are
distinct `Channel` objects, and every window pointer is allocated. -/
def Session.wf (s : Session) : Prop := 0 ≤ s.active ∧ s.channels.Nodup ∧ s.allocated

instance (s : Session) : Decidable s.wf :=
  inferInstanceAs (Decidable (0 ≤ s.active ∧ s.channels.Nodup ∧ s.allocated))

/-- What one pass of the loop of QUIT and NICK does to the window `c` it visits, `a` being
the active window: the roster is updated, the line appended, and the window marked unread
unless it is the active one. -/
def chanStep (upd : List (Str × Str) → List (Str × Str)) (line : Str) (a c : Ptr)
    (ch : Channel) : Channel :=
  if c ≠ a then { ({ ch with nicks := upd ch.nicks }).addMsg line with unread := true }
  else ({ ch with nicks := upd ch.nicks }).addMsg line

/-- The last name of a name-reply that has the roster key `key`. -/
def lastWithKey (L : StrOps) (names : List Str) (key : Str) : Option Str :=
  names.reverse.find? (fun n => decide (nickKey L n = key))

/-- The nick-list scroll offsets of all channel objects, in allocation order. -/
def Session.scrolls (s : Session) : List Int := s.heap.map (fun c => c.nickScroll)

/-- Between two sessions every channel object kept its scroll offset, and the objects
allocated in between have offset 0. -/
def scrollsKept (s s' : Session) : Prop := ∃ k, s'.scrolls = s.scrolls ++ List.replicate k 0

/-- The command word of a text is `/ndown` or `/nd`. -/
def isNdown (L : StrOps) (text : Str) : Prop :=
  hasPrefix text (ascii "/") = true ∧
    ((commandOf L text).1 = ascii "/ndown" ∨ (commandOf L text).1 = ascii "/nd")

/-- The sum `ac.nickScroll + n` of `/ndown` stays inside the Go `int` range. -/
def scrollFits (L : StrOps) (s : Session) (text : Str) : Prop :=
  isNdown L text → ∀ a, s.activeChan = some a →
    (s.deref a).nickScroll + scrollStep (commandOf L text).2 < 2 ^ 63

/-- The session states `run` goes through: from `newSession`, by the lines `run` itself
writes to the status window, by lines of the server, by geometry changes (`resize` is
called by `ingest` and `extractCPR` with a width above 10 and a height above 5), by
`addHistory` and by lines typed, where no `/ndown` overflows. -/
inductive Reach (G : GoLib) : Session → Prop
  | start (nick : Str) : Reach G (newSession nick)
  | status (s : Session) (line : Str) : Reach G s → Reach G (s.addMsg s.serverCh line)
  | irc (E : Env) (s : Session) (joined : Bool) (line : Str) (s' : Session) (j : Bool)
      (out : List Str) : Reach G s → s.onLine G E joined line = some (s', j, out) → Reach G s'
  | geom (s : Session) (w h : Int) : Reach G s → w > 10 → h > 5 → Reach G (s.resize w h)
  | hist (s : Session) (line : Str) : Reach G s → Reach G (s.addHistory line)
  | input (E : Env) (s : Session) (text : Str) (s' : Session) : Reach G s →
      s.handleInput G E text = some s' → scrollFits G.toStrOps s text → Reach G s'

/-- An example session with the windows `*status`, `#a`, `#b`, `#c`, the third one active. -/
def fourWindows : Session :=
  { newSession (ascii "neo123") with
    heap := [newChannel statusName, newChannel (ascii "#a"), newChannel (ascii "#b"),
      newChannel (ascii "#c")],
    channels := [0, 1, 2, 3], active := 2 }

/-- A run of digits and `;`, the body of a cursor-position report. -/
def isNums (ds : Str) : Prop := ∀ x ∈ ds, (48 ≤ x ∧ x ≤ 57) ∨ x = 59

/-- The buffer holds a cursor-position report: `ESC [`, a run of digits and `;`, then `R`. -/
def hasReport (buf : Str) : Prop :=
  ∃ pre nums post, isNums nums ∧ buf = pre ++ 27 :: 91 :: (nums ++ 82 :: post)

/-- A buffer made of stretches of bytes and of cursor-position reports: the stretch `d0`,
then for each pair `(nums, d)` the report `ESC [ nums R` and the stretch `d`. -/
def cprBuffer (d0 : Str) : List (Str × Str) → Str
  | [] => d0
  | p :: ps => d0 ++ 27 :: 91 :: (p.1 ++ 82 :: cprBuffer p.2 ps)

/-- The stretches of such a buffer without the reports. -/
def cprData (d0 : Str) : List (Str × Str) → Str
  | [] => d0
  | p :: ps => d0 ++ cprData p.2 ps

/-- The number of passes the loop of `extractCPR` makes over such a buffer. -/
def cprPasses (d0 : Str) : List (Str × Str) → Nat
  | [] => d0.length
  | p :: ps => d0.length + (cprPasses p.2 ps + 1)

/-- A Unicode scalar value: a code point outside the surrogate range. -/
def validRune (r : Nat) : Prop := r < 0xD800 ∨ (0xE000 ≤ r ∧ r ≤ 0x10FFFF)

/-! # Theorems -/

/-! ## Channel.addMsg -/

theorem lastN_length_le {α : Type} (n : Nat) (l : List α) : (lastN n l).length ≤ n := by
  simp only [lastN, List.length_drop]; omega

theorem lastN_append_lastN {α : Type} (n : Nat) (a b : List α) :
    lastN n (lastN n a ++ b) = lastN n (a ++ b) := by
  simp only [lastN, List.length_append, List.length_drop]
  by_cases h : a.length ≤ n
  · have : a.length - n = 0 := by omega
    simp [this]
  · have e1 : a.length - (a.length - n) + b.length - n = b.length := by omega
    have e2 : a.length + b.length - n = (a.length - n) + b.length := by omega
    have e3 : (a ++ b).drop (a.length - n) = a.drop (a.length - n) ++ b :=
      List.drop_append_of_le_length (by omega)
    rw [e1, e2, ← List.drop_drop, e3]

theorem addMsg_msgs (c : Channel) (x : Str) :
    (c.addMsg x).msgs = lastN maxMsgs (c.msgs ++ [x]) := by
  unfold Channel.addMsg lastN
  by_cases h : (c.msgs ++ [x]).length > maxMsgs
  · rw [if_pos h]
  · have : (c.msgs ++ [x]).length - maxMsgs = 0 := by omega
    rw [if_neg h, this, List.drop_zero]

theorem foldl_addMsg_msgs (xs : List Str) (c : Channel) (h : c.msgs.length ≤ maxMsgs) :
    (xs.foldl Channel.addMsg c).msgs = lastN maxMsgs (c.msgs ++ xs) := by
  induction xs generalizing c with
  | nil =>
    have : c.msgs.length - maxMsgs = 0 := by omega
    simp [lastN, this]
  | cons x xs ih =>
    rw [List.foldl_cons, ih _ (by rw [addMsg_msgs]; exact lastN_length_le _ _), addMsg_msgs,
      lastN_append_lastN, List.append_assoc, List.singleton_append]

/-- C1: on a window holding at most 500 lines, `addMsg x` leaves the last
`min (len + 1) 500` entries of `msgs ++ [x]`; after appending any sequence `xs` the window
holds the last 500 entries of `msgs ++ xs`, never more than 500, and once 500 or more lines
were appended exactly the 500 most recent of them, in append order. -/
theorem addMsg_keeps_most_recent (c : Channel) (x : Str) (h : c.msgs.length ≤ 500) :
    (c.addMsg x).msgs = lastN (min (c.msgs.length + 1) 500) (c.msgs ++ [x]) ∧
    (c.addMsg x).msgs.length ≤ 500 ∧
    ∀ xs : List Str,
      (xs.foldl Channel.addMsg c).msgs = lastN 500 (c.msgs ++ xs) ∧
      (xs.foldl Channel.addMsg c).msgs.length ≤ 500 ∧
      (500 ≤ xs.length → (xs.foldl Channel.addMsg c).msgs = lastN 500 xs) := by
  have hm : maxMsgs = 500 := rfl
  refine ⟨?_, ?_, ?_⟩
  · rw [addMsg_msgs, hm]
    simp only [lastN, List.length_append, List.length_singleton]
    have e : c.msgs.length + 1 - min (c.msgs.length + 1) 500 = c.msgs.length + 1 - 500 := by
      omega
    rw [e]
  · rw [addMsg_msgs]; exact lastN_length_le _ _
  · intro xs
    have e := foldl_addMsg_msgs xs c (by rw [hm]; exact h)
    rw [hm] at e
    refine ⟨e, ?_, ?_⟩
    · rw [e]; exact lastN_length_le _ _
    · intro hx
      rw [e]
      simp only [lastN, List.length_append]
      have : c.msgs.length + xs.length - 500 = c.msgs.length + (xs.length - 500) := by omega
      rw [this, ← List.drop_drop, List.drop_left]

/-- A window at capacity: appending one more line keeps 500 lines. -/
theorem addMsg_keeps_most_recent_witness :
    ({ newChannel [35, 97] with msgs := List.replicate 500 [48] }.addMsg [49]).msgs.length
      ≤ 500 :=
  (addMsg_keeps_most_recent { newChannel [35, 97] with msgs := List.replicate 500 [48] } [49]
    (le_of_eq (List.length_replicate 500 [48]))).2.1

/-! ## Session.addHistory -/

theorem findIdx?_splice {α : Type} [DecidableEq α] (l : List α) (x : α) :
    (match l.findIdx? (fun h => decide (h = x)) with
      | some i => l.take i ++ l.drop (i + 1)
      | none => l) = eraseFirst l x := by
  unfold eraseFirst
  induction l with
  | nil => rfl
  | cons y ys ih =>
    by_cases hy : y = x
    · subst hy; simp
    · have h1 : List.findIdx? (fun h => decide (h = x)) (y :: ys)
          = (List.findIdx? (fun h => decide (h = x)) ys).map (· + 1) := by
        rw [List.findIdx?_cons, if_neg (by simpa using hy), List.findIdx?_succ]
      rw [h1, List.erase_cons_tail (by simpa using hy), ← ih]
      cases List.findIdx? (fun h => decide (h = x)) ys <;> simp

theorem eraseFirst_eq_filter {α : Type} [DecidableEq α] {l : List α} (hnd : l.Nodup) (x : α) :
    eraseFirst l x = l.filter (fun y => decide (y ≠ x)) := by
  rw [eraseFirst, List.Nodup.erase_eq_filter hnd]
  refine List.filter_congr (fun y _ => ?_)
  by_cases h : y = x <;> simp [h]

theorem eraseFirst_append_nodup {α : Type} [DecidableEq α] {l : List α} (hnd : l.Nodup) (x : α) :
    (eraseFirst l x ++ [x]).Nodup := by
  unfold eraseFirst
  rw [List.nodup_append]
  refine ⟨hnd.erase x, List.nodup_singleton x, ?_⟩
  intro a ha hx
  rw [List.mem_singleton] at hx
  subst hx
  exact (List.Nodup.not_mem_erase hnd) ha

theorem eraseFirst_length_le {α : Type} [DecidableEq α] (l : List α) (x : α) :
    (eraseFirst l x).length ≤ l.length := List.length_erase_le x l

theorem eraseFirst_length_of_mem {α : Type} [DecidableEq α] {l : List α} {x : α} (h : x ∈ l) :
    (eraseFirst l x).length = l.length - 1 := List.length_erase_of_mem h

theorem addHistory_history (s : Session) (x : Str) :
    (s.addHistory x).history =
      if (eraseFirst s.history x ++ [x]).length > 100
      then (eraseFirst s.history x ++ [x]).drop ((eraseFirst s.history x ++ [x]).length - 100)
      else eraseFirst s.history x ++ [x] := by
  have e := findIdx?_splice s.history x
  unfold Session.addHistory
  cases hi : List.findIdx? (fun h => decide (h = x)) s.history with
  | none =>
    rw [hi] at e
    have e1 : s.history = eraseFirst s.history x := e
    simp only [← e1]
  | some i =>
    rw [hi] at e
    have e1 : s.history.take i ++ s.history.drop (i + 1) = eraseFirst s.history x := e
    simp only [← e1]

theorem addHistory_historyPos (s : Session) (x : Str) :
    (s.addHistory x).historyPos = (s.addHistory x).history.length := rfl

/-- C2: on a duplicate-free history of at most 100 entries, `addHistory x` yields a
duplicate-free history of at most 100 entries that ends with `x`; when `x` was already an
entry the result is the old history without `x`, followed by `x`, of the same length; and
`historyPos` is the new length. -/
theorem addHistory_dedup (s : Session) (x : Str) (hnd : s.history.Nodup)
    (hlen : s.history.length ≤ 100) :
    (s.addHistory x).history.Nodup ∧
    (s.addHistory x).history.length ≤ 100 ∧
    (s.addHistory x).history.getLast? = some x ∧
    (x ∈ s.history →
      (s.addHistory x).history = s.history.filter (fun y => decide (y ≠ x)) ++ [x] ∧
      (s.addHistory x).history.length = s.history.length) ∧
    (s.addHistory x).historyPos = ((s.addHistory x).history.length : Int) := by
  have hnd' := eraseFirst_append_nodup hnd x
  have hle := eraseFirst_length_le s.history x
  refine ⟨?_, ?_, ?_, ?_, addHistory_historyPos s x⟩
  · rw [addHistory_history]
    split
    · exact List.Nodup.sublist (List.drop_sublist _ _) hnd'
    · exact hnd'
  · rw [addHistory_history]
    split
    · simp only [List.length_drop, List.length_append, List.length_singleton]; omega
    · rename_i h; omega
  · rw [addHistory_history]
    split
    · rename_i h
      rw [List.getLast?_drop, if_neg (by omega)]
      simp
    · simp
  · intro hx
    have hlen' := eraseFirst_length_of_mem hx
    have hpos : 0 < s.history.length := List.length_pos_of_mem hx
    have hno : ¬ (eraseFirst s.history x ++ [x]).length > 100 := by
      simp only [List.length_append, List.length_singleton]; omega
    rw [addHistory_history, if_neg hno]
    refine ⟨by rw [eraseFirst_eq_filter hnd], ?_⟩
    rw [List.length_append, hlen', List.length_singleton]
    omega

/-- Resubmitting the first of three entries moves it to the end. -/
theorem addHistory_dedup_witness :
    ({ newSession [] with history := [[1], [2], [3]] }.addHistory [1]).history
      = [[2], [3], [1]] :=
  ((addHistory_dedup { newSession [] with history := [[1], [2], [3]] } [1]
    (by decide) (by decide)).2.2.2.1 (by decide)).1

/-! ## Session.removeChan -/

theorem findIdx_none_iff (L : StrOps) (s : Session) (low : Str) :
    s.findIdx L low = none ↔ ∀ p ∈ s.channels, L.toLower (s.deref p).name ≠ low := by
  unfold Session.findIdx
  simp only
  split
  · rename_i h
    simp only [false_iff, reduceCtorEq]
    intro hall
    have := List.findIdx_getElem (w := h)
    simp only [decide_eq_true_eq] at this
    exact hall _ (List.getElem_mem _) this
  · rename_i h
    simp only [true_iff]
    intro p hp hlow
    apply h
    apply List.findIdx_lt_length_of_exists
    exact ⟨p, hp, by simpa using hlow⟩

theorem findIdx_some_lt (L : StrOps) (s : Session) (low : Str) (i : Nat)
    (h : s.findIdx L low = some i) : i < s.channels.length := by
  unfold Session.findIdx at h
  simp only at h
  split at h
  · cases h; assumption
  · cases h

theorem removeChan_of_none (L : StrOps) (s : Session) (name : Str)
    (h : s.findIdx L (L.toLower name) = none) : s.removeChan L name = s := by
  unfold Session.removeChan
  simp only [h]

theorem removeChan_of_some (L : StrOps) (s : Session) (name : Str) (i : Nat)
    (h : s.findIdx L (L.toLower name) = some i) :
    (s.removeChan L name).channels = s.channels.take i ++ s.channels.drop (i + 1) ∧
    (s.removeChan L name).active =
      (if (if s.active ≥ ((s.channels.take i ++ s.channels.drop (i + 1)).length : Int)
            then ((s.channels.take i ++ s.channels.drop (i + 1)).length : Int) - 1
            else s.active) < 0
       then 0
       else (if s.active ≥ ((s.channels.take i ++ s.channels.drop (i + 1)).length : Int)
            then ((s.channels.take i ++ s.channels.drop (i + 1)).length : Int) - 1
            else s.active)) := by
  unfold Session.removeChan
  simp only [h, and_self]

theorem splice_length {α : Type} (l : List α) (i : Nat) (hi : i < l.length) :
    (l.take i ++ l.drop (i + 1)).length = l.length - 1 := by
  simp only [List.length_append, List.length_take, List.length_drop]; omega

/-- C4: with at least two windows and a valid active index, `removeChan name` leaves the
active index valid for the remaining windows, and leaves the session unchanged when no
window has that name. -/
theorem removeChan_active_valid (L : StrOps) (s : Session) (name : Str)
    (h2 : 2 ≤ s.channels.length) (h0 : 0 ≤ s.active)
    (hlt : s.active < (s.channels.length : Int)) :
    0 ≤ (s.removeChan L name).active ∧
    (s.removeChan L name).active < ((s.removeChan L name).channels.length : Int) ∧
    ((∀ p ∈ s.channels, L.toLower (s.deref p).name ≠ L.toLower name) →
      s.removeChan L name = s) := by
  cases hf : s.findIdx L (L.toLower name) with
  | none =>
    rw [removeChan_of_none L s name hf]
    exact ⟨h0, hlt, fun _ => rfl⟩
  | some i =>
    have hi := findIdx_some_lt L s _ i hf
    obtain ⟨hc, ha⟩ := removeChan_of_some L s name i hf
    rw [hc, ha, splice_length _ _ hi]
    refine ⟨?_, ?_, ?_⟩
    · split <;> omega
    · split
      · split <;> omega
      · split <;> omega
    · intro hall
      have := (findIdx_none_iff L s (L.toLower name)).2 hall
      rw [hf] at this
      cases this

/-- With the status window and two channels, closing the last, active window moves the
active index to the window before it. -/
theorem removeChan_active_valid_witness :
    (0 : Int) ≤
      (Session.removeChan asciiOps
        { newSession [] with
          heap := [newChannel statusName, newChannel (ascii "#a"), newChannel (ascii "#b")],
          channels := [0, 1, 2], active := 2 } (ascii "#B")).active ∧
    (Session.removeChan asciiOps
        { newSession [] with
          heap := [newChannel statusName, newChannel (ascii "#a"), newChannel (ascii "#b")],
          channels := [0, 1, 2], active := 2 } (ascii "#B")).active = 1 :=
  ⟨(removeChan_active_valid asciiOps
      { newSession [] with
        heap := [newChannel statusName, newChannel (ascii "#a"), newChannel (ascii "#b")],
        channels := [0, 1, 2], active := 2 } (ascii "#B")
      (by decide) (by decide) (by decide)).1, by decide⟩

/-! ## The status window -/

/-- C3 (the code at the failing input): in a fresh session the line `/part *STATUS` is the
command `/part` with argument `*STATUS`; the guard of the `/part` case compares the target
with `*status` byte for byte and lets it through, and `removeChan`, which compares names
lower-cased, removes the status window, leaving no window at all.  The same happens when
`removeChan` is called with the status window's own name. -/
theorem part_removes_status_window :
    commandOf asciiOps (ascii "/part *STATUS") = (ascii "/part", ascii "*STATUS") ∧
    ((newSession (ascii "neo123")).handleInputPart asciiOps (ascii "*STATUS")).map
      (fun s => s.channels) = some [] ∧
    ((newSession (ascii "neo123")).removeChan asciiOps statusName).channels = [] := by
  decide

/-! ## parseIRC -/

theorem indexByte_none {s : Str} {c : Nat} (h : c ∉ s) : indexByte s c = none := by
  induction s with
  | nil => rfl
  | cons b rest ih =>
    have hb : b ≠ c := fun e => h (by simp [e])
    have hr : c ∉ rest := fun e => h (by simp [e])
    simp [indexByte, hb, ih hr]

theorem indexByte_append {a : Str} {c : Nat} (h : c ∉ a) (rest : Str) :
    indexByte (a ++ c :: rest) c = some a.length := by
  induction a with
  | nil => simp [indexByte]
  | cons b a ih =>
    have hb : b ≠ c := fun e => h (by simp [e])
    have hr : c ∉ a := fun e => h (by simp [e])
    simp [indexByte, hb, ih hr]

theorem indexByte_lt {s : Str} {c i : Nat} (h : indexByte s c = some i) : i < s.length := by
  induction s generalizing i with
  | nil => simp [indexByte] at h
  | cons b rest ih =>
    unfold indexByte at h
    split at h
    · cases h; simp
    · cases hr : indexByte rest c with
      | none => simp [hr] at h
      | some j =>
        simp only [hr, Option.map_some', Option.some.injEq] at h
        have := ih hr
        simp only [List.length_cons]; omega

theorem slice_eq {s : Str} {lo hi : Nat} (h1 : lo ≤ hi) (h2 : hi ≤ s.length) :
    slice s lo hi = some ((s.take hi).drop lo) := by
  unfold slice; rw [if_pos ⟨h1, h2⟩]

theorem slice_tail (s : Str) (lo : Nat) (h : lo ≤ s.length) :
    slice s lo s.length = some (s.drop lo) := by
  rw [slice_eq h (le_refl _), List.take_length]

theorem parseLoop_total (fuel : Nat) (line : Str) (m : ircMsg) (h : line.length ≤ fuel) :
    ∃ r, parseLoop fuel line m = some r := by
  induction fuel generalizing line m with
  | zero =>
    have : line = [] := List.eq_nil_of_length_eq_zero (by omega)
    subst this
    exact ⟨m, by simp [parseLoop]⟩
  | succ fuel ih =>
    cases line with
    | nil => exact ⟨m, by simp [parseLoop]⟩
    | cons b tl =>
      unfold parseLoop
      simp only [reduceCtorEq, if_false, byteAt, List.get?_cons_zero]
      by_cases hb : b = 58
      · simp only [hb, if_true]
        rw [slice_tail _ 1 (by simp)]
        exact ⟨_, rfl⟩
      · simp only [hb, if_false]
        cases hi : indexByte (b :: tl) 32 with
        | none =>
          simp only
          split <;> exact ⟨_, rfl⟩
        | some i =>
          have hlt := indexByte_lt hi
          simp only
          rw [slice_eq (Nat.zero_le i) (le_of_lt hlt), slice_tail _ (i + 1) hlt]
          simp only
          have hlen : ((b :: tl).drop (i + 1)).length ≤ fuel := by
            simp only [List.length_drop, List.length_cons] at *; omega
          split
          · exact ih _ _ hlen
          · exact ih _ _ hlen

theorem nick_total (m : ircMsg) : ∃ n, m.nick = some n := by
  unfold ircMsg.nick
  cases hi : indexByte m.pfx 33 with
  | none => exact ⟨_, rfl⟩
  | some i =>
    simp only
    rw [slice_eq (Nat.zero_le i) (le_of_lt (indexByte_lt hi))]
    exact ⟨_, rfl⟩

theorem trail_total (m : ircMsg) : ∃ t, m.trail = some t := by
  unfold ircMsg.trail
  split
  · rename_i h
    rw [List.get?_eq_get (by omega)]
    exact ⟨_, rfl⟩
  · exact ⟨_, rfl⟩

/-- C7: `parseIRC` returns a message on every input line, without an index or a slice out
of range and within its fuel, and `nick()` and `trail()` return on every message. -/
theorem parseIRC_total (L : StrOps) :
    (∀ line : Str, ∃ m, parseIRC L line = some m) ∧
    (∀ m : ircMsg, (∃ n, m.nick = some n) ∧ (∃ t, m.trail = some t)) := by
  refine ⟨?_, fun m => ⟨nick_total m, trail_total m⟩⟩
  intro line
  unfold parseIRC
  simp only
  split
  · rename_i h
    cases hi : indexByte line 32 with
    | none =>
      simp only
      rw [slice_tail _ 1 (by omega)]
      exact ⟨_, rfl⟩
    | some i =>
      have hlt := indexByte_lt hi
      have h1 : 1 ≤ i := by
        rcases Nat.eq_zero_or_pos i with h0 | h0
        · subst h0
          cases line with
          | nil => simp at hlt
          | cons b tl =>
            simp only [byteAt, List.get?_cons_zero, Option.some.injEq] at h
            unfold indexByte at hi
            rw [h.2] at hi
            simp at hi
        · exact h0
      simp only
      rw [slice_eq h1 (le_of_lt hlt), slice_tail _ (i + 1) hlt]
      simp only
      obtain ⟨r, hr⟩ := parseLoop_total (line.drop (i + 1)).length (line.drop (i + 1))
        { pfx := (line.take i).drop 1, command := [], params := [] } (le_refl _)
      rw [hr]
      exact ⟨_, rfl⟩
  · obtain ⟨r, hr⟩ := parseLoop_total line.length line
      { pfx := [], command := [], params := [] } (le_refl _)
    rw [hr]
    exact ⟨_, rfl⟩
theorem parseLoop_token (fuel : Nat) (tok rest : Str) (m : ircMsg) (h : isMiddle tok) :
    parseLoop (fuel + 1) (tok ++ 32 :: rest) m =
      if m.command = [] then parseLoop fuel rest { m with command := tok }
      else parseLoop fuel rest { m with params := m.params ++ [tok] } := by
  obtain ⟨h1, h2, h3⟩ := h
  cases tok with
  | nil => exact absurd rfl h1
  | cons b tl =>
    have hb : b ≠ 58 := fun e => h3 (by simp [e])
    have hi := indexByte_append h2 rest
    rw [parseLoop]
    simp only [List.cons_append, reduceCtorEq, if_false, byteAt, List.get?_cons_zero, hb]
    simp only [List.cons_append] at hi
    rw [hi]
    simp only
    rw [slice_eq (Nat.zero_le _) (by simp), slice_tail _ _ (by simp)]
    simp only
    have e1 : List.take (b :: tl).length (b :: (tl ++ 32 :: rest)) = b :: tl := by
      rw [← List.cons_append, List.take_left]
    have e2 : List.drop ((b :: tl).length + 1) (b :: (tl ++ 32 :: rest)) = rest := by
      have : b :: (tl ++ 32 :: rest) = ((b :: tl) ++ [32]) ++ rest := by simp
      rw [this]
      have hl : (b :: tl).length + 1 = ((b :: tl) ++ [32]).length := by simp
      rw [hl, List.drop_left]
    rw [e1, e2, List.drop_zero]

theorem tokens_length (ms : List Str) (t : Str) : ms.length + 1 ≤ (tokens ms t).length := by
  induction ms with
  | nil => simp [tokens]
  | cons m ms ih => simp only [tokens, List.length_append, List.length_cons]; omega

theorem parseLoop_tokens (ms : List Str) (t : Str) (fuel : Nat) (m : ircMsg)
    (hc : m.command ≠ []) (hf : ms.length + 1 ≤ fuel) (hms : ∀ x ∈ ms, isMiddle x) :
    parseLoop fuel (tokens ms t) m = some { m with params := m.params ++ ms ++ [t] } := by
  induction ms generalizing fuel m with
  | nil =>
    cases fuel with
    | zero => simp at hf
    | succ fuel =>
      rw [parseLoop]
      simp only [tokens, reduceCtorEq, if_false, byteAt, List.get?_cons_zero, if_true]
      rw [slice_tail _ 1 (by simp)]
      simp
  | cons x ms ih =>
    cases fuel with
    | zero => simp at hf
    | succ fuel =>
      rw [tokens, parseLoop_token fuel x _ m (hms x (by simp)), if_neg hc,
        ih fuel { m with params := m.params ++ [x] } hc
          (by simp only [List.length_cons] at hf; omega)
          (fun y hy => hms y (by simp [hy]))]
      simp

theorem join_tokens (ms : List Str) (t : Str) :
    (ms.map (fun m => [32] ++ m)).flatten ++ [32, 58] ++ t = 32 :: tokens ms t := by
  induction ms with
  | nil => simp [tokens]
  | cons m ms ih =>
    simp only [List.map_cons, List.flatten_cons, tokens, List.append_assoc] at *
    rw [ih]
    simp

theorem nick_eq (m : ircMsg) : m.nick = some (m.pfx.takeWhile (fun b => b ≠ 33)) := by
  unfold ircMsg.nick
  generalize m.pfx = p
  induction p with
  | nil => simp [indexByte]
  | cons b tl ih =>
    unfold indexByte
    by_cases hb : b = 33
    · simp [hb, slice]
    · simp only [hb, if_false]
      cases hi : indexByte tl 33 with
      | none =>
        rw [hi] at ih
        simpa [hb] using ih
      | some i =>
        rw [hi] at ih
        have hlt := indexByte_lt hi
        simp only at ih
        rw [slice_eq (Nat.zero_le _) (le_of_lt hlt)] at ih
        simp only [Option.map_some']
        rw [slice_eq (Nat.zero_le _) (by simp only [List.length_cons]; omega)]
        simpa [hb] using ih

theorem trail_append (p c : Str) (ps : List Str) (t : Str) :
    (ircMsg.mk p c (ps ++ [t])).trail = some t := by
  unfold ircMsg.trail
  simp

/-- C5: a line `:p c m1 .. mk :t` whose prefix `p` has no space, whose command `c` and
middle parameters are non-empty, without a space and do not start with `:`, and whose
trailing parameter `t` is any string, parses to prefix `p`, command `ToUpper(c)` and
parameters `m1 .. mk, t`; `trail()` of the result is `t` and `nick()` is `p` up to its
first `!`. -/
theorem parseIRC_wellformed (L : StrOps) (p c : Str) (ms : List Str) (t : Str)
    (hp : 32 ∉ p) (hc : isMiddle c) (hms : ∀ m ∈ ms, isMiddle m) :
    ∃ r, parseIRC L ([58] ++ p ++ [32] ++ c ++ (ms.map (fun m => [32] ++ m)).flatten
          ++ [32, 58] ++ t) = some r ∧
      r.pfx = p ∧ r.command = L.toUpper c ∧ r.params = ms ++ [t] ∧
      r.trail = some t ∧ r.nick = some (p.takeWhile (fun b => b ≠ 33)) := by
  have hline : [58] ++ p ++ [32] ++ c ++ (ms.map (fun m => [32] ++ m)).flatten ++ [32, 58] ++ t
      = 58 :: (p ++ 32 :: (c ++ 32 :: tokens ms t)) := by
    have := join_tokens ms t
    simp only [List.append_assoc] at this ⊢
    rw [this]
    simp
  have hi : indexByte (58 :: (p ++ 32 :: (c ++ 32 :: tokens ms t))) 32 = some (p.length + 1) := by
    have := indexByte_append (a := 58 :: p) (c := 32)
      (by simp only [List.mem_cons, not_or]; exact ⟨by decide, hp⟩) (c ++ 32 :: tokens ms t)
    simpa using this
  have hs1 : slice (58 :: (p ++ 32 :: (c ++ 32 :: tokens ms t))) 1 (p.length + 1) = some p := by
    rw [slice_eq (by omega) (by simp)]
    simp [List.take_append_of_le_length]
  have hs2 : slice (58 :: (p ++ 32 :: (c ++ 32 :: tokens ms t))) (p.length + 1 + 1)
      (58 :: (p ++ 32 :: (c ++ 32 :: tokens ms t))).length = some (c ++ 32 :: tokens ms t) := by
    rw [slice_tail _ _ (by simp)]
    have : 58 :: (p ++ 32 :: (c ++ 32 :: tokens ms t))
        = (58 :: p ++ [32]) ++ (c ++ 32 :: tokens ms t) := by simp
    rw [this]
    have hl : p.length + 1 + 1 = (58 :: p ++ [32]).length := by simp
    rw [hl, List.drop_left]
  have hres : parseIRC L (58 :: (p ++ 32 :: (c ++ 32 :: tokens ms t)))
      = some ⟨p, L.toUpper c, ms ++ [t]⟩ := by
    unfold parseIRC
    simp only
    rw [if_pos ⟨by simp, by simp [byteAt]⟩]
    simp only [hi, hs1, hs2]
    have hfuel : (c ++ 32 :: tokens ms t).length = ((tokens ms t).length + c.length) + 1 := by
      simp only [List.length_append, List.length_cons]; omega
    rw [hfuel, parseLoop_token _ c _ _ hc]
    simp only [if_true]
    rw [parseLoop_tokens ms t _ _ hc.1 (by have := tokens_length ms t; omega) hms]
    simp
  rw [hline, hres]
  exact ⟨_, rfl, rfl, rfl, rfl, trail_append _ _ _ _, nick_eq _⟩

/-- The line of the specification: `:nick!user@host PRIVMSG #chan :hello world`. -/
theorem parseIRC_wellformed_witness :
    ∃ r, parseIRC asciiOps (ascii ":nick!user@host PRIVMSG #chan :hello world") = some r ∧
      r.pfx = ascii "nick!user@host" ∧ r.command = ascii "PRIVMSG" ∧
      r.params = [ascii "#chan", ascii "hello world"] ∧
      r.trail = some (ascii "hello world") ∧ r.nick = some (ascii "nick") :=
  parseIRC_wellformed asciiOps (ascii "nick!user@host") (ascii "PRIVMSG") [ascii "#chan"]
    (ascii "hello world") (by decide) (by decide) (by decide)

/-- C6: a non-empty line without a space that does not start with `:` parses to an empty
prefix, the command `ToUpper(line)` and no parameters; `trail()` of the result is empty. -/
theorem parseIRC_bare_command (L : StrOps) (line : Str) (h : isMiddle line) :
    parseIRC L line = some ⟨[], L.toUpper line, []⟩ ∧
    (ircMsg.mk [] (L.toUpper line) []).trail = some [] := by
  obtain ⟨h1, h2, h3⟩ := h
  refine ⟨?_, rfl⟩
  cases line with
  | nil => exact absurd rfl h1
  | cons b tl =>
    have hb : b ≠ 58 := fun e => h3 (by simp [e])
    unfold parseIRC
    simp only [byteAt, List.get?_cons_zero, Option.some.injEq, hb, and_false, if_false,
      List.length_cons]
    rw [parseLoop]
    simp only [reduceCtorEq, if_false, byteAt, List.get?_cons_zero, hb, indexByte_none h2,
      if_true, Option.map_some']

/-- The line of the specification: `PING`. -/
theorem parseIRC_bare_command_witness :
    parseIRC asciiOps (ascii "PING") = some ⟨[], ascii "PING", []⟩ ∧
    (ircMsg.mk [] (ascii "PING") []).trail = some [] :=
  parseIRC_bare_command asciiOps (ascii "PING") (by decide)

/-! ## clientReader.ingest: window-size subnegotiation -/

theorem shift_or_bytes (w : Nat) : (w >>> 8) <<< 8 ||| (w &&& 255) = w := by
  have h1 : w &&& 255 = w % 2 ^ 8 := Nat.and_pow_two_sub_one_eq_mod w 8
  have h2 : w % 2 ^ 8 < 2 ^ 8 := Nat.mod_lt _ (by norm_num)
  rw [h1, Nat.shiftLeft_eq, Nat.shiftRight_eq_div_pow, Nat.mul_comm,
    ← Nat.mul_add_lt_is_or h2]
  exact Nat.div_add_mod w (2 ^ 8)

theorem resize_eq (s : Session) (w h : Int) : s.resize w h = { s with w := w, h := h } := by
  unfold Session.resize
  split
  · rename_i hh
    obtain ⟨h1, h2⟩ := hh
    subst h1 h2
    rfl
  · rfl

theorem ingest_naws_bytes (r : clientReader) (a b c d : Nat)
    (ha : a ≠ 255) (hb : b ≠ 255) (hc : c ≠ 255) (hd : d ≠ 255) :
    r.ingest [iacByte, iacSB, optNAWS, a, b, c, d, iacByte, iacSE] =
      if ((a <<< 8 ||| b : Nat) : Int) > 10 ∧ ((c <<< 8 ||| d : Nat) : Int) > 5
      then { r with sess := r.sess.resize ((a <<< 8 ||| b : Nat) : Int) ((c <<< 8 ||| d : Nat) : Int) }
      else r := by
  simp [clientReader.ingest, clientReader.ingestLoop, clientReader.handleIAC, findSE,
    clientReader.subneg, iacByte, iacSB, iacSE, iacWILL, iacWONT, iacDO, iacDONT, optNAWS, ha, hb, hc, hd]

/-- C8: the single chunk `IAC SB NAWS w>>8 w&255 h>>8 h&255 IAC SE`, with no payload byte
equal to 255, appends nothing to the line buffer; when `w > 10` and `h > 5` the session
afterwards has width `w` and height `h` and is otherwise as before, and in every other case
the session is unchanged. -/
theorem ingest_naws (r : clientReader) (w h : Nat) (hw : w ≤ 65535) (hh : h ≤ 65535)
    (hbytes : 255 ∉ [w >>> 8, w &&& 255, h >>> 8, h &&& 255]) :
    (r.ingest [iacByte, iacSB, optNAWS, w >>> 8, w &&& 255, h >>> 8, h &&& 255,
        iacByte, iacSE]).buf = r.buf ∧
    (w > 10 ∧ h > 5 →
      (r.ingest [iacByte, iacSB, optNAWS, w >>> 8, w &&& 255, h >>> 8, h &&& 255,
        iacByte, iacSE]).sess = { r.sess with w := (w : Int), h := (h : Int) }) ∧
    (¬ (w > 10 ∧ h > 5) →
      (r.ingest [iacByte, iacSB, optNAWS, w >>> 8, w &&& 255, h >>> 8, h &&& 255,
        iacByte, iacSE]).sess = r.sess) := by
  have hw8 : w >>> 8 < 256 := by rw [Nat.shiftRight_eq_div_pow]; omega
  have hh8 : h >>> 8 < 256 := by rw [Nat.shiftRight_eq_div_pow]; omega
  simp only [List.mem_cons, List.mem_singleton, not_or, List.not_mem_nil, or_false] at hbytes
  obtain ⟨h1, h2, h3, h4⟩ := hbytes
  rw [ingest_naws_bytes r _ _ _ _ (Ne.symm h1) (Ne.symm h2) (Ne.symm h3) (Ne.symm h4),
    shift_or_bytes, shift_or_bytes, resize_eq]
  have hc : ((w : Int) > 10 ∧ (h : Int) > 5) ↔ (w > 10 ∧ h > 5) := by omega
  by_cases hg : w > 10 ∧ h > 5
  · rw [if_pos (hc.2 hg)]
    exact ⟨rfl, fun _ => rfl, fun hn => absurd hg hn⟩
  · rw [if_neg (fun hx => hg (hc.1 hx))]
    exact ⟨rfl, fun hp => absurd hp hg, fun _ => rfl⟩

/-- The payload of the specification: `[0, 120, 0, 40]` gives the geometry 120 x 40. -/
theorem ingest_naws_witness :
    ((clientReader.mk (newSession (ascii "neo123")) []).ingest
        [255, 250, 31, 0, 120, 0, 40, 255, 240]).sess.w = 120 ∧
    ((clientReader.mk (newSession (ascii "neo123")) []).ingest
        [255, 250, 31, 0, 120, 0, 40, 255, 240]).sess.h = 40 := by
  have h := (ingest_naws (clientReader.mk (newSession (ascii "neo123")) []) 120 40
    (by decide) (by decide) (by decide)).2.1 (by decide)
  exact ⟨congrArg Session.w h, congrArg Session.h h⟩

/-! ## clientReader.extractCPR -/

theorem wrapInt_id (v : Nat) (h : v < 2 ^ 63) : wrapInt (v : Int) = (v : Int) := by
  unfold wrapInt
  have h' : (v : Int) < 2 ^ 63 := by exact_mod_cast h
  omega

theorem foldl_dec_mono (ds : Str) (n : Nat) :
    n ≤ ds.foldl (fun n d => n * 10 + (d - 48)) n := by
  induction ds generalizing n with
  | nil => exact le_refl _
  | cons d ds ih =>
    rw [List.foldl_cons]
    exact le_trans (by omega) (ih _)

theorem foldl_dec_lt (ds : Str) (hd : isDigits ds) (n : Nat) :
    ds.foldl (fun n d => n * 10 + (d - 48)) n < (n + 1) * 10 ^ ds.length := by
  induction ds generalizing n with
  | nil => simp
  | cons d ds ih =>
    rw [List.foldl_cons, List.length_cons, pow_succ]
    have h1 := ih (fun x hx => hd x (by simp [hx])) (n * 10 + (d - 48))
    have h2 := hd d (by simp)
    have h3 : (n * 10 + (d - 48) + 1) * 10 ^ ds.length ≤ (n + 1) * 10 * 10 ^ ds.length :=
      Nat.mul_le_mul_right _ (by omega)
    calc _ < _ := h1
      _ ≤ _ := h3
      _ = _ := by ring

theorem simpleAtoi_foldl (ds : Str) (hd : isDigits ds) (n : Nat)
    (hb : ds.foldl (fun n d => n * 10 + (d - 48)) n < 2 ^ 63) :
    ds.foldl atoiStep (n : Int)
      = ((ds.foldl (fun n d => n * 10 + (d - 48)) n : Nat) : Int) := by
  induction ds generalizing n with
  | nil => rfl
  | cons d ds ih =>
    have h2 := hd d (by simp)
    rw [List.foldl_cons, List.foldl_cons] at *
    have hv : n * 10 + (d - 48) < 2 ^ 63 := lt_of_le_of_lt (foldl_dec_mono ds _) hb
    have e : ((n : Int) * 10 + ((d : Int) - 48)) = ((n * 10 + (d - 48) : Nat) : Int) := by
      omega
    have e2 : atoiStep (n : Int) d = ((n * 10 + (d - 48) : Nat) : Int) := by
      rw [atoiStep, if_pos h2, e, wrapInt_id _ hv]
    rw [e2]
    exact ih (fun x hx => hd x (by simp [hx])) _ hb

theorem simpleAtoi_digits (ds : Str) (hd : isDigits ds) (hl : ds.length ≤ 9) :
    simpleAtoi ds = (decVal ds : Int) := by
  have h1 := foldl_dec_lt ds hd 0
  have h2 : (0 + 1) * 10 ^ ds.length ≤ 10 ^ 9 := by
    rw [Nat.zero_add, Nat.one_mul]
    exact Nat.pow_le_pow_right (by norm_num) hl
  exact simpleAtoi_foldl ds hd 0 (lt_of_lt_of_le h1 (le_trans h2 (by norm_num)))

theorem skipNums_append (xs ys : Str) (j : Nat) (h : ∀ x ∈ xs, (48 ≤ x ∧ x ≤ 57) ∨ x = 59) :
    skipNums (xs ++ ys) j = skipNums ys (j + xs.length) := by
  induction xs generalizing j with
  | nil => rfl
  | cons x xs ih =>
    rw [List.cons_append, skipNums, if_pos (h x (by simp)),
      ih _ (fun y hy => h y (by simp [hy])), List.length_cons]
    congr 1; omega

theorem splitByte_none (s : Str) (sep : Nat) (h : sep ∉ s) : splitByte sep s = [s] := by
  induction s with
  | nil => rfl
  | cons b rest ih =>
    have hb : b ≠ sep := fun e => h (by simp [e])
    rw [splitByte, if_neg hb, ih (fun e => h (by simp [e]))]

theorem splitByte_two (a b : Str) (sep : Nat) (ha : sep ∉ a) (hb : sep ∉ b) :
    splitByte sep (a ++ sep :: b) = [a, b] := by
  induction a with
  | nil => simp [splitByte, splitByte_none b sep hb]
  | cons x a ih =>
    have hx : x ≠ sep := fun e => ha (by simp [e])
    rw [List.cons_append, splitByte, if_neg hx, ih (fun e => ha (by simp [e]))]

theorem isDigits_not_mem (ds : Str) (hd : isDigits ds) (c : Nat) (hc : c < 48 ∨ 57 < c) :
    c ∉ ds := by
  intro h
  have := hd c h
  omega

theorem getD_append_length (pre : Str) (x : Nat) (rest : Str) :
    (pre ++ x :: rest).getD pre.length 0 = x := by
  induction pre with
  | nil => rfl
  | cons y pre ih => simpa using ih

theorem extractCPRLoop_end (f : Nat) (r : clientReader) (i : Nat) (h : r.buf.length ≤ i) :
    r.extractCPRLoop f i = r := by
  cases f with
  | zero => rfl
  | succ f => rw [clientReader.extractCPRLoop, if_neg (by omega)]

theorem extractCPRLoop_skip (a : Str) (ha : 27 ∉ a) (pre rest : Str) (f : Nat) (s : Session) :
    (clientReader.mk s (pre ++ a ++ rest)).extractCPRLoop (f + a.length) pre.length =
      (clientReader.mk s (pre ++ a ++ rest)).extractCPRLoop f (pre.length + a.length) := by
  induction a generalizing pre with
  | nil => rfl
  | cons x a ih =>
    have hx : x ≠ 27 := fun e => ha (by simp [e])
    have ha' : 27 ∉ a := fun e => ha (by simp [e])
    have hf : f + (x :: a).length = (f + a.length) + 1 := by simp only [List.length_cons]; omega
    rw [hf, clientReader.extractCPRLoop]
    have hlen : pre.length < (pre ++ x :: a ++ rest).length := by simp
    have hget : (pre ++ x :: a ++ rest).getD pre.length 0 = x := by
      rw [List.append_assoc]; exact getD_append_length pre x (a ++ rest)
    simp only [hlen, if_true, hget, hx, false_and, if_false]
    have e : pre ++ x :: a ++ rest = (pre ++ [x]) ++ a ++ rest := by simp
    have e2 : pre.length + (x :: a).length = pre.length + 1 + a.length := by
      simp only [List.length_cons]; omega
    have := ih ha' (pre ++ [x])
    rw [List.length_append, List.length_singleton] at this
    rw [e, e2, this]

theorem extractCPRLoop_report (pre nums b : Str) (f : Nat) (s : Session)
    (hn : ∀ x ∈ nums, (48 ≤ x ∧ x ≤ 57) ∨ x = 59) :
    (clientReader.mk s (pre ++ 27 :: 91 :: (nums ++ 82 :: b))).extractCPRLoop (f + 1) pre.length
      = (clientReader.mk
          (if (splitByte 59 nums).length = 2 then
            (if simpleAtoi ((splitByte 59 nums).getD 0 []) > 5 ∧
                simpleAtoi ((splitByte 59 nums).getD 1 []) > 10
              then s.resize (simpleAtoi ((splitByte 59 nums).getD 1 []))
                (simpleAtoi ((splitByte 59 nums).getD 0 []))
              else s)
           else s)
          (pre ++ b)).extractCPRLoop f pre.length := by
  have e1 : pre ++ 27 :: 91 :: (nums ++ 82 :: b) = (pre ++ [27]) ++ 91 :: (nums ++ 82 :: b) := by
    simp
  have e2 : pre ++ 27 :: 91 :: (nums ++ 82 :: b) = (pre ++ [27, 91]) ++ (nums ++ 82 :: b) := by
    simp
  have e3 : pre ++ 27 :: 91 :: (nums ++ 82 :: b) = (pre ++ [27, 91] ++ nums) ++ 82 :: b := by
    simp
  have e4 : pre ++ 27 :: 91 :: (nums ++ 82 :: b) = (pre ++ [27, 91] ++ nums ++ [82]) ++ b := by
    simp
  have l1 : (pre ++ [27]).length = pre.length + 1 := by simp
  have l2 : (pre ++ [27, 91]).length = pre.length + 2 := by simp
  have l3 : (pre ++ [27, 91] ++ nums).length = pre.length + 2 + nums.length := by
    simp only [List.length_append, List.length_cons, List.length_nil]
  have l4 : (pre ++ [27, 91] ++ nums ++ [82]).length = pre.length + 2 + nums.length + 1 := by
    simp only [List.length_append, List.length_cons, List.length_nil]
  have hlen : pre.length < (pre ++ 27 :: 91 :: (nums ++ 82 :: b)).length := by simp
  have hlen1 : pre.length + 1 < (pre ++ 27 :: 91 :: (nums ++ 82 :: b)).length := by simp
  have g0 : (pre ++ 27 :: 91 :: (nums ++ 82 :: b)).getD pre.length 0 = 27 :=
    getD_append_length pre 27 _
  have g1 : (pre ++ 27 :: 91 :: (nums ++ 82 :: b)).getD (pre.length + 1) 0 = 91 := by
    rw [e1, ← l1]; exact getD_append_length _ 91 _
  have d2 : (pre ++ 27 :: 91 :: (nums ++ 82 :: b)).drop (pre.length + 2) = nums ++ 82 :: b := by
    rw [e2, ← l2, List.drop_left]
  have hj : skipNums (nums ++ 82 :: b) (pre.length + 2) = pre.length + 2 + nums.length := by
    rw [skipNums_append _ _ _ hn, skipNums, if_neg (by omega)]
  have hjlen : pre.length + 2 + nums.length < (pre ++ 27 :: 91 :: (nums ++ 82 :: b)).length := by
    simp only [List.length_append, List.length_cons]; omega
  have gj : (pre ++ 27 :: 91 :: (nums ++ 82 :: b)).getD (pre.length + 2 + nums.length) 0 = 82 := by
    rw [e3, ← l3]; exact getD_append_length _ 82 _
  have tj : ((pre ++ 27 :: 91 :: (nums ++ 82 :: b)).take (pre.length + 2 + nums.length)).drop
      (pre.length + 2) = nums := by
    rw [e3, ← l3, List.take_left, ← l2, List.drop_left]
  have ti : (pre ++ 27 :: 91 :: (nums ++ 82 :: b)).take pre.length = pre := List.take_left _ _
  have dj : (pre ++ 27 :: 91 :: (nums ++ 82 :: b)).drop (pre.length + 2 + nums.length + 1) = b := by
    rw [e4, ← l4, List.drop_left]
  rw [clientReader.extractCPRLoop]
  simp only [hlen, hlen1, g0, g1, d2, hj, hjlen, gj, tj, ti, dj, and_self, if_true]
  split <;> [split; skip] <;> rfl

/-- C9: on the buffer `a ++ ESC [ r ; c R ++ b`, where `a` and `b` hold no ESC byte and `r`
and `c` are runs of at most nine decimal digits, `extractCPR` leaves the buffer `a ++ b`;
when `r > 5` and `c > 10` the session afterwards has width `c` and height `r` and is
otherwise as before, and in every other case the session is unchanged. -/
theorem extractCPR_report (s : Session) (a b rs cs : Str) (ha : 27 ∉ a) (hb : 27 ∉ b)
    (hrs : isDigits rs) (hcs : isDigits cs) (hrl : rs.length ≤ 9) (hcl : cs.length ≤ 9) :
    ((clientReader.mk s (a ++ [27, 91] ++ rs ++ [59] ++ cs ++ [82] ++ b)).extractCPR).buf
      = a ++ b ∧
    (decVal rs > 5 ∧ decVal cs > 10 →
      ((clientReader.mk s (a ++ [27, 91] ++ rs ++ [59] ++ cs ++ [82] ++ b)).extractCPR).sess
        = { s with w := (decVal cs : Int), h := (decVal rs : Int) }) ∧
    (¬ (decVal rs > 5 ∧ decVal cs > 10) →
      ((clientReader.mk s (a ++ [27, 91] ++ rs ++ [59] ++ cs ++ [82] ++ b)).extractCPR).sess
        = s) := by
  have hbuf : a ++ [27, 91] ++ rs ++ [59] ++ cs ++ [82] ++ b
      = [] ++ a ++ 27 :: 91 :: ((rs ++ 59 :: cs) ++ 82 :: b) := by simp
  have hn : ∀ x ∈ rs ++ 59 :: cs, (48 ≤ x ∧ x ≤ 57) ∨ x = 59 := by
    intro x hx
    rcases List.mem_append.1 hx with h | h
    · exact Or.inl (hrs x h)
    · rcases List.mem_cons.1 h with h | h
      · exact Or.inr h
      · exact Or.inl (hcs x h)
  have hsplit : splitByte 59 (rs ++ 59 :: cs) = [rs, cs] :=
    splitByte_two rs cs 59 (isDigits_not_mem rs hrs 59 (by omega))
      (isDigits_not_mem cs hcs 59 (by omega))
  have hfuel : (a ++ [27, 91] ++ rs ++ [59] ++ cs ++ [82] ++ b).length
      = ((rs.length + cs.length + 3) + b.length + 1) + a.length := by
    simp only [List.length_append, List.length_cons, List.length_nil]; omega
  have hrun : (clientReader.mk s (a ++ [27, 91] ++ rs ++ [59] ++ cs ++ [82] ++ b)).extractCPR
      = clientReader.mk
          (if simpleAtoi rs > 5 ∧ simpleAtoi cs > 10 then s.resize (simpleAtoi cs) (simpleAtoi rs)
           else s) (a ++ b) := by
    unfold clientReader.extractCPR
    simp only
    rw [hfuel, hbuf]
    have h1 := extractCPRLoop_skip a ha [] (27 :: 91 :: ((rs ++ 59 :: cs) ++ 82 :: b))
      ((rs.length + cs.length + 3) + b.length + 1) s
    rw [List.append_assoc] at h1 ⊢
    rw [show ([] : Str).length = 0 from rfl] at h1
    rw [h1, Nat.zero_add, List.nil_append]
    rw [extractCPRLoop_report a (rs ++ 59 :: cs) b _ s hn, hsplit]
    simp only [List.length_cons, List.length_nil, List.getD_cons_zero, List.getD_cons_succ,
      if_true]
    have h2 := extractCPRLoop_skip b hb a [] (rs.length + cs.length + 3)
    rw [List.append_nil] at h2
    rw [h2]
    exact extractCPRLoop_end _ _ _ (by simp)
  rw [hrun, simpleAtoi_digits rs hrs hrl, simpleAtoi_digits cs hcs hcl, resize_eq]
  have hc : ((decVal rs : Int) > 5 ∧ (decVal cs : Int) > 10) ↔ (decVal rs > 5 ∧ decVal cs > 10) := by
    omega
  by_cases hg : decVal rs > 5 ∧ decVal cs > 10
  · rw [if_pos (hc.2 hg)]
    exact ⟨rfl, fun _ => rfl, fun hn => absurd hg hn⟩
  · rw [if_neg (fun hx => hg (hc.1 hx))]
    exact ⟨rfl, fun hp => absurd hp hg, fun _ => rfl⟩

/-- The report of the specification, `ESC[40;120R`, between typed bytes: it is cut out of
the buffer and the geometry becomes 120 x 40. -/
theorem extractCPR_report_witness :
    ((clientReader.mk (newSession (ascii "neo123"))
        (ascii "he" ++ [27, 91] ++ ascii "40" ++ [59] ++ ascii "120" ++ [82]
          ++ ascii "llo")).extractCPR).buf = ascii "hello" ∧
    ((clientReader.mk (newSession (ascii "neo123"))
        (ascii "he" ++ [27, 91] ++ ascii "40" ++ [59] ++ ascii "120" ++ [82]
          ++ ascii "llo")).extractCPR).sess
      = { newSession (ascii "neo123") with w := 120, h := 40 } :=
  have h := extractCPR_report (newSession (ascii "neo123")) (ascii "he") (ascii "llo")
    (ascii "40") (ascii "120") (by decide) (by decide) (by decide) (by decide) (by decide)
    (by decide)
  ⟨h.1, h.2.1 (by decide)⟩

/-! ## clientReader.ingest: cutting the byte stream into reads -/

theorem ingestLoop_end (f : Nat) (r : clientReader) (data : Str) (i : Nat)
    (h : data.length ≤ i) : r.ingestLoop f data i = r := by
  cases f with
  | zero => rfl
  | succ f => rw [clientReader.ingestLoop, if_neg (by omega)]

theorem ingestLoop_fuel (f f' : Nat) (r : clientReader) (data : Str) (i : Nat)
    (h : data.length - i ≤ f) (h' : data.length - i ≤ f') :
    r.ingestLoop f data i = r.ingestLoop f' data i := by
  induction f generalizing f' r i with
  | zero => rw [ingestLoop_end 0 r data i (by omega), ingestLoop_end f' r data i (by omega)]
  | succ f ih =>
    cases f' with
    | zero => rw [ingestLoop_end _ r data i (by omega), ingestLoop_end 0 r data i (by omega)]
    | succ f' =>
      rw [clientReader.ingestLoop, clientReader.ingestLoop]
      by_cases hi : i < data.length
      · simp only [hi, if_true]
        split
        · split
          · rename_i hpos
            exact ih _ _ _ (by omega) (by omega)
          · exact ih _ _ _ (by omega) (by omega)
        · exact ih _ _ _ (by omega) (by omega)
      · simp only [hi, if_false]

theorem findSE_succ (l : Str) (j : Nat) : findSE l (j + 1) = (findSE l j).map (· + 1) := by
  induction l generalizing j with
  | nil => simp [findSE]
  | cons a l ih =>
    cases l with
    | nil => simp [findSE]
    | cons b rest =>
      rw [findSE, findSE]
      split
      · rfl
      · exact ih (j + 1)

theorem handleIAC_cons (r : clientReader) (x : Nat) (data : Str) (i : Nat) :
    r.handleIAC (x :: data) (i + 1) = r.handleIAC data i := by
  unfold clientReader.handleIAC
  have e1 : (i + 1 + 1 ≥ (x :: data).length) ↔ (i + 1 ≥ data.length) := by
    simp only [List.length_cons]; omega
  have e2 : (i + 1 + 2 ≥ (x :: data).length) ↔ (i + 2 ≥ data.length) := by
    simp only [List.length_cons]; omega
  have e3 : (x :: data).getD (i + 1 + 1) 0 = data.getD (i + 1) 0 := List.getD_cons_succ ..
  have e4 : (x :: data).drop (i + 1 + 2) = data.drop (i + 2) := by
    rw [show i + 1 + 2 = (i + 2) + 1 from by omega, List.drop_succ_cons]
  have e5 : findSE (data.drop (i + 2)) (i + 1 + 2)
      = (findSE (data.drop (i + 2)) (i + 2)).map (· + 1) := by
    rw [show i + 1 + 2 = (i + 2) + 1 from by omega, findSE_succ]
  simp only [e1, e2, e3, e4, e5]
  cases hj : findSE (data.drop (i + 2)) (i + 2) with
  | none =>
    simp only [Option.map_none', List.length_cons]
    rw [show data.length + 1 - (i + 1) = data.length - i from by omega]
  | some j =>
    simp only [Option.map_some']
    have e6 : ((x :: data).take (j + 1)).drop (i + 1 + 2) = (data.take j).drop (i + 2) := by
      rw [List.take_succ_cons, show i + 1 + 2 = (i + 2) + 1 from by omega, List.drop_succ_cons]
    rw [e6, show j + 1 + 2 - (i + 1) = j + 2 - i from by omega]

theorem ingestLoop_cons (f : Nat) (r : clientReader) (x : Nat) (data : Str) (i : Nat) :
    r.ingestLoop f (x :: data) (i + 1) = r.ingestLoop f data i := by
  induction f generalizing r i with
  | zero => rfl
  | succ f ih =>
    rw [clientReader.ingestLoop, clientReader.ingestLoop]
    have e1 : (i + 1 < (x :: data).length) ↔ (i < data.length) := by
      simp only [List.length_cons]; omega
    have e2 : (i + 1 + 1 < (x :: data).length) ↔ (i + 1 < data.length) := by
      simp only [List.length_cons]; omega
    have e3 : (x :: data).getD (i + 1) 0 = data.getD i 0 := List.getD_cons_succ ..
    simp only [e1, e2, e3, handleIAC_cons]
    split
    · split
      · split
        · rw [show i + 1 + (r.handleIAC data i).1 = (i + (r.handleIAC data i).1) + 1 from by omega]
          exact ih _ _
        · exact ih _ _
      · exact ih _ _
    · rfl

theorem ingestLoop_append (f : Nat) (r : clientReader) (pre data : Str) :
    r.ingestLoop f (pre ++ data) pre.length = r.ingestLoop f data 0 := by
  suffices h : ∀ i, r.ingestLoop f (pre ++ data) (i + pre.length) = r.ingestLoop f data i by
    simpa using h 0
  induction pre with
  | nil => intro i; rfl
  | cons x pre ih =>
    intro i
    rw [List.cons_append, List.length_cons, ← Nat.add_assoc, ingestLoop_cons]
    exact ih i

theorem findSE_payload (p rest : Str) (j : Nat) (h : ¬ [iacByte, iacSE] <:+: p) :
    findSE (p ++ iacByte :: iacSE :: rest) j = some (j + p.length) := by
  induction p generalizing j with
  | nil => simp [findSE]
  | cons a p ih =>
    have hp : ¬ [iacByte, iacSE] <:+: p := fun hh => h (List.IsInfix.trans hh (List.infix_cons (List.infix_refl p)))
    cases p with
    | nil =>
      have hse : ¬ (iacByte = iacSE) := by decide
      simp only [List.cons_append, List.nil_append, findSE, hse, and_false, if_false, and_self,
        if_true, List.length_cons, List.length_nil]
    | cons b p =>
      have hab : ¬ (a = iacByte ∧ b = iacSE) := by
        rintro ⟨rfl, rfl⟩
        exact h ⟨[], p, rfl⟩
      have := ih (j + 1) hp
      simp only [List.cons_append] at this ⊢
      rw [findSE, if_neg hab, this]
      simp only [List.length_cons]
      congr 1; omega

/-- The effect of one complete telnet unit on the reader. -/
theorem ingestLoop_unit (r : clientReader) (u : Str) (hu : IsUnit u) :
    ∃ r1 : clientReader, ∀ (d : Str) (f : Nat),
      r.ingestLoop (f + 1) (u ++ d) 0 = r1.ingestLoop f (u ++ d) u.length := by
  cases hu with
  | data b h =>
    refine ⟨{ r with buf := r.buf ++ [b] }, fun d f => ?_⟩
    rw [clientReader.ingestLoop]
    simp [h]
  | two x h =>
    simp only [List.mem_cons, List.mem_singleton, not_or, List.not_mem_nil, or_false] at h
    obtain ⟨h1, h2, h3, h4, h5⟩ := h
    by_cases hx : x = iacByte
    · refine ⟨{ r with buf := r.buf ++ [0xFF] }, fun d f => ?_⟩
      rw [clientReader.ingestLoop]
      simp [clientReader.handleIAC, hx]
    · refine ⟨r, fun d f => ?_⟩
      rw [clientReader.ingestLoop]
      simp [clientReader.handleIAC, hx, h1, h2, h3, h4, h5]
  | neg v o h =>
    have hv : v ≠ iacByte := by
      rintro rfl
      revert h
      decide
    refine ⟨r, fun d f => ?_⟩
    rw [clientReader.ingestLoop]
    simp only [List.mem_cons, List.mem_singleton, List.not_mem_nil, or_false] at h
    simp [clientReader.handleIAC, hv, h]
  | sub p h =>
    refine ⟨(r.subneg p), fun d f => ?_⟩
    have hf := findSE_payload p d 2 h
    have hsb : ¬ (iacSB = iacByte) := by decide
    have hsb2 : ¬ (iacSB = iacWILL ∨ iacSB = iacWONT ∨ iacSB = iacDO ∨ iacSB = iacDONT) := by
      decide
    have hdrop : List.drop 2 ([iacByte, iacSB] ++ p ++ [iacByte, iacSE] ++ d)
        = p ++ iacByte :: iacSE :: d := by simp
    have htake : List.drop 2 (List.take (2 + p.length)
        ([iacByte, iacSB] ++ p ++ [iacByte, iacSE] ++ d)) = p := by
      have : [iacByte, iacSB] ++ p ++ [iacByte, iacSE] ++ d
          = ([iacByte, iacSB] ++ p) ++ ([iacByte, iacSE] ++ d) := by simp
      rw [this, show 2 + p.length = ([iacByte, iacSB] ++ p).length from by
        simp only [List.length_append, List.length_cons, List.length_nil, Nat.add_comm],
        List.take_left]
      rfl
    rw [clientReader.ingestLoop]
    have hlen : 0 < ([iacByte, iacSB] ++ p ++ [iacByte, iacSE] ++ d).length := by simp
    have hlen1 : 0 + 1 < ([iacByte, iacSB] ++ p ++ [iacByte, iacSE] ++ d).length := by simp
    have hg0 : ([iacByte, iacSB] ++ p ++ [iacByte, iacSE] ++ d).getD 0 0 = iacByte := rfl
    have hg1 : ([iacByte, iacSB] ++ p ++ [iacByte, iacSE] ++ d).getD (0 + 1) 0 = iacSB := rfl
    have hh : r.handleIAC ([iacByte, iacSB] ++ p ++ [iacByte, iacSE] ++ d) 0
        = (p.length + 4, (r.subneg p)) := by
      unfold clientReader.handleIAC
      rw [if_neg (by omega)]
      simp only [hg1, hsb, hsb2, if_false, if_true, Nat.zero_add, hdrop, hf, htake]
      congr 1
      omega
    simp only [hlen, hlen1, hg0, hh, if_true, and_self]
    rw [if_pos (by omega)]
    congr 1
    simp only [List.length_append, List.length_cons, List.length_nil]; omega

theorem ingest_unit (r : clientReader) (u d : Str) (hu : IsUnit u) :
    r.ingest (u ++ d) = (r.ingest u).ingest d := by
  obtain ⟨r1, h1⟩ := ingestLoop_unit r u hu
  have hpos : 0 < u.length := by cases hu <;> simp
  have e1 : r.ingest (u ++ d) = r1.ingest d := by
    unfold clientReader.ingest
    rw [show (u ++ d).length = (u.length - 1 + d.length) + 1 from by
      rw [List.length_append]; omega, h1 d, ingestLoop_append]
    exact ingestLoop_fuel _ _ _ _ _ (by omega) (by omega)
  have e2 : r.ingest u = r1 := by
    have := h1 [] (u.length - 1)
    rw [List.append_nil] at this
    unfold clientReader.ingest
    rw [show u.length = (u.length - 1) + 1 from by omega, this]
    exact ingestLoop_end _ _ _ _ (by omega)
  rw [e1, e2]

theorem ingest_nil (r : clientReader) : r.ingest [] = r := rfl

theorem ingest_units (us : List Str) (h : ∀ u ∈ us, IsUnit u) (r : clientReader) (d : Str) :
    r.ingest (us.flatten ++ d) = (r.ingest us.flatten).ingest d := by
  induction us generalizing r with
  | nil => rfl
  | cons u us ih =>
    have hu := h u (by simp)
    have hus : ∀ v ∈ us, IsUnit v := fun v hv => h v (by simp [hv])
    rw [List.flatten_cons, List.append_assoc, ingest_unit r u _ hu, ih hus,
      ingest_unit r u us.flatten hu]

/-- C10, as amended: when the first read `d1` is a sequence of complete telnet units, two
calls `ingest(d1)`, `ingest(d2)` leave the reader (line buffer and session geometry) as the
single call `ingest(d1 ++ d2)` does. -/
theorem ingest_split_at_unit_boundary (r : clientReader) (us : List Str) (d2 : Str)
    (h : ∀ u ∈ us, IsUnit u) :
    (r.ingest us.flatten).ingest d2 = r.ingest (us.flatten ++ d2) :=
  (ingest_units us h r d2).symm

/-- A data byte, a complete option negotiation and a complete window-size subnegotiation
in the first read, the rest of the line in the second. -/
theorem ingest_split_at_unit_boundary_witness :
    ((clientReader.mk (newSession (ascii "neo123")) []).ingest
        [[104], [255, 251, 31], [255, 250, 31, 0, 120, 0, 40, 255, 240]].flatten).ingest
        [105, 10]
      = (clientReader.mk (newSession (ascii "neo123")) []).ingest
        ([[104], [255, 251, 31], [255, 250, 31, 0, 120, 0, 40, 255, 240]].flatten
          ++ [105, 10]) :=
  ingest_split_at_unit_boundary _ _ _ (by
    intro u hu
    simp only [List.mem_cons, List.mem_singleton, List.not_mem_nil, or_false] at hu
    rcases hu with rfl | rfl | rfl
    · exact IsUnit.data 104 (by decide)
    · exact IsUnit.neg 251 31 (by decide)
    · exact IsUnit.sub [31, 0, 120, 0, 40] (by decide))

/-- C10, the claim as stated fails: cut between IAC and WILL, the lone IAC and then WILL and
the option byte are appended to the line buffer, while the uncut stream appends nothing;
cut inside a window-size subnegotiation, the first part is discarded and the geometry stays
80 x 24 with two payload bytes in the line buffer, while the uncut stream sets 120 x 40. -/
theorem ingest_split_counterexample :
    (((clientReader.mk (newSession (ascii "neo123")) []).ingest [255]).ingest [251, 1]).buf
        = [255, 251, 1] ∧
    ((clientReader.mk (newSession (ascii "neo123")) []).ingest ([255] ++ [251, 1])).buf = [] ∧
    (((clientReader.mk (newSession (ascii "neo123")) []).ingest [255, 250, 31, 0, 120]).ingest
        [0, 40, 255, 240]).buf = [0, 40] ∧
    (((clientReader.mk (newSession (ascii "neo123")) []).ingest [255, 250, 31, 0, 120]).ingest
        [0, 40, 255, 240]).sess.w = 80 ∧
    ((clientReader.mk (newSession (ascii "neo123")) []).ingest
        ([255, 250, 31, 0, 120] ++ [0, 40, 255, 240])).buf = [] ∧
    ((clientReader.mk (newSession (ascii "neo123")) []).ingest
        ([255, 250, 31, 0, 120] ++ [0, 40, 255, 240])).sess.w = 120 := by
  decide

/-! ## sortedNicks -/

theorem strLess_asymm (a b : Str) (h : strLess a b = true) : strLess b a = false := by
  induction a generalizing b with
  | nil => cases b <;> simp_all [strLess]
  | cons x a ih =>
    cases b with
    | nil => simp [strLess] at h
    | cons y b =>
      simp only [strLess] at h ⊢
      by_cases h1 : x < y
      · simp [h1, Nat.lt_asymm h1]
      · by_cases h2 : y < x
        · simp [h1, h2] at h
        · simp only [h1, h2, if_false] at h ⊢
          exact ih b h

theorem strLess_total (a b : Str) : strLess b a = false ∨ strLess a b = false := by
  cases h : strLess a b with
  | false => exact Or.inr rfl
  | true => exact Or.inl (strLess_asymm a b h)

theorem strLess_trans (a b c : Str) (h1 : strLess b a = false) (h2 : strLess c b = false) :
    strLess c a = false := by
  induction c generalizing a b with
  | nil =>
    cases b with
    | nil => exact h1
    | cons y b => simp [strLess] at h2
  | cons z c ih =>
    cases a with
    | nil => simp [strLess]
    | cons x a =>
      cases b with
      | nil => simp [strLess] at h1
      | cons y b =>
        simp only [strLess] at h1 h2 ⊢
        by_cases hyx : y < x
        · simp [hyx] at h1
        · by_cases hzy : z < y
          · simp [hzy] at h2
          · by_cases hxy : x < y
            · have hzx : ¬ z < x := by omega
              have hxz : x < z := by omega
              simp [hzx, hxz]
            · by_cases hyz : y < z
              · have hzx : ¬ z < x := by omega
                have hxz : x < z := by omega
                simp [hzx, hxz]
              · have hxy' : x = y := by omega
                have hyz' : y = z := by omega
                subst hxy' hyz'
                simp only [hyx, if_false] at h1 h2 ⊢
                exact ih a b h1 h2

theorem strLess_cons_same (c : Nat) (a b : Str) : strLess (c :: a) (c :: b) = strLess a b := by
  simp [strLess]

theorem strLess_cons_false (x y : Nat) (a b : Str) (h : strLess (x :: a) (y :: b) = false) :
    y < x ∨ (y = x ∧ strLess a b = false) := by
  simp only [strLess] at h
  by_cases h1 : x < y
  · simp [h1] at h
  · by_cases h2 : y < x
    · exact Or.inl h2
    · simp only [h1, h2, if_false] at h
      exact Or.inr ⟨by omega, h⟩

theorem nickSortKeyLoop_nonrank (L : StrOps) (display rest : Str) (t : Nat)
    (h : (rest.takeWhile isRankChar).length = 0) :
    nickSortKeyLoop L display rest t = t :: L.toLower display := by
  cases rest with
  | nil => rfl
  | cons x rest =>
    have hx : isRankChar x = false := by
      by_contra hx
      simp only [Bool.not_eq_false] at hx
      simp [List.takeWhile, hx] at h
    have h' : (((¬ x = 126 ∧ ¬ x = 38) ∧ ¬ x = 64) ∧ ¬ x = 37) ∧ ¬ x = 43 := by
      simpa [isRankChar] using hx
    obtain ⟨⟨⟨⟨h1, h2⟩, h3⟩, h4⟩, h5⟩ := h'
    simp [nickSortKeyLoop, h1, h2, h3, h4, h5]

theorem rankOf_lt_iff (c : Nat) : rankOf c < 5 ↔ isRankChar c = true := by
  unfold rankOf isRankChar
  by_cases h1 : c = 126
  · simp [h1]
  by_cases h2 : c = 38
  · simp [h2]
  by_cases h3 : c = 64
  · simp [h3]
  by_cases h4 : c = 37
  · simp [h4]
  by_cases h5 : c = 43
  · simp [h5]
  simp [h1, h2, h3, h4, h5]

theorem rankOf_inj (c d : Nat) (hc : isRankChar c = true) (h : rankOf c = rankOf d) : c = d := by
  have hd : isRankChar d = true := by rw [← rankOf_lt_iff, ← h, rankOf_lt_iff]; exact hc
  simp only [isRankChar, Bool.or_eq_true, beq_iff_eq] at hc hd
  unfold rankOf at h
  rcases hc with (((rfl | rfl) | rfl) | rfl) | rfl <;>
    rcases hd with (((rfl | rfl) | rfl) | rfl) | rfl <;> simp at h ⊢

theorem nickSortKey_single (L : StrOps) (d : Str) (h : singleRank d) :
    nickSortKey L d = (48 + tier d) :: L.toLower d := by
  unfold singleRank at h
  unfold nickSortKey
  cases d with
  | nil => rfl
  | cons c rest =>
    by_cases hc : isRankChar c = true
    · have hrest : (rest.takeWhile isRankChar).length = 0 := by
        simp only [List.takeWhile, hc, List.length_cons] at h
        omega
      have hl := nickSortKeyLoop_nonrank L (c :: rest) rest
      simp only [isRankChar, Bool.or_eq_true, beq_iff_eq] at hc
      rcases hc with (((rfl | rfl) | rfl) | rfl) | rfl <;>
        simp [nickSortKeyLoop, hl _ hrest, tier, rankOf]
    · have h' : (((¬ c = 126 ∧ ¬ c = 38) ∧ ¬ c = 64) ∧ ¬ c = 37) ∧ ¬ c = 43 := by
        simpa [isRankChar] using hc
      obtain ⟨⟨⟨⟨h1, h2⟩, h3⟩, h4⟩, h5⟩ := h'
      simp [nickSortKeyLoop, tier, rankOf, h1, h2, h3, h4, h5]

theorem toLower_single (L : StrOps) (hL : keepsRank L) (d : Str) (h : singleRank d)
    (ht : tier d < 5) :
    ∃ c, isRankChar c = true ∧ rankOf c = tier d ∧ L.toLower d = c :: L.toLower (nickName d) := by
  cases d with
  | nil => simp [tier] at ht
  | cons c rest =>
    have hc : isRankChar c = true := (rankOf_lt_iff c).1 ht
    refine ⟨c, hc, rfl, ?_⟩
    rw [hL c rest hc]
    have hrest : (rest.takeWhile isRankChar).length = 0 := by
      unfold singleRank at h
      simp only [List.takeWhile, hc, List.length_cons] at h
      omega
    have hn : nickName (c :: rest) = rest := by
      unfold nickName
      rw [List.dropWhile_cons_of_pos hc]
      cases rest with
      | nil => rfl
      | cons x rest =>
        have hx : isRankChar x = false := by
          by_contra hx
          simp only [Bool.not_eq_false] at hx
          simp [List.takeWhile, hx] at hrest
        rw [List.dropWhile_cons_of_neg (by simp [hx])]
    rw [hn]

theorem nickName_tier5 (d : Str) (ht : tier d = 5) : nickName d = d := by
  cases d with
  | nil => rfl
  | cons c rest =>
    have hc : ¬ isRankChar c = true := by
      rw [← rankOf_lt_iff]
      simp only [tier] at ht
      omega
    unfold nickName
    rw [List.dropWhile_cons_of_neg hc]

theorem tier_le_five (d : Str) : tier d ≤ 5 := by
  cases d with
  | nil => simp [tier]
  | cons c rest =>
    simp only [tier, rankOf]
    repeat' split
    all_goals omega

theorem nickLess_tierNameLe (L : StrOps) (hL : keepsRank L) (a b : Str) (ha : singleRank a)
    (hb : singleRank b) (h : nickLess L b a = false) : tierNameLe L a b := by
  unfold nickLess at h
  rw [nickSortKey_single L a ha, nickSortKey_single L b hb] at h
  rcases strLess_cons_false _ _ _ _ h with h1 | ⟨h1, h2⟩
  · exact Or.inl (by omega)
  · have ht : tier a = tier b := by omega
    refine Or.inr ⟨ht, ?_⟩
    by_cases h5 : tier a < 5
    · obtain ⟨ca, hca, hra, hla⟩ := toLower_single L hL a ha h5
      obtain ⟨cb, hcb, hrb, hlb⟩ := toLower_single L hL b hb (ht ▸ h5)
      have hcc : ca = cb := rankOf_inj ca cb hca (by rw [hra, hrb, ht])
      subst hcc
      rw [hla, hlb, strLess_cons_same] at h2
      exact h2
    · have h5a : tier a = 5 := by have := tier_le_five a; omega
      rw [nickName_tier5 a h5a, nickName_tier5 b (ht ▸ h5a)]
      exact h2

theorem asciiOps_keepsRank : keepsRank asciiOps := by
  intro c s hc
  have h : ¬ (65 ≤ c ∧ c ≤ 90) := by
    simp only [isRankChar, Bool.or_eq_true, beq_iff_eq] at hc
    omega
  simp [asciiOps, asciiToLower, h]

/-- Where the defect of `nickSortKey` does not show: on a roster whose display forms carry
at most one leading rank-prefix character, `sortedNicks` returns a permutation of the
display values in which every neighbouring pair is in tier order, and within a tier in the
byte order of the lower-cased names; `strings.ToLower` is only asked to keep a leading
rank character in place. -/
theorem sortedNicks_order (L : StrOps) (nicks : List (Str × Str)) (hL : keepsRank L)
    (h1 : ∀ e ∈ nicks, singleRank e.2) :
    (sortedNicks L nicks).Perm (nicks.map Prod.snd) ∧
    (sortedNicks L nicks).Chain' (tierNameLe L) := by
  haveI : IsTotal Str (fun a b => nickLess L b a = false) :=
    ⟨fun a b => strLess_total (nickSortKey L a) (nickSortKey L b)⟩
  haveI : IsTrans Str (fun a b => nickLess L b a = false) :=
    ⟨fun a b c hab hbc => strLess_trans (nickSortKey L a) (nickSortKey L b) (nickSortKey L c)
      hab hbc⟩
  have hperm : (sortedNicks L nicks).Perm (nicks.map Prod.snd) :=
    List.perm_insertionSort _ _
  have hsorted : (sortedNicks L nicks).Sorted (fun a b => nickLess L b a = false) :=
    List.sorted_insertionSort _ _
  have hsingle : ∀ d ∈ sortedNicks L nicks, singleRank d := by
    intro d hd
    obtain ⟨e, he, rfl⟩ := List.mem_map.1 (hperm.subset hd)
    exact h1 e he
  refine ⟨hperm, List.Pairwise.chain' ?_⟩
  exact List.Pairwise.imp_of_mem
    (fun {a b} ha hb hab => nickLess_tierNameLe L hL a b (hsingle a ha) (hsingle b hb) hab)
    hsorted

/-- A roster with an owner, two ops, a voiced nick and two plain nicks. -/
theorem sortedNicks_order_witness :
    (sortedNicks asciiOps
        [(ascii "zed", ascii "@Zed"), (ascii "b", ascii "+b"), (ascii "carl", ascii "carl"),
          (ascii "alice", ascii "@alice"), (ascii "x", ascii "~x"),
          (ascii "bob", ascii "Bob")]).Chain' (tierNameLe asciiOps) :=
  (sortedNicks_order asciiOps
      [(ascii "zed", ascii "@Zed"), (ascii "b", ascii "+b"), (ascii "carl", ascii "carl"),
        (ascii "alice", ascii "@alice"), (ascii "x", ascii "~x"), (ascii "bob", ascii "Bob")]
      asciiOps_keepsRank (by decide)).2

/-- C11, the claim fails in the code: the loop of `nickSortKey` overwrites the tier at every
leading rank character, so for the op who is also voiced, `@+alice`, the key is
`4@+alice`, tier 4 of the last character, while `nickDisplayColor` gives the same entry
the op colour of its first character.  The roster of `@+alice` and `+zed` is listed as
`+zed`, `@+alice`, in either order of the map: the op (tier 2) after the voiced nick
(tier 4), and within the tier 4 of the keys `zed` before `alice`. -/
theorem sortedNicks_last_rank :
    nickSortKey asciiOps (ascii "@+alice") = ascii "4@+alice" ∧
    nickSortKey asciiOps (ascii "+zed") = ascii "4+zed" ∧
    nickDisplayColor (ascii "@+alice") = fgGreen ∧
    nickDisplayColor (ascii "+zed") = fgYellow ∧
    tier (ascii "@+alice") = 2 ∧ tier (ascii "+zed") = 4 ∧
    sortedNicks asciiOps [(ascii "alice", ascii "@+alice"), (ascii "zed", ascii "+zed")]
      = [ascii "+zed", ascii "@+alice"] ∧
    sortedNicks asciiOps [(ascii "zed", ascii "+zed"), (ascii "alice", ascii "@+alice")]
      = [ascii "+zed", ascii "@+alice"] ∧
    ¬ tierNameLe asciiOps (ascii "+zed") (ascii "@+alice") ∧
    ¬ List.Chain' (tierNameLe asciiOps)
      (sortedNicks asciiOps [(ascii "alice", ascii "@+alice"), (ascii "zed", ascii "+zed")]) := by
  have h : sortedNicks asciiOps [(ascii "alice", ascii "@+alice"), (ascii "zed", ascii "+zed")]
      = [ascii "+zed", ascii "@+alice"] := by decide
  refine ⟨by decide, by decide, by decide, by decide, by decide, by decide, h, by decide,
    by decide, ?_⟩
  rw [h, List.chain'_cons]
  intro hc
  exact absurd hc.1 (by decide)

/-! ## getChan, getOrMakeChan -/

theorem findIdx_some_spec (L : StrOps) (s : Session) (low : Str) (i : Nat)
    (h : s.findIdx L low = some i) :
    ∃ hi : i < s.channels.length,
      L.toLower (s.deref (s.channels.get ⟨i, hi⟩)).name = low ∧
      ∀ j (hj : j < s.channels.length), j < i →
        L.toLower (s.deref (s.channels.get ⟨j, hj⟩)).name ≠ low := by
  unfold Session.findIdx at h
  simp only at h
  split at h
  · rename_i hlt
    cases h
    refine ⟨hlt, ?_, ?_⟩
    · have := List.findIdx_getElem (w := hlt)
      simpa using this
    · intro j hj hji
      have := List.not_of_lt_findIdx hji
      simpa using this
  · cases h

theorem getChan_some (L : StrOps) (s : Session) (name : Str) (c : Ptr)
    (h : s.getChan L name = some c) :
    c ∈ s.channels ∧ L.toLower (s.deref c).name = L.toLower name := by
  unfold Session.getChan at h
  cases hf : s.findIdx L (L.toLower name) with
  | none => rw [hf] at h; cases h
  | some i =>
    rw [hf] at h
    obtain ⟨hi, h1, _⟩ := findIdx_some_spec L s _ i hf
    simp only at h
    rw [List.get?_eq_get hi] at h
    cases h
    exact ⟨List.get_mem _ _ _, h1⟩

theorem getChan_none (L : StrOps) (s : Session) (name : Str) :
    s.getChan L name = none ↔ ∀ p ∈ s.channels, L.toLower (s.deref p).name ≠ L.toLower name := by
  unfold Session.getChan
  cases hf : s.findIdx L (L.toLower name) with
  | none => simpa using (findIdx_none_iff L s _).1 hf
  | some i =>
    have hi := findIdx_some_lt L s _ i hf
    simp only
    rw [List.get?_eq_get hi]
    simp only [reduceCtorEq, false_iff]
    intro hall
    have := (findIdx_none_iff L s _).2 hall
    rw [hf] at this
    cases this

theorem deref_append_of_lt (s : Session) (c : Channel) (p : Ptr) (h : p < s.heap.length)
    (s' : Session) (hs : s'.heap = s.heap ++ [c]) : s'.deref p = s.deref p := by
  unfold Session.deref
  rw [hs, List.getD_eq_getElem?_getD, List.getD_eq_getElem?_getD,
    List.getElem?_append_left h]

theorem deref_append_length (s : Session) (c : Channel) (s' : Session)
    (hs : s'.heap = s.heap ++ [c]) : s'.deref s.heap.length = c := by
  unfold Session.deref
  rw [hs, List.getD_eq_getElem?_getD]
  simp

/-- C16: on a session whose windows have pairwise distinct lower-cased names,
`getOrMakeChan name` returns a window whose lower-cased name is that of `name`.  When such
a window existed the session is unchanged; otherwise one window is appended, a fresh
`newChannel name`, and the others are as before.  Either way the lower-cased names stay
pairwise distinct, `active` is unchanged, and a second call with a name of the same
lower-cased form returns the same window and changes nothing. -/
theorem getOrMakeChan_spec (L : StrOps) (s : Session) (name : Str)
    (hnd : (s.lowNames L).Nodup) (hal : s.allocated) :
    L.toLower ((s.getOrMakeChan L name).2.deref (s.getOrMakeChan L name).1).name
      = L.toLower name ∧
    ((∃ p ∈ s.channels, L.toLower (s.deref p).name = L.toLower name) →
      (s.getOrMakeChan L name).2 = s ∧ (s.getOrMakeChan L name).1 ∈ s.channels) ∧
    ((∀ p ∈ s.channels, L.toLower (s.deref p).name ≠ L.toLower name) →
      (s.getOrMakeChan L name).2.channels = s.channels ++ [(s.getOrMakeChan L name).1] ∧
      (s.getOrMakeChan L name).2.deref (s.getOrMakeChan L name).1 = newChannel name ∧
      ∀ p ∈ s.channels, (s.getOrMakeChan L name).2.deref p = s.deref p) ∧
    ((s.getOrMakeChan L name).2.lowNames L).Nodup ∧
    (s.getOrMakeChan L name).2.allocated ∧
    (s.getOrMakeChan L name).2.active = s.active ∧
    (∀ name', L.toLower name' = L.toLower name →
      (s.getOrMakeChan L name).2.getOrMakeChan L name'
        = ((s.getOrMakeChan L name).1, (s.getOrMakeChan L name).2)) := by
  cases hg : s.getChan L name with
  | some c =>
    have hres : s.getOrMakeChan L name = (c, s) := by
      unfold Session.getOrMakeChan; rw [hg]
    obtain ⟨hc1, hc2⟩ := getChan_some L s name c hg
    rw [hres]
    refine ⟨hc2, fun _ => ⟨rfl, hc1⟩, ?_, hnd, hal, rfl, ?_⟩
    · intro hall
      exact absurd hc2 (hall c hc1)
    · intro name' hn
      have : s.getChan L name' = some c := by
        unfold Session.getChan at hg ⊢
        rw [hn]; exact hg
      unfold Session.getOrMakeChan
      simp only [this]
  | none =>
    have hres : s.getOrMakeChan L name = (s.heap.length,
        s.pushChan (newChannel name)) := by
      unfold Session.getOrMakeChan; rw [hg]
    have hall := (getChan_none L s name).1 hg
    have hch : (s.pushChan (newChannel name)).channels = s.channels ++ [s.heap.length] := rfl
    rw [hres]
    have hnew : (s.pushChan (newChannel name)).deref s.heap.length
        = newChannel name := deref_append_length s _ _ rfl
    have hold : ∀ p ∈ s.channels, (s.pushChan (newChannel name)).deref p = s.deref p :=
      fun p hp => deref_append_of_lt s _ p (hal p hp) _ rfl
    have hnames : (s.pushChan (newChannel name)).lowNames L
        = s.lowNames L ++ [L.toLower name] := by
      unfold Session.lowNames
      simp only [hch, List.map_append, List.map_cons, List.map_nil, hnew]
      congr 1
      · exact List.map_congr_left (fun p hp => by rw [hold p hp])
    refine ⟨by rw [hnew]; rfl, ?_, fun _ => ⟨rfl, hnew, hold⟩, ?_, ?_, rfl, ?_⟩
    · rintro ⟨p, hp, he⟩
      exact absurd he (hall p hp)
    · rw [hnames, List.nodup_append]
      refine ⟨hnd, List.nodup_singleton _, ?_⟩
      intro a ha hb
      rw [List.mem_singleton] at hb
      subst hb
      obtain ⟨p, hp, he⟩ := List.mem_map.1 ha
      exact hall p hp he
    · intro p hp
      have hlen : (s.pushChan (newChannel name)).heap.length = s.heap.length + 1 := by
        simp [Session.pushChan]
      rw [hlen]
      rcases List.mem_append.1 hp with h | h
      · exact Nat.lt_succ_of_lt (hal p h)
      · rw [List.mem_singleton] at h; rw [h]; exact Nat.lt_succ_self _
    · intro name' hn
      have hfi : (s.pushChan (newChannel name)).findIdx L (L.toLower name')
          = some s.channels.length := by
        unfold Session.findIdx
        simp only
        have hidx : List.findIdx (fun p => decide (L.toLower
            ((s.pushChan (newChannel name)).deref p).name
              = L.toLower name')) (s.channels ++ [s.heap.length]) = s.channels.length := by
          rw [List.findIdx_append]
          have hno : List.findIdx (fun p => decide (L.toLower
              ((s.pushChan (newChannel name)).deref p).name
                = L.toLower name')) s.channels = s.channels.length := by
            rw [List.findIdx_eq_length]
            intro p hp
            rw [hold p hp, hn]
            simpa using hall p hp
          rw [hno, if_neg (by omega)]
          have hnm : (newChannel name).name = name := rfl
          simp [List.findIdx_cons, hnew, hn, hnm]
        rw [hch, hidx, if_pos (by simp)]
      unfold Session.getOrMakeChan Session.getChan
      simp only [hfi, hch]
      rw [List.get?_eq_get (by simp)]
      simp

/-- A fresh session asked twice for `#Chan`, the second time as `#CHAN`: one window is
made, named as first asked. -/
theorem getOrMakeChan_spec_witness :
    ((newSession (ascii "neo123")).getOrMakeChan asciiOps (ascii "#Chan")).2.getOrMakeChan
        asciiOps (ascii "#CHAN")
      = (((newSession (ascii "neo123")).getOrMakeChan asciiOps (ascii "#Chan")).1,
         ((newSession (ascii "neo123")).getOrMakeChan asciiOps (ascii "#Chan")).2) :=
  (getOrMakeChan_spec asciiOps (newSession (ascii "neo123")) (ascii "#Chan")
    (by decide) (by decide)).2.2.2.2.2.2 (ascii "#CHAN") (by decide)
/-! ## switchTo, switchToIdx -/

theorem deref_modify_same (s : Session) (p : Ptr) (f : Channel → Channel)
    (h : p < s.heap.length) : (s.modify p f).deref p = f (s.deref p) := by
  unfold Session.modify Session.deref
  simp only
  rw [List.getD_eq_getElem?_getD, List.getElem?_set_self h]
  rfl

theorem deref_modify_ne (s : Session) (p q : Ptr) (f : Channel → Channel) (h : q ≠ p) :
    (s.modify p f).deref q = s.deref q := by
  unfold Session.modify Session.deref
  simp only
  simp only [List.getD_eq_getElem?_getD, List.getElem?_set_ne (Ne.symm h)]

theorem modify_heap_length (s : Session) (p : Ptr) (f : Channel → Channel) :
    (s.modify p f).heap.length = s.heap.length := by
  unfold Session.modify
  simp

/-- C17: for a valid index `switchToIdx idx` returns true, sets `active` to `idx`, clears
the unread and highlight flags of window `idx` and changes nothing else: no other field of
that window, no other window, no other field of the session.  For any other index it
returns false and leaves the session as it was.  `switchTo name` is `switchToIdx i` for
the first `i` whose window has the lower-cased name of `name`, and returns false, leaving
the session as it was, when there is none. -/
theorem switchTo_frame (L : StrOps) (s : Session) :
    (∀ idx : Int, 0 ≤ idx → idx < (s.channels.length : Int) →
      (s.switchToIdx idx).1 = true ∧
      (s.switchToIdx idx).2.active = idx ∧
      { (s.switchToIdx idx).2 with active := s.active, heap := s.heap } = s ∧
      (s.switchToIdx idx).2.heap.length = s.heap.length ∧
      (∀ q, q ≠ s.channels.getD idx.toNat 0 → (s.switchToIdx idx).2.deref q = s.deref q) ∧
      (s.channels.getD idx.toNat 0 < s.heap.length →
        (s.switchToIdx idx).2.deref (s.channels.getD idx.toNat 0)
          = { s.deref (s.channels.getD idx.toNat 0) with unread := false, highlight := false })) ∧
    (∀ idx : Int, ¬ (0 ≤ idx ∧ idx < (s.channels.length : Int)) →
      s.switchToIdx idx = (false, s)) ∧
    (∀ (name : Str) (i : Nat), i < s.channels.length →
      L.toLower (s.deref (s.channels.getD i 0)).name = L.toLower name →
      (∀ j, j < i → L.toLower (s.deref (s.channels.getD j 0)).name ≠ L.toLower name) →
      s.switchTo L name = s.switchToIdx (i : Int)) ∧
    (∀ name : Str, (∀ p ∈ s.channels, L.toLower (s.deref p).name ≠ L.toLower name) →
      s.switchTo L name = (false, s)) := by
  refine ⟨?_, ?_, ?_, ?_⟩
  · intro idx h0 h1
    have hres : s.switchToIdx idx = (true, ({ s with active := idx }).modify
        (s.channels.getD idx.toNat 0)
        (fun c => { c with unread := false, highlight := false })) := by
      unfold Session.switchToIdx
      rw [if_pos ⟨h0, h1⟩]
    rw [hres]
    refine ⟨rfl, rfl, rfl, modify_heap_length _ _ _, ?_, ?_⟩
    · intro q hq
      exact deref_modify_ne _ _ _ _ hq
    · intro hp
      exact deref_modify_same _ _ _ hp
  · intro idx h
    unfold Session.switchToIdx
    rw [if_neg h]
  · intro name i hi hname hfirst
    have hf : s.findIdx L (L.toLower name) = some i := by
      unfold Session.findIdx
      simp only
      have hidx : s.channels.findIdx (fun p => decide (L.toLower (s.deref p).name
          = L.toLower name)) = i := by
        rw [List.findIdx_eq hi]
        refine ⟨?_, ?_⟩
        · have : s.channels[i] = s.channels.getD i 0 := by
            rw [List.getD_eq_getElem?_getD, List.getElem?_eq_getElem hi]; rfl
          rw [this]
          simpa using hname
        · intro j hj
          have hjl : j < s.channels.length := by omega
          have : s.channels[j] = s.channels.getD j 0 := by
            rw [List.getD_eq_getElem?_getD, List.getElem?_eq_getElem hjl]; rfl
          rw [this]
          simpa using hfirst j hj
      rw [hidx, if_pos hi]
    unfold Session.switchTo Session.switchToIdx
    rw [hf, if_pos ⟨by omega, by omega⟩]
    simp
  · intro name hall
    have hf := (findIdx_none_iff L s (L.toLower name)).2 hall
    unfold Session.switchTo
    rw [hf]

/-! ## truncVis -/

theorem truncVisLoop_visCount (s : List Nat) (maxW vis : Int) (inEsc : Bool)
    (h : vis ≤ maxW) :
    ((visCount (truncVisLoop s maxW vis inEsc) inEsc : Nat) : Int) + vis ≤ maxW := by
  induction s generalizing vis inEsc with
  | nil => simpa [truncVisLoop, visCount] using h
  | cons r rest ih =>
    rw [truncVisLoop]
    by_cases hr : r = 0x1B
    · have hr' : r = 27 := hr
      simp only [hr, if_true]
      rw [visCount, if_pos rfl]
      exact ih vis true h
    · have hr' : ¬ r = 27 := hr
      simp only [hr, if_false]
      cases inEsc with
      | true =>
        simp only [if_true]
        rw [visCount, if_neg hr', if_pos rfl]
        cases hl : isAsciiLetter r with
        | true => simpa using ih vis false h
        | false => simpa using ih vis true h
      | false =>
        simp only [Bool.false_eq_true, if_false]
        by_cases hv : vis ≥ maxW
        · simp only [hv, if_true, visCount]
          simpa using h
        · simp only [hv, if_false]
          rw [visCount, if_neg hr']
          simp only [Bool.false_eq_true, if_false]
          have := ih (vis + 1) false (by omega)
          push_cast
          omega

/-- C18: for every rune sequence and every width `maxW ≥ 0`, `truncVis` returns at most
`maxW` visible runes; the runes of escape sequences are passed through uncounted. -/
theorem truncVis_visible_le (s : List Nat) (maxW : Int) (h : 0 ≤ maxW) :
    ((visCount (truncVis s maxW) false : Nat) : Int) ≤ maxW := by
  have := truncVisLoop_visCount s maxW 0 false h
  simpa [truncVis] using this

/-- A coloured line cut to three columns: the colour sequence is kept, `abc` is kept, the
rest is dropped. -/
theorem truncVis_visible_le_witness :
    ((visCount (truncVis ([27] ++ ascii "[31mabcdef") 3) false : Nat) : Int) ≤ 3 ∧
    truncVis ([27] ++ ascii "[31mabcdef") 3 = [27] ++ ascii "[31mabc" :=
  ⟨truncVis_visible_le ([27] ++ ascii "[31mabcdef") 3 (by decide), by decide⟩

/-! ## Writes through channel pointers -/

theorem activeChan_modify (s : Session) (p : Ptr) (f : Channel → Channel) :
    (s.modify p f).activeChan = s.activeChan := rfl

theorem activeChan_some (s : Session) (h : 0 ≤ s.active) : ∃ a, s.activeChan = some a := by
  unfold Session.activeChan
  split
  · rename_i hlt
    rw [List.get?_eq_get (by omega)]
    exact ⟨_, rfl⟩
  · exact ⟨_, rfl⟩

theorem modify_modify (s : Session) (p : Ptr) (f g : Channel → Channel) :
    (s.modify p f).modify p g = s.modify p (fun c => g (f c)) := by
  by_cases hp : p < s.heap.length
  · have h1 := deref_modify_same s p f hp
    unfold Session.modify at h1 ⊢
    simp only [h1, List.set_set]
  · unfold Session.modify
    simp only [List.set_eq_of_length_le (Nat.le_of_not_lt hp)]

theorem modify_rest (s : Session) (p : Ptr) (f : Channel → Channel) :
    { s.modify p f with heap := s.heap } = s := rfl

theorem addMsgTo_eq (s : Session) (ch : Ptr) (line : Str) (a : Ptr)
    (h : s.activeChan = some a) :
    s.addMsgTo ch line = some (s.modify ch (fun c =>
      if ch ≠ a then { c.addMsg line with unread := true } else c.addMsg line)) := by
  unfold Session.addMsgTo Session.addMsg
  rw [activeChan_modify, h]
  simp only
  by_cases hne : ch = a
  · simp only [hne, ne_eq, not_true_eq_false, if_false]
  · simp only [hne, ne_eq, not_false_eq_true, if_true, modify_modify]

theorem eachChan_spec (upd : List (Str × Str) → List (Str × Str)) (line : Nat → Str)
    (cs : List Ptr) (s : Session) (k : Nat) (a : Ptr) (ha : s.activeChan = some a) :
    ∃ s', s.eachChan upd line cs k = some s' ∧
      { s' with heap := s.heap } = s ∧
      s'.heap.length = s.heap.length ∧
      (∀ q, q ∉ cs → s'.deref q = s.deref q) ∧
      (cs.Nodup → ∀ i (hi : i < cs.length), cs.get ⟨i, hi⟩ < s.heap.length →
        s'.deref (cs.get ⟨i, hi⟩)
          = chanStep upd (line (k + i)) a (cs.get ⟨i, hi⟩) (s.deref (cs.get ⟨i, hi⟩))) := by
  induction cs generalizing s k with
  | nil =>
    refine ⟨s, rfl, rfl, rfl, fun _ _ => rfl, ?_⟩
    intro _ i hi
    simp at hi
  | cons c cs ih =>
    have h1 : (s.modify c (fun ch => { ch with nicks := upd ch.nicks })).activeChan = some a := by
      rw [activeChan_modify]; exact ha
    have hstep : (s.modify c (fun ch => { ch with nicks := upd ch.nicks })).addMsgTo c (line k)
        = some (s.modify c (chanStep upd (line k) a c)) := by
      rw [addMsgTo_eq _ c (line k) a h1, modify_modify]
      rfl
    have ha2 : (s.modify c (chanStep upd (line k) a c)).activeChan = some a := by
      rw [activeChan_modify]; exact ha
    obtain ⟨s', hs', hrest, hlen, hout, hin⟩ := ih _ (k + 1) ha2
    refine ⟨s', ?_, ?_, ?_, ?_, ?_⟩
    · rw [Session.eachChan, hstep]
      exact hs'
    · rw [← modify_rest s c _]
      rw [← hrest]
    · rw [hlen, modify_heap_length]
    · intro q hq
      have hqc : q ≠ c := fun e => hq (by simp [e])
      have hqcs : q ∉ cs := fun e => hq (by simp [e])
      rw [hout q hqcs, deref_modify_ne _ _ _ _ hqc]
    · intro hnd i hi halloc
      have hnd' := List.nodup_cons.1 hnd
      cases i with
      | zero =>
        change c < s.heap.length at halloc
        change s'.deref c = chanStep upd (line (k + 0)) a c (s.deref c)
        rw [hout c hnd'.1, deref_modify_same _ _ _ halloc]
        rfl
      | succ i =>
        have hi' : i < cs.length := by simp only [List.length_cons] at hi; omega
        change cs.get ⟨i, hi'⟩ < s.heap.length at halloc
        change s'.deref (cs.get ⟨i, hi'⟩)
          = chanStep upd (line (k + (i + 1))) a (cs.get ⟨i, hi'⟩) (s.deref (cs.get ⟨i, hi'⟩))
        have hne : cs.get ⟨i, hi'⟩ ≠ c := by
          intro e
          exact hnd'.1 (e ▸ List.get_mem cs i hi')
        have := hin hnd'.2 i hi' (by rw [modify_heap_length]; exact halloc)
        rw [this, deref_modify_ne _ _ _ _ hne]
        congr 2
        omega

/-! ## The roster map -/

theorem mapGet_delete_self (m : List (Str × Str)) (k : Str) : mapGet (mapDelete m k) k = none := by
  unfold mapGet mapDelete
  rw [Option.map_eq_none', List.find?_eq_none]
  intro e he
  have := (List.mem_filter.1 he).2
  simpa using this

theorem mapGet_delete_ne (m : List (Str × Str)) (k k' : Str) (h : k' ≠ k) :
    mapGet (mapDelete m k) k' = mapGet m k' := by
  unfold mapGet mapDelete
  congr 1
  induction m with
  | nil => rfl
  | cons e m ih =>
    by_cases he : e.1 = k
    · have hne : ¬ e.1 = k' := fun e' => h (e'.symm.trans he)
      rw [List.filter_cons_of_neg (by simpa using he), List.find?_cons_of_neg _ (by simpa using hne)]
      exact ih
    · rw [List.filter_cons_of_pos (by simpa using he)]
      by_cases he' : e.1 = k'
      · rw [List.find?_cons_of_pos _ (by simpa using he'),
          List.find?_cons_of_pos _ (by simpa using he')]
      · rw [List.find?_cons_of_neg _ (by simpa using he'),
          List.find?_cons_of_neg _ (by simpa using he')]
        exact ih

theorem mapGet_append_none (m : List (Str × Str)) (k k' v : Str) (h : mapGet m k' = none) :
    mapGet (m ++ [(k, v)]) k' = if k = k' then some v else none := by
  unfold mapGet at h ⊢
  rw [Option.map_eq_none'] at h
  rw [List.find?_append, h]
  by_cases hk : k = k'
  · simp [hk]
  · simp [hk]

theorem mapGet_append_some (m : List (Str × Str)) (k k' v d : Str) (h : mapGet m k' = some d) :
    mapGet (m ++ [(k, v)]) k' = some d := by
  unfold mapGet at h ⊢
  rw [List.find?_append]
  cases hf : List.find? (fun e => decide (e.1 = k')) m with
  | none => rw [hf] at h; cases h
  | some e => rw [hf] at h; simpa using h

theorem mapGet_set (m : List (Str × Str)) (k v k' : Str) :
    mapGet (mapSet m k v) k' = if k' = k then some v else mapGet m k' := by
  unfold mapSet
  by_cases hk : k' = k
  · subst hk
    rw [mapGet_append_none _ _ _ _ (mapGet_delete_self m k'), if_pos rfl, if_pos rfl]
  · rw [if_neg hk]
    cases hg : mapGet m k' with
    | none =>
      rw [mapGet_append_none _ _ _ _ (by rw [mapGet_delete_ne _ _ _ hk]; exact hg),
        if_neg (fun e => hk e.symm)]
    | some d =>
      rw [mapGet_append_some _ _ _ _ d (by rw [mapGet_delete_ne _ _ _ hk]; exact hg)]

theorem addMsg_nicks (c : Channel) (x : Str) : (c.addMsg x).nicks = c.nicks := by
  unfold Channel.addMsg
  simp only
  split <;> rfl

theorem chanStep_nicks (upd : List (Str × Str) → List (Str × Str)) (line : Str) (a c : Ptr)
    (ch : Channel) : (chanStep upd line a c ch).nicks = upd ch.nicks := by
  unfold chanStep
  split
  · exact addMsg_nicks _ _
  · exact addMsg_nicks _ _

theorem chanStep_msgs (upd : List (Str × Str) → List (Str × Str)) (line : Str) (a c : Ptr)
    (ch : Channel) : (chanStep upd line a c ch).msgs = (ch.addMsg line).msgs := by
  unfold chanStep
  split
  · show (Channel.addMsg _ line).msgs = _
    rw [addMsg_msgs, addMsg_msgs]
  · rw [addMsg_msgs, addMsg_msgs]

/-! ## QUIT -/

theorem isNum_false_of_head (m : ircMsg) (h : m.command.getD 0 0 < 48 ∨ 57 < m.command.getD 0 0) :
    isNum m = false := by
  unfold isNum
  simp only [decide_eq_false_iff_not]
  omega

theorem routeNumeric_not_num (G : GoLib) (E : Env) (s : Session) (m : ircMsg)
    (h : isNum m = false) : s.routeNumeric G E m = some s := by
  unfold Session.routeNumeric
  rw [if_neg (by simp [h])]

theorem mem_chansWithNick (L : StrOps) (s : Session) (nick : Str) (p : Ptr) :
    p ∈ s.chansWithNick L nick ↔
      p ∈ s.channels ∧ (mapGet (s.deref p).nicks (L.toLower nick)).isSome = true := by
  unfold Session.chansWithNick
  rw [List.mem_filter]

theorem onMsg_quit (G : GoLib) (E : Env) (s : Session) (joined : Bool) (m : ircMsg)
    (hc : m.command = ascii "QUIT") :
    s.onMsg G E joined m = (s.onQuit G E m).map (fun s1 => (s1, joined, [])) := by
  unfold Session.onMsg
  rw [routeNumeric_not_num G E s m (isNum_false_of_head m (by rw [hc]; decide))]
  simp only
  unfold Session.dispatch
  rw [hc]
  simp only [show ¬ (ascii "QUIT" = ascii "PING") by decide,
    show ¬ (ascii "QUIT" = ascii "001") by decide, show ¬ (ascii "QUIT" = ascii "324") by decide,
    show ¬ (ascii "QUIT" = ascii "332") by decide, show ¬ (ascii "QUIT" = ascii "353") by decide,
    show ¬ (ascii "QUIT" = ascii "366") by decide, show ¬ (ascii "QUIT" = ascii "433") by decide,
    show ¬ (ascii "QUIT" = ascii "JOIN") by decide, show ¬ (ascii "QUIT" = ascii "PART") by decide,
    if_false, if_true]

/-- C12: an incoming QUIT of the nick `who` leaves no window with the key
`ToLower(who)` in its roster; every window whose roster held the key gets exactly one quit
line appended by `addMsg` (so within the 500-line cap) and keeps every other roster entry;
every window whose roster did not hold the key keeps its messages and its roster. -/
theorem quit_removes_nick (G : GoLib) (E : Env) (s : Session) (joined : Bool) (m : ircMsg)
    (who : Str) (hwf : s.wf) (hc : m.command = ascii "QUIT") (hn : m.nick = some who) :
    ∃ s' reason, s.onMsg G E joined m = some (s', joined, []) ∧ m.trail = some reason ∧
      s'.channels = s.channels ∧
      (∀ p ∈ s.channels, mapGet (s'.deref p).nicks (G.toLower who) = none) ∧
      (∀ p ∈ s.channels, (mapGet (s.deref p).nicks (G.toLower who)).isSome = true →
        (∃ k, (s'.deref p).msgs = ((s.deref p).addMsg (quitLine G (E.now k) who reason)).msgs) ∧
        ∀ key, key ≠ G.toLower who →
          mapGet (s'.deref p).nicks key = mapGet (s.deref p).nicks key) ∧
      (∀ p ∈ s.channels, mapGet (s.deref p).nicks (G.toLower who) = none →
        (s'.deref p).msgs = (s.deref p).msgs ∧ (s'.deref p).nicks = (s.deref p).nicks) := by
  obtain ⟨h0, hnd, hal⟩ := hwf
  obtain ⟨reason, hr⟩ := trail_total m
  obtain ⟨a, ha⟩ := activeChan_some s h0
  obtain ⟨s', hs', hrest, _, hout, hin⟩ :=
    eachChan_spec (fun nicks => mapDelete nicks (G.toLower who))
      (fun k => quitLine G (E.now k) who reason) (s.chansWithNick G.toStrOps who) s 0 a ha
  have hcs : (s.chansWithNick G.toStrOps who).Nodup := List.Nodup.filter _ hnd
  have hch : s'.channels = s.channels := by rw [← hrest]
  have hvisited : ∀ p ∈ s.channels, (mapGet (s.deref p).nicks (G.toLower who)).isSome = true →
      ∃ k, s'.deref p = chanStep (fun nicks => mapDelete nicks (G.toLower who))
        (quitLine G (E.now k) who reason) a p (s.deref p) := by
    intro p hp hsome
    have hmem := (mem_chansWithNick G.toStrOps s who p).2 ⟨hp, hsome⟩
    obtain ⟨⟨i, hi⟩, hget⟩ := List.mem_iff_get.1 hmem
    have := hin hcs i hi (by rw [hget]; exact hal p hp)
    rw [hget] at this
    exact ⟨0 + i, this⟩
  have hskipped : ∀ p ∈ s.channels, mapGet (s.deref p).nicks (G.toLower who) = none →
      s'.deref p = s.deref p := by
    intro p hp hnone
    apply hout
    intro hmem
    have := ((mem_chansWithNick G.toStrOps s who p).1 hmem).2
    rw [hnone] at this
    cases this
  refine ⟨s', reason, ?_, hr, hch, ?_, ?_, ?_⟩
  · rw [onMsg_quit G E s joined m hc]
    unfold Session.onQuit
    rw [hn, hr]
    simp only
    rw [hs']
    rfl
  · intro p hp
    cases hg : mapGet (s.deref p).nicks (G.toLower who) with
    | none => rw [hskipped p hp hg]; exact hg
    | some d =>
      obtain ⟨k, hk⟩ := hvisited p hp (by rw [hg]; rfl)
      rw [hk, chanStep_nicks]
      exact mapGet_delete_self _ _
  · intro p hp hsome
    obtain ⟨k, hk⟩ := hvisited p hp hsome
    refine ⟨⟨k, by rw [hk, chanStep_msgs]⟩, ?_⟩
    intro key hkey
    rw [hk, chanStep_nicks]
    exact mapGet_delete_ne _ _ _ hkey
  · intro p hp hnone
    rw [hskipped p hp hnone]
    exact ⟨rfl, rfl⟩

/-- A nick present in three channel windows: QUIT removes it from all three rosters and
appends one quit line to each; the fourth roster entry stays. -/
theorem quit_removes_nick_witness :
    ∃ s', Session.onMsg asciiLib ⟨fun _ => ascii "12:00", 0, 0⟩
        { newSession (ascii "neo123") with
          heap := [newChannel statusName,
            { newChannel (ascii "#a") with nicks := [(ascii "alice", ascii "@alice")] },
            { newChannel (ascii "#b") with nicks := [(ascii "alice", ascii "alice")] },
            { newChannel (ascii "#c") with
              nicks := [(ascii "alice", ascii "+alice"), (ascii "bob", ascii "bob")] }],
          channels := [0, 1, 2, 3], active := 1 }
        false ⟨ascii "Alice!u@h", ascii "QUIT", [ascii "bye"]⟩ = some (s', false, []) ∧
      (∀ p ∈ [0, 1, 2, 3], mapGet (s'.deref p).nicks (ascii "alice") = none) ∧
      (s'.deref 1).msgs.length = 1 ∧ (s'.deref 2).msgs.length = 1 ∧
      (s'.deref 3).msgs.length = 1 ∧ (s'.deref 0).msgs.length = 0 ∧
      mapGet (s'.deref 3).nicks (ascii "bob") = some (ascii "bob") := by
  obtain ⟨s', reason, h1, _, _, h2, h3, h4⟩ := quit_removes_nick asciiLib
    ⟨fun _ => ascii "12:00", 0, 0⟩
    { newSession (ascii "neo123") with
      heap := [newChannel statusName,
        { newChannel (ascii "#a") with nicks := [(ascii "alice", ascii "@alice")] },
        { newChannel (ascii "#b") with nicks := [(ascii "alice", ascii "alice")] },
        { newChannel (ascii "#c") with
          nicks := [(ascii "alice", ascii "+alice"), (ascii "bob", ascii "bob")] }],
      channels := [0, 1, 2, 3], active := 1 }
    false ⟨ascii "Alice!u@h", ascii "QUIT", [ascii "bye"]⟩ (ascii "Alice")
    (by decide) (by decide) (by decide)
  refine ⟨s', h1, h2, ?_, ?_, ?_, ?_, ?_⟩
  · obtain ⟨⟨k, hk⟩, _⟩ := h3 1 (by decide) (by decide)
    rw [hk]; rfl
  · obtain ⟨⟨k, hk⟩, _⟩ := h3 2 (by decide) (by decide)
    rw [hk]; rfl
  · obtain ⟨⟨k, hk⟩, _⟩ := h3 3 (by decide) (by decide)
    rw [hk]; rfl
  · rw [(h4 0 (by decide) (by decide)).1]; rfl
  · rw [(h3 3 (by decide) (by decide)).2 (ascii "bob") (by decide)]; rfl

/-! ## 353, the name-reply -/

theorem lastWithKey_cons (L : StrOps) (n : Str) (ns : List Str) (key : Str) :
    lastWithKey L (n :: ns) key =
      match lastWithKey L ns key with
      | some n' => some n'
      | none => if nickKey L n = key then some n else none := by
  unfold lastWithKey
  rw [List.reverse_cons, List.find?_append]
  cases List.find? (fun n => decide (nickKey L n = key)) ns.reverse with
  | some n' => rfl
  | none =>
    by_cases hk : nickKey L n = key
    · simp [hk]
    · simp [hk]

theorem mapGet_addNames (L : StrOps) (names : List Str) (m : List (Str × Str)) (key : Str) :
    mapGet (addNames L m names) key =
      match lastWithKey L names key with
      | some n => some n
      | none => mapGet m key := by
  induction names generalizing m with
  | nil => rfl
  | cons n ns ih =>
    have hstep : addNames L m (n :: ns) = addNames L (mapSet m (nickKey L n) n) ns := rfl
    rw [hstep, ih, lastWithKey_cons]
    cases lastWithKey L ns key with
    | some n' => rfl
    | none =>
      simp only
      rw [mapGet_set]
      by_cases hk : nickKey L n = key
      · rw [if_pos hk.symm, if_pos hk]
      · rw [if_neg (fun e => hk e.symm), if_neg hk]

theorem lastWithKey_some (L : StrOps) (names : List Str) (key n : Str)
    (h : lastWithKey L names key = some n) : n ∈ names ∧ nickKey L n = key := by
  unfold lastWithKey at h
  have h1 := List.find?_some h
  have h2 := List.mem_of_find?_eq_some h
  exact ⟨List.mem_reverse.1 h2, by simpa using h1⟩

theorem lastWithKey_none (L : StrOps) (names : List Str) (key : Str) :
    lastWithKey L names key = none ↔ ∀ n ∈ names, nickKey L n ≠ key := by
  unfold lastWithKey
  rw [List.find?_eq_none]
  simp

theorem onMsg_353 (G : GoLib) (E : Env) (s : Session) (joined : Bool) (m : ircMsg)
    (hc : m.command = ascii "353") :
    s.onMsg G E joined m = (s.on353 G.toStrOps m).map (fun s1 => (s1, joined, [])) := by
  have hr : s.routeNumeric G E m = some s := by
    unfold Session.routeNumeric
    rw [if_neg (by simp [hc])]
  unfold Session.onMsg
  rw [hr]
  simp only
  unfold Session.dispatch
  rw [hc]
  simp only [show ¬ (ascii "353" = ascii "PING") by decide,
    show ¬ (ascii "353" = ascii "001") by decide, show ¬ (ascii "353" = ascii "324") by decide,
    show ¬ (ascii "353" = ascii "332") by decide, if_false, if_true]

/-- C13: a 353 name-reply whose first `#` parameter names a window of the session stores
every name of its trailing parameter in that window's roster, under the lower-cased name
without its leading rank characters; the value under each such key is the last name of the
reply with that key, in its original form.  Every roster entry under another key, every
other field of the window, every other window (so every message list) and the rest of the
session are unchanged, and nothing is sent.  When no window has the name, the session is
unchanged. -/
theorem names_reply (G : GoLib) (E : Env) (s : Session) (joined : Bool) (m : ircMsg)
    (chName t : Str) (hc : m.command = ascii "353")
    (hch : m.params.find? (fun p => hasPrefix p (ascii "#")) = some chName)
    (ht : m.trail = some t) :
    (∀ c, s.getChan G.toStrOps chName = some c → c < s.heap.length →
      ∃ s', s.onMsg G E joined m = some (s', joined, []) ∧
        { s' with heap := s.heap } = s ∧
        (∀ q, q ≠ c → s'.deref q = s.deref q) ∧
        (∀ q, (s'.deref q).msgs = (s.deref q).msgs) ∧
        { s'.deref c with nicks := (s.deref c).nicks } = s.deref c ∧
        (∀ n ∈ G.fields t, ∃ n', lastWithKey G.toStrOps (G.fields t) (nickKey G.toStrOps n) = some n' ∧
          mapGet (s'.deref c).nicks (nickKey G.toStrOps n) = some n') ∧
        (∀ key, (∀ n ∈ G.fields t, nickKey G.toStrOps n ≠ key) →
          mapGet (s'.deref c).nicks key = mapGet (s.deref c).nicks key)) ∧
    (s.getChan G.toStrOps chName = none → s.onMsg G E joined m = some (s, joined, [])) := by
  have hne : chName ≠ [] := by
    have := List.find?_some hch
    intro e
    rw [e] at this
    revert this
    decide
  have hon : s.on353 G.toStrOps m =
      match s.getChan G.toStrOps chName with
      | some c => some (s.modify c (fun ch =>
          { ch with nicks := addNames G.toStrOps ch.nicks (G.fields t) }))
      | none => some s := by
    unfold Session.on353
    rw [hch]
    simp only [hne, if_false, ht]
  refine ⟨?_, ?_⟩
  · intro c hg hlt
    refine ⟨s.modify c (fun ch => { ch with nicks := addNames G.toStrOps ch.nicks (G.fields t) }),
      ?_, rfl, ?_, ?_, ?_, ?_, ?_⟩
    · rw [onMsg_353 G E s joined m hc, hon, hg]
      rfl
    · intro q hq
      exact deref_modify_ne _ _ _ _ hq
    · intro q
      by_cases hq : q = c
      · subst hq
        rw [deref_modify_same _ _ _ hlt]
      · rw [deref_modify_ne _ _ _ _ hq]
    · rw [deref_modify_same _ _ _ hlt]
    · intro n hn
      rw [deref_modify_same _ _ _ hlt]
      simp only
      rw [mapGet_addNames]
      cases hl : lastWithKey G.toStrOps (G.fields t) (nickKey G.toStrOps n) with
      | none => exact absurd rfl ((lastWithKey_none _ _ _).1 hl n hn)
      | some n' => exact ⟨n', rfl, rfl⟩
    · intro key hkey
      rw [deref_modify_same _ _ _ hlt]
      simp only
      rw [mapGet_addNames, (lastWithKey_none _ _ _).2 hkey]
  · intro hg
    rw [onMsg_353 G E s joined m hc, hon, hg]
    rfl

/-- The reply `353 neo123 = #c :@alice +bob Alice`: the key `alice` ends with the later
form `Alice`, `bob` with `+bob`, and the entry `carl` stays. -/
theorem names_reply_witness :
    ∃ s', Session.onMsg asciiLib ⟨fun _ => ascii "12:00", 0, 0⟩
        { newSession (ascii "neo123") with
          heap := [newChannel statusName,
            { newChannel (ascii "#c") with nicks := [(ascii "carl", ascii "carl")] }],
          channels := [0, 1], active := 1 }
        false ⟨ascii "srv", ascii "353",
          [ascii "neo123", ascii "=", ascii "#c", ascii "@alice +bob Alice"]⟩
        = some (s', false, []) ∧
      mapGet (s'.deref 1).nicks (ascii "alice") = some (ascii "Alice") ∧
      mapGet (s'.deref 1).nicks (ascii "bob") = some (ascii "+bob") ∧
      mapGet (s'.deref 1).nicks (ascii "carl") = some (ascii "carl") := by
  obtain ⟨s', h1, _, _, _, _, h2, h3⟩ := (names_reply asciiLib ⟨fun _ => ascii "12:00", 0, 0⟩
    { newSession (ascii "neo123") with
      heap := [newChannel statusName,
        { newChannel (ascii "#c") with nicks := [(ascii "carl", ascii "carl")] }],
      channels := [0, 1], active := 1 }
    false ⟨ascii "srv", ascii "353",
      [ascii "neo123", ascii "=", ascii "#c", ascii "@alice +bob Alice"]⟩
    (ascii "#c") (ascii "@alice +bob Alice") (by decide) (by decide) (by decide)).1 1
    (by decide) (by decide)
  refine ⟨s', h1, ?_, ?_, ?_⟩
  · obtain ⟨n', hl, hg⟩ := h2 (ascii "@alice") (by decide)
    have : n' = ascii "Alice" := by
      have e : lastWithKey asciiLib.toStrOps (asciiLib.fields (ascii "@alice +bob Alice"))
          (nickKey asciiLib.toStrOps (ascii "@alice")) = some (ascii "Alice") := by decide
      rw [e] at hl
      exact (Option.some.inj hl).symm
    rw [← this]
    exact hg
  · obtain ⟨n', hl, hg⟩ := h2 (ascii "+bob") (by decide)
    have : n' = ascii "+bob" := by
      have e : lastWithKey asciiLib.toStrOps (asciiLib.fields (ascii "@alice +bob Alice"))
          (nickKey asciiLib.toStrOps (ascii "+bob")) = some (ascii "+bob") := by decide
      rw [e] at hl
      exact (Option.some.inj hl).symm
    rw [← this]
    exact hg
  · rw [h3 (ascii "carl") (by decide)]
    rfl

/-! ## NICK -/

theorem onMsg_not_num (G : GoLib) (E : Env) (s : Session) (joined : Bool) (m : ircMsg)
    (h : m.command.getD 0 0 < 48 ∨ 57 < m.command.getD 0 0) :
    s.onMsg G E joined m = s.dispatch G E joined m := by
  unfold Session.onMsg
  rw [routeNumeric_not_num G E s m (isNum_false_of_head m h)]

theorem onMsg_nick (G : GoLib) (E : Env) (s : Session) (joined : Bool) (m : ircMsg)
    (hc : m.command = ascii "NICK") :
    s.onMsg G E joined m = (s.onNick G E m).map (fun s1 => (s1, joined, [])) := by
  rw [onMsg_not_num G E s joined m (by rw [hc]; decide)]
  unfold Session.dispatch
  rw [hc]
  simp +decide only [if_false, if_true]

theorem mapGet_renameNick (L : StrOps) (nicks : List (Str × Str)) (who newN d key : Str)
    (h : mapGet nicks (L.toLower who) = some d) :
    mapGet (renameNick L nicks who newN) key =
      if key = L.toLower newN then some (d.takeWhile isRankChar ++ newN)
      else if key = L.toLower who then none
      else mapGet nicks key := by
  unfold renameNick
  rw [h]
  simp only
  rw [mapGet_set]
  by_cases h1 : key = L.toLower newN
  · rw [if_pos h1, if_pos h1]
  · rw [if_neg h1, if_neg h1]
    by_cases h2 : key = L.toLower who
    · rw [if_pos h2, h2]
      exact mapGet_delete_self _ _
    · rw [if_neg h2]
      exact mapGet_delete_ne _ _ _ h2

/-- C14: a NICK message of a third party renaming `who` to `newN` changes every window
whose roster held the key `ToLower(who)` with display form `d`: afterwards the roster maps
`ToLower(newN)` to the leading rank characters of `d` followed by `newN`, holds no entry
under `ToLower(who)` unless that is the new key, keeps every entry under any other key, and
one rename line is appended.  Windows whose roster did not hold the key are unchanged. -/
theorem nick_renames (G : GoLib) (E : Env) (s : Session) (joined : Bool) (m : ircMsg)
    (who newN : Str) (hwf : s.wf) (hc : m.command = ascii "NICK") (hn : m.nick = some who)
    (hnew : firstOrTrail m = some newN) (hthird : G.equalFold who s.nick = false) :
    ∃ s', s.onMsg G E joined m = some (s', joined, []) ∧
      { s' with heap := s.heap } = s ∧
      (∀ p ∈ s.channels, ∀ d, mapGet (s.deref p).nicks (G.toLower who) = some d →
        mapGet (s'.deref p).nicks (G.toLower newN) = some (d.takeWhile isRankChar ++ newN) ∧
        (G.toLower who ≠ G.toLower newN →
          mapGet (s'.deref p).nicks (G.toLower who) = none) ∧
        (∀ key, key ≠ G.toLower who → key ≠ G.toLower newN →
          mapGet (s'.deref p).nicks key = mapGet (s.deref p).nicks key) ∧
        ∃ k, (s'.deref p).msgs = ((s.deref p).addMsg (renameLine G (E.now k) who newN)).msgs) ∧
      (∀ p ∈ s.channels, mapGet (s.deref p).nicks (G.toLower who) = none →
        s'.deref p = s.deref p) := by
  obtain ⟨h0, hnd, hal⟩ := hwf
  obtain ⟨a, ha⟩ := activeChan_some s h0
  obtain ⟨s', hs', hrest, _, hout, hin⟩ :=
    eachChan_spec (fun nicks => renameNick G.toStrOps nicks who newN)
      (fun k => renameLine G (E.now k) who newN) (s.chansWithNick G.toStrOps who) s 0 a ha
  have hcs : (s.chansWithNick G.toStrOps who).Nodup := List.Nodup.filter _ hnd
  refine ⟨s', ?_, hrest, ?_, ?_⟩
  · rw [onMsg_nick G E s joined m hc]
    unfold Session.onNick
    rw [hn, hnew]
    simp only [hthird, Bool.false_eq_true, if_false]
    rw [hs']
    rfl
  · intro p hp d hd
    have hmem := (mem_chansWithNick G.toStrOps s who p).2 ⟨hp, by rw [hd]; rfl⟩
    obtain ⟨⟨i, hi⟩, hget⟩ := List.mem_iff_get.1 hmem
    have hk := hin hcs i hi (by rw [hget]; exact hal p hp)
    rw [hget] at hk
    have hnicks : ∀ key, mapGet (s'.deref p).nicks key =
        if key = G.toLower newN then some (d.takeWhile isRankChar ++ newN)
        else if key = G.toLower who then none
        else mapGet (s.deref p).nicks key := by
      intro key
      rw [hk, chanStep_nicks]
      exact mapGet_renameNick G.toStrOps _ who newN d key hd
    refine ⟨?_, ?_, ?_, ⟨0 + i, by rw [hk, chanStep_msgs]⟩⟩
    · rw [hnicks, if_pos rfl]
    · intro hne
      rw [hnicks, if_neg hne, if_pos rfl]
    · intro key h1 h2
      rw [hnicks, if_neg h2, if_neg h1]
  · intro p hp hnone
    apply hout
    intro hmem
    have := ((mem_chansWithNick G.toStrOps s who p).1 hmem).2
    rw [hnone] at this
    cases this

/-- The op `@bob` of `#a` renames to `Robert`: the roster of `#a` gets `robert ↦ @Robert`
and loses `bob`; `#b`, where bob is not, is unchanged. -/
theorem nick_renames_witness :
    ∃ s', Session.onMsg asciiLib ⟨fun _ => ascii "12:00", 0, 0⟩
        { newSession (ascii "neo123") with
          heap := [newChannel statusName,
            { newChannel (ascii "#a") with
              nicks := [(ascii "bob", ascii "@bob"), (ascii "carl", ascii "carl")] },
            { newChannel (ascii "#b") with nicks := [(ascii "carl", ascii "carl")] }],
          channels := [0, 1, 2], active := 1 }
        false ⟨ascii "bob!u@h", ascii "NICK", [ascii "Robert"]⟩ = some (s', false, []) ∧
      mapGet (s'.deref 1).nicks (ascii "robert") = some (ascii "@Robert") ∧
      mapGet (s'.deref 1).nicks (ascii "bob") = none ∧
      mapGet (s'.deref 1).nicks (ascii "carl") = some (ascii "carl") ∧
      s'.deref 2 = { newChannel (ascii "#b") with nicks := [(ascii "carl", ascii "carl")] } := by
  obtain ⟨s', h1, _, h2, h3⟩ := nick_renames asciiLib ⟨fun _ => ascii "12:00", 0, 0⟩
    { newSession (ascii "neo123") with
      heap := [newChannel statusName,
        { newChannel (ascii "#a") with
          nicks := [(ascii "bob", ascii "@bob"), (ascii "carl", ascii "carl")] },
        { newChannel (ascii "#b") with nicks := [(ascii "carl", ascii "carl")] }],
      channels := [0, 1, 2], active := 1 }
    false ⟨ascii "bob!u@h", ascii "NICK", [ascii "Robert"]⟩ (ascii "bob") (ascii "Robert")
    (by decide) (by decide) (by decide) (by decide) (by decide)
  obtain ⟨g1, g2, g3, _⟩ := h2 1 (by decide) (ascii "@bob") (by decide)
  refine ⟨s', h1, g1, g2 (by decide), ?_, ?_⟩
  · rw [g3 (ascii "carl") (by decide) (by decide)]; rfl
  · rw [h3 2 (by decide) (by decide)]; rfl

/-! ## 433, nickname in use -/

theorem fmtDec_three (n : Nat) (h1 : 100 ≤ n) (h2 : n < 1000) :
    fmtDec n = [48 + n / 10 / 10, 48 + n / 10 % 10, 48 + n % 10] := by
  obtain ⟨k, rfl⟩ : ∃ k, n = k + 2 := ⟨n - 2, by omega⟩
  unfold fmtDec
  rw [show k + 2 + 1 = k + 1 + 1 + 1 from rfl, fmtDecLoop, if_neg (by omega), fmtDecLoop,
    if_neg (by omega), fmtDecLoop, if_pos (by omega)]

theorem fmtDec_inj (j j' : Nat) (h : j < 900) (h' : j' < 900)
    (he : fmtDec (j + 100) = fmtDec (j' + 100)) : j = j' := by
  rw [fmtDec_three _ (by omega) (by omega), fmtDec_three _ (by omega) (by omega)] at he
  simp only [List.cons.injEq, and_true] at he
  omega

theorem words_nodup : words.Nodup := by decide

theorem words_length : words.length = 35 := rfl

theorem randNick_inj (i j i' j' : Nat) (hi : i < 35) (hj : j < 900) (hi' : i' < 35)
    (hj' : j' < 900) : randNick i j = randNick i' j' ↔ i = i' ∧ j = j' := by
  constructor
  · intro he
    unfold randNick at he
    have hl : (fmtDec (j + 100)).length = (fmtDec (j' + 100)).length := by
      rw [fmtDec_three _ (by omega) (by omega), fmtDec_three _ (by omega) (by omega)]
      rfl
    obtain ⟨hw, hd⟩ := List.append_inj' he hl
    have hil : i < words.length := by rw [words_length]; exact hi
    have hil' : i' < words.length := by rw [words_length]; exact hi'
    rw [List.getD_eq_getElem?_getD, List.getD_eq_getElem?_getD,
      List.getElem?_eq_getElem hil, List.getElem?_eq_getElem hil'] at hw
    simp only [Option.getD_some] at hw
    exact ⟨(List.Nodup.getElem_inj_iff words_nodup).1 hw, fmtDec_inj j j' hj hj' hd⟩
  · rintro ⟨rfl, rfl⟩
    rfl

theorem addMsgTo_some (s : Session) (ch : Ptr) (line : Str) (h0 : 0 ≤ s.active) :
    ∃ s', s.addMsgTo ch line = some s' ∧ { s' with heap := s.heap } = s ∧
      s'.heap.length = s.heap.length := by
  obtain ⟨a, ha⟩ := activeChan_some s h0
  exact ⟨_, addMsgTo_eq s ch line a ha, rfl, modify_heap_length _ _ _⟩

theorem routeNumeric_some (G : GoLib) (E : Env) (s : Session) (m : ircMsg) (h0 : 0 ≤ s.active) :
    ∃ s0, s.routeNumeric G E m = some s0 ∧ { s0 with heap := s.heap } = s ∧
      s0.heap.length = s.heap.length := by
  unfold Session.routeNumeric
  split
  · obtain ⟨t, ht⟩ := trail_total m
    rw [ht]
    exact addMsgTo_some s _ _ h0
  · exact ⟨s, rfl, rfl, rfl⟩

theorem onMsg_433 (G : GoLib) (E : Env) (s : Session) (joined : Bool) (m : ircMsg)
    (hc : m.command = ascii "433") (h0 : 0 ≤ s.active) :
    ∃ s', s.onMsg G E joined m = some (s', joined, [ascii "NICK " ++ randNick E.word E.num]) ∧
      s'.nick = randNick E.word E.num ∧ s'.active = s.active := by
  obtain ⟨s0, hr, hrest, _⟩ := routeNumeric_some G E s m h0
  refine ⟨(s0.on433 G E).1, ?_, rfl, ?_⟩
  · unfold Session.onMsg
    rw [hr]
    simp only
    unfold Session.dispatch
    rw [hc]
    simp +decide only [if_false, if_true]
    rfl
  · show s0.active = s.active
    rw [← hrest]

/-- C15, as amended: two consecutive 433 replies send exactly two NICK lines, each with the
candidate `randNick()` drew for that reply, and the session nick is that candidate; the two
candidates differ exactly when the two pairs of random draws differ. -/
theorem nick_in_use_twice (G : GoLib) (E1 E2 : Env) (s : Session) (joined : Bool)
    (m1 m2 : ircMsg) (h0 : 0 ≤ s.active) (hc1 : m1.command = ascii "433")
    (hc2 : m2.command = ascii "433") (hw1 : E1.word < 35) (hn1 : E1.num < 900)
    (hw2 : E2.word < 35) (hn2 : E2.num < 900) :
    ∃ s1 s2,
      s.onMsg G E1 joined m1 = some (s1, joined, [ascii "NICK " ++ randNick E1.word E1.num]) ∧
      s1.nick = randNick E1.word E1.num ∧
      s1.onMsg G E2 joined m2 = some (s2, joined, [ascii "NICK " ++ randNick E2.word E2.num]) ∧
      s2.nick = randNick E2.word E2.num ∧
      (randNick E1.word E1.num = randNick E2.word E2.num ↔
        E1.word = E2.word ∧ E1.num = E2.num) := by
  obtain ⟨s1, h1, hn, ha⟩ := onMsg_433 G E1 s joined m1 hc1 h0
  obtain ⟨s2, h2, hn', _⟩ := onMsg_433 G E2 s1 joined m2 hc2 (by rw [ha]; exact h0)
  exact ⟨s1, s2, h1, hn, h2, hn', randNick_inj _ _ _ _ hw1 hn1 hw2 hn2⟩

/-- Two replies with different draws: `neo123`, then `fox456`. -/
theorem nick_in_use_twice_witness :
    ∃ s1 s2,
      Session.onMsg asciiLib ⟨fun _ => ascii "12:00", 7, 23⟩ (newSession (ascii "dark100")) true
          ⟨ascii "srv", ascii "433", [ascii "*", ascii "dark100", ascii "in use"]⟩
        = some (s1, true, [ascii "NICK neo123"]) ∧
      Session.onMsg asciiLib ⟨fun _ => ascii "12:00", 10, 356⟩ s1 true
          ⟨ascii "srv", ascii "433", [ascii "*", ascii "neo123", ascii "in use"]⟩
        = some (s2, true, [ascii "NICK fox456"]) := by
  obtain ⟨s1, s2, h1, _, h2, _, _⟩ := nick_in_use_twice asciiLib
    ⟨fun _ => ascii "12:00", 7, 23⟩ ⟨fun _ => ascii "12:00", 10, 356⟩
    (newSession (ascii "dark100")) true
    ⟨ascii "srv", ascii "433", [ascii "*", ascii "dark100", ascii "in use"]⟩
    ⟨ascii "srv", ascii "433", [ascii "*", ascii "neo123", ascii "in use"]⟩
    (by decide) (by decide) (by decide) (by decide) (by decide) (by decide) (by decide)
  exact ⟨s1, s2, h1, h2⟩

/-- C15, the claim as stated fails: when the random draws of the second reply repeat those
of the first, both NICK lines carry the same candidate, here `dark100`. -/
theorem nick_in_use_counterexample :
    ∃ s1 s2,
      Session.onMsg asciiLib ⟨fun _ => ascii "12:00", 0, 0⟩ (newSession (ascii "neo123")) true
          ⟨ascii "srv", ascii "433", [ascii "*", ascii "neo123", ascii "in use"]⟩
        = some (s1, true, [ascii "NICK dark100"]) ∧
      Session.onMsg asciiLib ⟨fun _ => ascii "12:00", 0, 0⟩ s1 true
          ⟨ascii "srv", ascii "433", [ascii "*", ascii "dark100", ascii "in use"]⟩
        = some (s2, true, [ascii "NICK dark100"]) := by
  obtain ⟨s1, h1, _, ha⟩ := onMsg_433 asciiLib ⟨fun _ => ascii "12:00", 0, 0⟩
    (newSession (ascii "neo123")) true
    ⟨ascii "srv", ascii "433", [ascii "*", ascii "neo123", ascii "in use"]⟩ (by decide)
    (by decide)
  obtain ⟨s2, h2, _, _⟩ := onMsg_433 asciiLib ⟨fun _ => ascii "12:00", 0, 0⟩ s1 true
    ⟨ascii "srv", ascii "433", [ascii "*", ascii "dark100", ascii "in use"]⟩ (by decide)
    (by rw [ha]; decide)
  exact ⟨s1, s2, h1, h2⟩

/-! ## PRIVMSG and the highlight flag -/

theorem onMsg_privmsg (G : GoLib) (E : Env) (s : Session) (joined : Bool) (m : ircMsg)
    (hc : m.command = ascii "PRIVMSG") :
    s.onMsg G E joined m = (s.onPrivmsg G E m).map (fun s1 => (s1, joined, [])) := by
  rw [onMsg_not_num G E s joined m (by rw [hc]; decide)]
  unfold Session.dispatch
  rw [hc]
  simp +decide only [if_false, if_true]

theorem deref_modify_highlight (s : Session) (p q : Ptr) (f : Channel → Channel)
    (hf : ∀ c, (f c).highlight = c.highlight) :
    ((s.modify p f).deref q).highlight = (s.deref q).highlight := by
  by_cases hq : q = p
  · subst hq
    by_cases hp : q < s.heap.length
    · rw [deref_modify_same _ _ _ hp, hf]
    · unfold Session.modify Session.deref
      simp only [List.set_eq_of_length_le (Nat.le_of_not_lt hp)]
  · rw [deref_modify_ne _ _ _ _ hq]

theorem addMsg_highlight (c : Channel) (x : Str) : (c.addMsg x).highlight = c.highlight := by
  unfold Channel.addMsg
  simp only
  split <;> rfl

theorem addMsgTo_highlight (s s' : Session) (ch : Ptr) (line : Str)
    (h : s.addMsgTo ch line = some s') :
    s'.activeChan = s.activeChan ∧ s'.nick = s.nick ∧
      ∀ q, (s'.deref q).highlight = (s.deref q).highlight := by
  unfold Session.addMsgTo at h
  cases ha : (s.addMsg ch line).activeChan with
  | none => rw [ha] at h; cases h
  | some a =>
    rw [ha] at h
    simp only at h
    have h1 : ∀ q, ((s.addMsg ch line).deref q).highlight = (s.deref q).highlight :=
      fun q => deref_modify_highlight s ch q _ (fun c => addMsg_highlight c line)
    split at h
    · cases h
      refine ⟨rfl, rfl, fun q => ?_⟩
      rw [deref_modify_highlight (s.addMsg ch line) ch q
        (fun c => { c with unread := true }) (fun c => rfl), h1]
    · cases h
      exact ⟨rfl, rfl, h1⟩

theorem highlightUnlessActive_spec (s s' : Session) (c : Ptr)
    (h : s.highlightUnlessActive c = some s') :
    s'.activeChan = s.activeChan ∧
      (∀ p, s.activeChan = some p → s'.deref p = s.deref p) ∧
      (∀ a, s.activeChan = some a → c ≠ a → c < s.heap.length →
        (s'.deref c).highlight = true) := by
  unfold Session.highlightUnlessActive at h
  cases ha : s.activeChan with
  | none => rw [ha] at h; cases h
  | some a =>
    rw [ha] at h
    simp only at h
    split at h
    · rename_i hne
      cases h
      refine ⟨by rw [activeChan_modify, ha], ?_, ?_⟩
      · intro p hp
        cases hp
        exact deref_modify_ne _ _ _ _ (Ne.symm hne)
      · intro a' _ _ hlt
        rw [deref_modify_same _ _ _ hlt]
    · rename_i he
      cases h
      refine ⟨ha, fun _ _ => rfl, ?_⟩
      intro a' ha' hne
      cases ha'
      exact absurd hne he

theorem getOrMakeChan_highlight (L : StrOps) (s : Session) (name : Str) (q : Ptr) :
    ((s.getOrMakeChan L name).2.deref q).highlight = (s.deref q).highlight := by
  unfold Session.getOrMakeChan
  cases s.getChan L name with
  | some c => rfl
  | none =>
    simp only
    rcases Nat.lt_trichotomy q s.heap.length with h | h | h
    · rw [deref_append_of_lt s (newChannel name) q h _ rfl]
    · subst h
      rw [deref_append_length s (newChannel name) _ rfl]
      unfold Session.deref
      rw [List.getD_eq_getElem?_getD, List.getElem?_eq_none (le_refl _)]
      rfl
    · unfold Session.deref Session.pushChan
      simp only
      rw [List.getD_eq_getElem?_getD, List.getD_eq_getElem?_getD,
        List.getElem?_eq_none (by simp; omega), List.getElem?_eq_none (by omega)]

theorem privmsg_active_keeps_highlight (G : GoLib) (E : Env) (s s' : Session) (m : ircMsg)
    (h : s.onPrivmsg G E m = some s') (p : Ptr) (hp : s'.activeChan = some p) :
    (s'.deref p).highlight = (s.deref p).highlight := by
  unfold Session.onPrivmsg at h
  cases hn : m.nick with
  | none => rw [hn] at h; cases h
  | some sender =>
    rw [hn] at h
    simp only at h
    split at h
    · cases h; rfl
    · cases ht : m.trail with
      | none => rw [ht] at h; cases h
      | some msg0 =>
        rw [ht] at h
        simp only at h
        cases hm : (if isAction msg0 = true then slice msg0 8 (msg0.length - 1) else some msg0) with
        | none => rw [hm] at h; cases h
        | some msg =>
          rw [hm] at h
          simp only at h
          split at h
          · cases hg : s.getChan G.toStrOps (m.params.getD 0 []) with
            | none => rw [hg] at h; cases h; rfl
            | some c =>
              rw [hg] at h
              simp only at h
              split at h
              · exact (addMsgTo_highlight _ _ _ _ h).2.2 p
              · split at h
                · cases hl : chatLine G (E.now 0) sender msg with
                  | none => rw [hl] at h; cases h
                  | some line =>
                    rw [hl] at h
                    simp only at h
                    cases h1 : s.addMsgTo c line with
                    | none => rw [h1] at h; cases h
                    | some s1 =>
                      rw [h1] at h
                      simp only at h
                      have hs1 := addMsgTo_highlight _ _ _ _ h1
                      split at h
                      · obtain ⟨ha, hkeep, _⟩ := highlightUnlessActive_spec _ _ _ h
                        rw [hkeep p (by rw [← ha]; exact hp), hs1.2.2]
                      · cases h
                        exact hs1.2.2 p
                · cases h; rfl
          · split at h
            · cases hl : (if isAction msg0 = true then some (actionLine G (E.now 0) sender msg)
                  else chatLine G (E.now 0) sender msg) with
              | none => simp only [hl] at h; cases h
              | some line =>
                simp only [hl] at h
                cases h1 : (s.getOrMakeChan G.toStrOps sender).2.addMsgTo
                    (s.getOrMakeChan G.toStrOps sender).1 line with
                | none => rw [h1] at h; cases h
                | some s1 =>
                  rw [h1] at h
                  simp only at h
                  have hs1 := addMsgTo_highlight _ _ _ _ h1
                  obtain ⟨ha, hkeep, _⟩ := highlightUnlessActive_spec _ _ _ h
                  rw [hkeep p (by rw [← ha]; exact hp), hs1.2.2, getOrMakeChan_highlight]
            · cases h; rfl

theorem addMsgTo_deref (s : Session) (ch : Ptr) (line : Str) (a : Ptr)
    (h : s.activeChan = some a) (hlt : ch < s.heap.length) :
    ∃ s', s.addMsgTo ch line = some s' ∧ s'.activeChan = some a ∧ s'.nick = s.nick ∧
      s'.heap.length = s.heap.length ∧
      (s'.deref ch).highlight = (s.deref ch).highlight := by
  refine ⟨_, addMsgTo_eq s ch line a h, ?_, rfl, modify_heap_length _ _ _, ?_⟩
  · rw [activeChan_modify]; exact h
  · rw [deref_modify_same _ _ _ hlt]
    split
    · exact addMsg_highlight _ _
    · exact addMsg_highlight _ _

theorem isAction_slice (msg : Str) (h : isAction msg = true) :
    ∃ t, slice msg 8 (msg.length - 1) = some t ∧ msg = (1 :: ascii "ACTION ") ++ t ++ [1] := by
  unfold isAction hasPrefix hasSuffix at h
  rw [Bool.and_eq_true] at h
  obtain ⟨hp, hs⟩ := h
  obtain ⟨rest, hrest⟩ := List.isPrefixOf_iff_prefix.1 hp
  obtain ⟨front, hfront⟩ := List.isSuffixOf_iff_suffix.1 hs
  have hh : (1 :: ascii "ACTION ") = [1, 65, 67, 84, 73, 79, 78, 32] := by decide
  rw [hh] at hrest ⊢
  subst hrest
  rcases List.eq_nil_or_concat rest with rfl | ⟨init, x, rfl⟩
  · exfalso
    have := congrArg List.getLast? hfront
    simp at this
  · rw [List.concat_eq_append] at hfront ⊢
    have hx : x = 1 := by
      have h2 : front ++ [1] = ([1, 65, 67, 84, 73, 79, 78, 32] ++ init) ++ [x] := by
        rw [hfront, List.append_assoc]
      exact (List.singleton_inj.1 (List.append_inj' h2 rfl).2).symm
    subst hx
    refine ⟨init, ?_, by simp⟩
    unfold slice
    rw [if_pos (by simp)]
    congr 1
    rw [← List.append_assoc, List.length_append, List.length_singleton, Nat.add_sub_cancel,
      List.take_left, List.drop_left' (by rfl)]

theorem privmsg_action_spec (G : GoLib) (E : Env) (s : Session) (joined : Bool) (m : ircMsg)
    (hc : m.command = ascii "PRIVMSG") :
    ∀ sender text c a, m.nick = some sender → 2 ≤ m.params.length → m.trail = some text →
      isAction text = true → hasPrefix (m.params.getD 0 []) (ascii "#") = true →
      s.getChan G.toStrOps (m.params.getD 0 []) = some c → c < s.heap.length →
      s.activeChan = some a →
      ∃ s' t, s.onMsg G E joined m = some (s', joined, []) ∧
        text = (1 :: ascii "ACTION ") ++ t ++ [1] ∧
        (s'.deref c).msgs = ((s.deref c).addMsg (actionLine G (E.now 0) sender t)).msgs ∧
        (c ≠ a → (s'.deref c).unread = true) ∧
        (∀ q, (s'.deref q).highlight = (s.deref q).highlight) := by
  intro sender text c a hn hp ht hact htarget hg hlt ha
  obtain ⟨t, hsl, htext⟩ := isAction_slice text hact
  have h1 := addMsgTo_eq s c (actionLine G (E.now 0) sender t) a ha
  obtain ⟨X, hX⟩ : ∃ X, s.addMsgTo c (actionLine G (E.now 0) sender t) = some X := ⟨_, h1⟩
  have hXe := Option.some.inj (hX.symm.trans h1)
  refine ⟨X, t, ?_, htext, ?_, ?_, ?_⟩
  · rw [onMsg_privmsg G E s joined m hc]
    unfold Session.onPrivmsg
    rw [hn, ht]
    simp only [hact, if_true, hsl, htarget, hg, hX, Option.map_some',
      show ¬ m.params.length < 2 by omega, if_false]
  · rw [hXe, deref_modify_same _ _ _ hlt]
    split <;> rfl
  · intro hne
    rw [hXe, deref_modify_same _ _ _ hlt, if_pos hne]
  · exact (addMsgTo_highlight _ _ _ _ hX).2.2

/-- C20, as amended: a channel-addressed PRIVMSG that is regular chat (not a CTCP ACTION),
from a sender other than the own nick for whose nick `nickColor` returns, to a channel
whose window is not the active one, sets the highlight flag of that window when the
lower-cased text contains the lower-cased own nick.  A CTCP ACTION addressed to a channel
that has a window is appended to that window as an action line of the unwrapped text,
marks the window unread when it is not the active one, and changes the highlight flag of
no window.  No PRIVMSG of any kind changes the highlight flag of the window that is
active. -/
theorem privmsg_highlight (G : GoLib) (E : Env) (s : Session) (joined : Bool) (m : ircMsg)
    (hc : m.command = ascii "PRIVMSG") :
    (∀ sender text c a, m.nick = some sender → 2 ≤ m.params.length → m.trail = some text →
      isAction text = false → hasPrefix (m.params.getD 0 []) (ascii "#") = true →
      s.getChan G.toStrOps (m.params.getD 0 []) = some c → c < s.heap.length →
      G.equalFold sender s.nick = false → (nickColor G sender).isSome = true →
      s.activeChan = some a → c ≠ a →
      containsStr (G.toLower text) (G.toLower s.nick) = true →
      ∃ s', s.onMsg G E joined m = some (s', joined, []) ∧ (s'.deref c).highlight = true) ∧
    (∀ sender text c a, m.nick = some sender → 2 ≤ m.params.length → m.trail = some text →
      isAction text = true → hasPrefix (m.params.getD 0 []) (ascii "#") = true →
      s.getChan G.toStrOps (m.params.getD 0 []) = some c → c < s.heap.length →
      s.activeChan = some a →
      ∃ s' t, s.onMsg G E joined m = some (s', joined, []) ∧
        text = (1 :: ascii "ACTION ") ++ t ++ [1] ∧
        (s'.deref c).msgs = ((s.deref c).addMsg (actionLine G (E.now 0) sender t)).msgs ∧
        (c ≠ a → (s'.deref c).unread = true) ∧
        (∀ q, (s'.deref q).highlight = (s.deref q).highlight)) ∧
    (∀ s' j out, s.onMsg G E joined m = some (s', j, out) →
      ∀ p, s'.activeChan = some p → (s'.deref p).highlight = (s.deref p).highlight) := by
  refine ⟨?_, privmsg_action_spec G E s joined m hc, ?_⟩
  · intro sender text c a hn hp ht hact htarget hg hlt hoth hcol ha hne hmention
    obtain ⟨col, hcol'⟩ := Option.isSome_iff_exists.1 hcol
    obtain ⟨s1, h1, ha1, hnick1, hlen1, _⟩ := addMsgTo_deref s c
      (fmtMsg G (E.now 0) (col ++ ascii "<%s>" ++ rst ++ ascii " %s") [sender, text]) a ha hlt
    have h2 : s1.highlightUnlessActive c
        = some (s1.modify c (fun ch => { ch with highlight := true })) := by
      unfold Session.highlightUnlessActive
      rw [ha1]
      simp only [hne, ne_eq, not_false_eq_true, if_true]
    refine ⟨s1.modify c (fun ch => { ch with highlight := true }), ?_, ?_⟩
    · rw [onMsg_privmsg G E s joined m hc]
      unfold Session.onPrivmsg
      rw [hn, ht]
      simp only [hact, Bool.false_eq_true, if_false, htarget, if_true, hg, hoth, Bool.not_false,
        chatLine, hcol', Option.map_some', h1, hnick1, hmention, h2,
        show ¬ m.params.length < 2 by omega]
    · rw [deref_modify_same _ _ _ (by rw [hlen1]; exact hlt)]
  · intro s' j out h p hp
    rw [onMsg_privmsg G E s joined m hc] at h
    cases h1 : s.onPrivmsg G E m with
    | none => rw [h1] at h; cases h
    | some s1 =>
      rw [h1] at h
      simp only [Option.map_some', Option.some.injEq, Prod.mk.injEq] at h
      obtain ⟨rfl, _, _⟩ := h
      exact privmsg_active_keeps_highlight G E s s1 m h1 p hp

set_option maxRecDepth 100000 in
theorem nickColor_bob : (nickColor asciiLib (ascii "bob")).isSome = true := by decide

/-- A chat line naming the own nick, sent to `#c` while the status window is active. -/
theorem privmsg_highlight_witness :
    ∃ s', Session.onMsg asciiLib ⟨fun _ => ascii "12:00", 0, 0⟩
        { newSession (ascii "neo123") with
          heap := [newChannel statusName, newChannel (ascii "#c")],
          channels := [0, 1], active := 0 }
        false ⟨ascii "bob!u@h", ascii "PRIVMSG", [ascii "#c", ascii "hi Neo123, hello"]⟩
        = some (s', false, []) ∧ (s'.deref 1).highlight = true :=
  (privmsg_highlight asciiLib ⟨fun _ => ascii "12:00", 0, 0⟩
    { newSession (ascii "neo123") with
      heap := [newChannel statusName, newChannel (ascii "#c")],
      channels := [0, 1], active := 0 }
    false ⟨ascii "bob!u@h", ascii "PRIVMSG", [ascii "#c", ascii "hi Neo123, hello"]⟩
    (by decide)).1 (ascii "bob") (ascii "hi Neo123, hello") 1 0 (by decide) (by decide)
    (by decide) (by decide) (by decide) (by decide) (by decide) (by decide) nickColor_bob
    (by decide) (by decide) (by decide)

/-- C20, the claim as stated fails: a CTCP ACTION naming the own nick, sent by another
user to `#c` while the status window is active, is appended to `#c` and marks it unread,
but the highlight flag of `#c` stays clear. -/
theorem privmsg_action_counterexample :
    (Session.onMsg asciiLib ⟨fun _ => ascii "12:00", 0, 0⟩
        { newSession (ascii "neo123") with
          heap := [newChannel statusName, newChannel (ascii "#c")],
          channels := [0, 1], active := 0 }
        false ⟨ascii "bob!u@h", ascii "PRIVMSG",
          [ascii "#c", [1] ++ ascii "ACTION pokes neo123" ++ [1]]⟩).map
      (fun r => ((r.1.deref 1).msgs.length, (r.1.deref 1).unread, (r.1.deref 1).highlight))
      = some (1, true, false) ∧
    containsStr (asciiToLower (ascii "pokes neo123")) (asciiToLower (ascii "neo123")) = true :=
  ⟨by rfl, by decide⟩

/-! ## The nick-list scroll offset -/

theorem scrolls_modify (s : Session) (p : Ptr) (f : Channel → Channel)
    (hf : ∀ c, (f c).nickScroll = c.nickScroll) : (s.modify p f).scrolls = s.scrolls := by
  unfold Session.scrolls Session.modify Session.deref
  simp only [List.map_set, hf]
  apply List.ext_getElem?
  intro i
  by_cases hi : p = i
  · subst hi
    by_cases hp : p < s.heap.length
    · rw [List.getElem?_set_self (by simpa using hp)]
      simp [List.getD_eq_getElem?_getD, List.getElem?_eq_getElem hp]
    · rw [List.getElem?_eq_none (by simpa using hp), List.getElem?_eq_none (by simpa using hp)]
  · rw [List.getElem?_set_ne hi]

theorem addMsg_nickScroll (c : Channel) (line : Str) : (c.addMsg line).nickScroll = c.nickScroll := by
  unfold Channel.addMsg
  dsimp only
  split <;> rfl

theorem scrolls_addMsg (s : Session) (p : Ptr) (line : Str) : (s.addMsg p line).scrolls = s.scrolls :=
  scrolls_modify s p _ (fun c => addMsg_nickScroll c line)

theorem scrolls_addMsgTo (s s' : Session) (p : Ptr) (line : Str)
    (h : s.addMsgTo p line = some s') : s'.scrolls = s.scrolls := by
  unfold Session.addMsgTo at h
  split at h
  · cases h
  · split at h <;> cases h
    · refine Eq.trans (scrolls_modify _ _ _ ?_) (scrolls_addMsg s p line)
      intro c; rfl
    · exact scrolls_addMsg s p line

theorem scrolls_addMsgActive (s s' : Session) (line : Str)
    (h : s.addMsgActive line = some s') : s'.scrolls = s.scrolls := by
  unfold Session.addMsgActive at h
  split at h
  · cases h
  · cases h; exact scrolls_addMsg s _ line

theorem scrolls_highlightUnlessActive (s s' : Session) (c : Ptr)
    (h : s.highlightUnlessActive c = some s') : s'.scrolls = s.scrolls := by
  unfold Session.highlightUnlessActive at h
  split at h
  · cases h
  · split at h <;> cases h
    · exact scrolls_modify _ _ _ (fun _ => rfl)
    · rfl

theorem scrolls_removeChan (L : StrOps) (s : Session) (name : Str) :
    (s.removeChan L name).scrolls = s.scrolls := by
  unfold Session.removeChan
  dsimp only
  split <;> rfl

theorem scrolls_switchTo (L : StrOps) (s : Session) (name : Str) :
    (s.switchTo L name).2.scrolls = s.scrolls := by
  unfold Session.switchTo
  split
  · exact scrolls_modify _ _ _ (fun _ => rfl)
  · rfl

theorem scrolls_switchToIdx (s : Session) (idx : Int) :
    (s.switchToIdx idx).2.scrolls = s.scrolls := by
  unfold Session.switchToIdx
  split
  · exact scrolls_modify _ _ _ (fun _ => rfl)
  · rfl

theorem scrollsKept_refl (s : Session) : scrollsKept s s := ⟨0, by simp⟩

theorem scrollsKept_of_eq (s s' : Session) (h : s'.scrolls = s.scrolls) : scrollsKept s s' :=
  ⟨0, by simp [h]⟩

theorem scrollsKept_trans (a b c : Session) (h1 : scrollsKept a b) (h2 : scrollsKept b c) :
    scrollsKept a c := by
  obtain ⟨k1, e1⟩ := h1
  obtain ⟨k2, e2⟩ := h2
  exact ⟨k1 + k2, by rw [e2, e1, List.append_assoc, ← List.replicate_add]⟩

theorem scrollsKept_eq_right (a b c : Session) (h1 : scrollsKept a b)
    (h2 : c.scrolls = b.scrolls) : scrollsKept a c :=
  scrollsKept_trans a b c h1 (scrollsKept_of_eq b c h2)

theorem scrollsKept_getOrMakeChan (L : StrOps) (s : Session) (name : Str) :
    scrollsKept s (s.getOrMakeChan L name).2 := by
  unfold Session.getOrMakeChan
  split
  · exact scrollsKept_refl s
  · exact ⟨1, by simp [Session.scrolls, Session.pushChan, newChannel]⟩

theorem scrolls_eachChan (upd : List (Str × Str) → List (Str × Str)) (line : Nat → Str)
    (cs : List Ptr) : ∀ (s s' : Session) (k : Nat),
    Session.eachChan upd line s cs k = some s' → s'.scrolls = s.scrolls := by
  induction cs with
  | nil => intro s s' k h; cases h; rfl
  | cons c cs ih =>
    intro s s' k h
    unfold Session.eachChan at h
    split at h
    · cases h
    · rename_i s1 h1
      refine (ih _ _ _ h).trans ((scrolls_addMsgTo _ _ _ _ h1).trans (scrolls_modify _ _ _ ?_))
      intro c; rfl

theorem scrolls_addLines (G : GoLib) (E : Env) (ac : Ptr) (ls : List Str) :
    ∀ (s : Session) (k : Nat), (Session.addLines G E ac s ls k).scrolls = s.scrolls := by
  induction ls with
  | nil => intro s k; rfl
  | cons l ls ih => intro s k; unfold Session.addLines; rw [ih, scrolls_addMsg]

theorem scrolls_routeNumeric (G : GoLib) (E : Env) (s s' : Session) (m : ircMsg)
    (h : s.routeNumeric G E m = some s') : s'.scrolls = s.scrolls := by
  unfold Session.routeNumeric at h
  split at h
  · split at h
    · cases h
    · exact scrolls_addMsgTo _ _ _ _ h
  · cases h; rfl

theorem scrolls_on001 (G : GoLib) (E : Env) (s : Session) (joined : Bool) :
    (s.on001 G E joined).1.scrolls = s.scrolls := by
  unfold Session.on001
  split
  · rfl
  · exact scrolls_addMsg _ _ _

theorem scrolls_on324 (L : StrOps) (s : Session) (m : ircMsg) :
    (s.on324 L m).scrolls = s.scrolls := by
  unfold Session.on324
  split
  · split
    · exact scrolls_modify _ _ _ (fun _ => rfl)
    · rfl
  · rfl

theorem scrolls_on332 (L : StrOps) (s s' : Session) (m : ircMsg)
    (h : s.on332 L m = some s') : s'.scrolls = s.scrolls := by
  unfold Session.on332 at h
  split at h
  · split at h
    · cases h
    · split at h <;> cases h
      · exact scrolls_modify _ _ _ (fun _ => rfl)
      · rfl
  · cases h; rfl

theorem scrolls_on353 (L : StrOps) (s s' : Session) (m : ircMsg)
    (h : s.on353 L m = some s') : s'.scrolls = s.scrolls := by
  unfold Session.on353 at h
  split at h
  · cases h; rfl
  · split at h
    · cases h; rfl
    · split at h
      · cases h
      · split at h <;> cases h
        · exact scrolls_modify _ _ _ (fun _ => rfl)
        · rfl

theorem scrolls_on433 (G : GoLib) (E : Env) (s : Session) :
    (s.on433 G E).1.scrolls = s.scrolls := by
  unfold Session.on433
  exact scrolls_addMsg _ _ _

theorem scrollsKept_onJoin (G : GoLib) (E : Env) (s : Session) (m : ircMsg)
    (r : Session × List Str) (h : s.onJoin G E m = some r) : scrollsKept s r.1 := by
  unfold Session.onJoin at h
  split at h
  · split at h
    · rename_i who chName _ _ _
      cases h
      refine scrollsKept_eq_right _ _ _ (scrollsKept_getOrMakeChan G.toStrOps s chName) ?_
      refine (scrolls_switchTo _ _ _).trans ((scrolls_addMsg _ _ _).trans
        ((scrolls_addMsg _ _ _).trans (scrolls_modify _ _ _ ?_)))
      intro c; rfl
    · split at h
      · cases h1 : ((s.modify _ _).addMsgTo _ _) with
        | none => rw [h1] at h; cases h
        | some s1 =>
          rw [h1] at h
          cases h
          refine scrollsKept_of_eq _ _ ((scrolls_addMsgTo _ _ _ _ h1).trans
            (scrolls_modify _ _ _ ?_))
          intro c; rfl
      · cases h; exact scrollsKept_refl s
  · cases h

theorem scrolls_onPart (G : GoLib) (E : Env) (s s' : Session) (m : ircMsg)
    (h : s.onPart G E m = some s') : s'.scrolls = s.scrolls := by
  unfold Session.onPart at h
  split at h
  · cases h
  · dsimp only at h
    split at h
    · cases h; exact scrolls_removeChan _ _ _
    · split at h
      · refine (scrolls_addMsgTo _ _ _ _ h).trans (scrolls_modify _ _ _ ?_)
        intro c; rfl
      · cases h; rfl

theorem scrolls_onQuit (G : GoLib) (E : Env) (s s' : Session) (m : ircMsg)
    (h : s.onQuit G E m = some s') : s'.scrolls = s.scrolls := by
  unfold Session.onQuit at h
  split at h
  · exact scrolls_eachChan _ _ _ _ _ _ h
  · cases h

theorem scrolls_onNotice (G : GoLib) (E : Env) (s s' : Session) (m : ircMsg)
    (h : s.onNotice G E m = some s') : s'.scrolls = s.scrolls := by
  unfold Session.onNotice at h
  split at h
  · split at h
    · exact scrolls_addMsgTo _ _ _ _ h
    · exact scrolls_addMsgActive _ _ _ h
  · cases h

theorem scrolls_onNick (G : GoLib) (E : Env) (s s' : Session) (m : ircMsg)
    (h : s.onNick G E m = some s') : s'.scrolls = s.scrolls := by
  unfold Session.onNick at h
  split at h
  · split at h
    · exact (scrolls_addMsgActive _ _ _ h).trans rfl
    · exact scrolls_eachChan _ _ _ _ _ _ h
  · cases h

theorem scrolls_onKick (G : GoLib) (E : Env) (s : Session) (m : ircMsg)
    (r : Session × List Str) (h : s.onKick G E m = some r) : r.1.scrolls = s.scrolls := by
  unfold Session.onKick at h
  split at h
  · cases h; rfl
  · split at h
    · cases h
    · split at h
      · split at h <;> cases h
        · exact scrolls_addMsg _ _ _
        · rfl
      · split at h
        · cases h1 : ((s.modify _ _).addMsgTo _ _) with
          | none => rw [h1] at h; cases h
          | some s1 =>
            rw [h1] at h
            cases h
            refine (scrolls_addMsgTo _ _ _ _ h1).trans (scrolls_modify _ _ _ ?_)
            intro c; rfl
        · cases h; rfl

theorem scrolls_onMode (L : StrOps) (s : Session) (m : ircMsg) :
    (s.onMode L m).1.scrolls = s.scrolls := by
  unfold Session.onMode
  split
  · dsimp only
    split
    · exact scrolls_modify _ _ _ (fun _ => rfl)
    · rfl
  · rfl

theorem scrolls_onOther (G : GoLib) (E : Env) (s s' : Session) (m : ircMsg)
    (h : s.onOther G E m = some s') : s'.scrolls = s.scrolls := by
  unfold Session.onOther at h
  split at h
  · exact scrolls_addMsgTo _ _ _ _ h
  · cases h; rfl

theorem scrollsKept_onPrivmsg (G : GoLib) (E : Env) (s s' : Session) (m : ircMsg)
    (h : s.onPrivmsg G E m = some s') : scrollsKept s s' := by
  unfold Session.onPrivmsg at h
  split at h
  · cases h
  · split at h
    · cases h; exact scrollsKept_refl s
    · split at h
      · cases h
      · split at h
        · cases h
        · split at h
          · split at h
            · cases h; exact scrollsKept_refl s
            · split at h
              · exact scrollsKept_of_eq _ _ (scrolls_addMsgTo _ _ _ _ h)
              · split at h
                · split at h
                  · cases h
                  · split at h
                    · cases h
                    · rename_i s1 h1
                      split at h
                      · exact scrollsKept_of_eq _ _
                          ((scrolls_highlightUnlessActive _ _ _ h).trans
                            (scrolls_addMsgTo _ _ _ _ h1))
                      · cases h; exact scrollsKept_of_eq _ _ (scrolls_addMsgTo _ _ _ _ h1)
                · cases h; exact scrollsKept_refl s
          · split at h
            · dsimp only at h
              split at h
              · cases h
              · split at h
                · cases h
                · rename_i s1 h1
                  rename_i sender _ _ _ _ _ _ _ _ _
                  exact scrollsKept_eq_right _ _ _ (scrollsKept_getOrMakeChan G.toStrOps s _)
                    ((scrolls_highlightUnlessActive _ _ _ h).trans (scrolls_addMsgTo _ _ _ _ h1))
            · cases h; exact scrollsKept_refl s

theorem scrollsKept_dispatch (G : GoLib) (E : Env) (s : Session) (joined : Bool) (m : ircMsg)
    (r : Session × Bool × List Str) (h : s.dispatch G E joined m = some r) :
    scrollsKept s r.1 := by
  unfold Session.dispatch at h
  by_cases c0 : m.command = ascii "PING"
  · rw [if_pos c0] at h
    obtain ⟨a, _, rfl⟩ := Option.map_eq_some'.1 h
    exact scrollsKept_refl s
  rw [if_neg c0] at h
  by_cases c1 : m.command = ascii "001"
  · rw [if_pos c1] at h
    cases h
    exact scrollsKept_of_eq _ _ (scrolls_on001 G E s joined)
  rw [if_neg c1] at h
  by_cases c2 : m.command = ascii "324"
  · rw [if_pos c2] at h
    cases h
    exact scrollsKept_of_eq _ _ (scrolls_on324 _ s m)
  rw [if_neg c2] at h
  by_cases c3 : m.command = ascii "332"
  · rw [if_pos c3] at h
    obtain ⟨a, ha, rfl⟩ := Option.map_eq_some'.1 h
    exact scrollsKept_of_eq _ _ (scrolls_on332 _ _ _ _ ha)
  rw [if_neg c3] at h
  by_cases c4 : m.command = ascii "353"
  · rw [if_pos c4] at h
    obtain ⟨a, ha, rfl⟩ := Option.map_eq_some'.1 h
    exact scrollsKept_of_eq _ _ (scrolls_on353 _ _ _ _ ha)
  rw [if_neg c4] at h
  by_cases c5 : m.command = ascii "366"
  · rw [if_pos c5] at h
    cases h
    exact scrollsKept_refl s
  rw [if_neg c5] at h
  by_cases c6 : m.command = ascii "433"
  · rw [if_pos c6] at h
    cases h
    exact scrollsKept_of_eq _ _ (scrolls_on433 G E s)
  rw [if_neg c6] at h
  by_cases c7 : m.command = ascii "JOIN"
  · rw [if_pos c7] at h
    obtain ⟨a, ha, rfl⟩ := Option.map_eq_some'.1 h
    exact scrollsKept_onJoin _ _ _ _ _ ha
  rw [if_neg c7] at h
  by_cases c8 : m.command = ascii "PART"
  · rw [if_pos c8] at h
    obtain ⟨a, ha, rfl⟩ := Option.map_eq_some'.1 h
    exact scrollsKept_of_eq _ _ (scrolls_onPart _ _ _ _ _ ha)
  rw [if_neg c8] at h
  by_cases c9 : m.command = ascii "QUIT"
  · rw [if_pos c9] at h
    obtain ⟨a, ha, rfl⟩ := Option.map_eq_some'.1 h
    exact scrollsKept_of_eq _ _ (scrolls_onQuit _ _ _ _ _ ha)
  rw [if_neg c9] at h
  by_cases c10 : m.command = ascii "PRIVMSG"
  · rw [if_pos c10] at h
    obtain ⟨a, ha, rfl⟩ := Option.map_eq_some'.1 h
    exact scrollsKept_onPrivmsg _ _ _ _ _ ha
  rw [if_neg c10] at h
  by_cases c11 : m.command = ascii "NOTICE"
  · rw [if_pos c11] at h
    obtain ⟨a, ha, rfl⟩ := Option.map_eq_some'.1 h
    exact scrollsKept_of_eq _ _ (scrolls_onNotice _ _ _ _ _ ha)
  rw [if_neg c11] at h
  by_cases c12 : m.command = ascii "NICK"
  · rw [if_pos c12] at h
    obtain ⟨a, ha, rfl⟩ := Option.map_eq_some'.1 h
    exact scrollsKept_of_eq _ _ (scrolls_onNick _ _ _ _ _ ha)
  rw [if_neg c12] at h
  by_cases c13 : m.command = ascii "KICK"
  · rw [if_pos c13] at h
    obtain ⟨a, ha, rfl⟩ := Option.map_eq_some'.1 h
    exact scrollsKept_of_eq _ _ (scrolls_onKick _ _ _ _ _ ha)
  rw [if_neg c13] at h
  by_cases c14 : m.command = ascii "MODE"
  · rw [if_pos c14] at h
    cases h
    exact scrollsKept_of_eq _ _ (scrolls_onMode _ s m)
  rw [if_neg c14] at h
  obtain ⟨a, ha, rfl⟩ := Option.map_eq_some'.1 h
  exact scrollsKept_of_eq _ _ (scrolls_onOther _ _ _ _ _ ha)

theorem scrollsKept_onMsg (G : GoLib) (E : Env) (s : Session) (joined : Bool) (m : ircMsg)
    (r : Session × Bool × List Str) (h : s.onMsg G E joined m = some r) :
    scrollsKept s r.1 := by
  unfold Session.onMsg at h
  split at h
  · cases h
  · rename_i s0 h0
    exact scrollsKept_trans _ _ _ (scrollsKept_of_eq _ _ (scrolls_routeNumeric _ _ _ _ _ h0))
      (scrollsKept_dispatch _ _ _ _ _ _ h)

theorem scrollsKept_onLine (G : GoLib) (E : Env) (s : Session) (joined : Bool) (line : Str)
    (r : Session × Bool × List Str) (h : s.onLine G E joined line = some r) :
    scrollsKept s r.1 := by
  unfold Session.onLine at h
  split at h
  · cases h
  · exact scrollsKept_onMsg _ _ _ _ _ _ h

theorem scrolls_handleInputPart (L : StrOps) (s s' : Session) (arg : Str)
    (h : s.handleInputPart L arg = some s') : s'.scrolls = s.scrolls := by
  unfold Session.handleInputPart at h
  split at h
  · cases h
  · dsimp only at h
    split at h
    · cases h
    · split at h <;> cases h
      · rfl
      · exact scrolls_removeChan _ _ _

theorem scrolls_handleInputClose (L : StrOps) (s s' : Session)
    (h : s.handleInputClose L = some s') : s'.scrolls = s.scrolls := by
  unfold Session.handleInputClose at h
  split at h
  · cases h
  · dsimp only at h
    split at h <;> cases h
    · rfl
    · exact scrolls_removeChan _ _ _

theorem scrolls_handleInputText (G : GoLib) (E : Env) (s s' : Session) (text : Str)
    (h : s.handleInputText G E text = some s') : s'.scrolls = s.scrolls := by
  unfold Session.handleInputText at h
  split at h
  · cases h
  · split at h
    · cases h; exact scrolls_addMsg _ _ _
    · split at h <;> cases h
      exact scrolls_addMsg _ _ _

theorem scrolls_handleInputSw (L : StrOps) (s : Session) (arg : Str) :
    (s.handleInputSw L arg).scrolls = s.scrolls := by
  unfold Session.handleInputSw
  split
  · rfl
  · split
    · exact scrolls_switchToIdx _ _
    · exact scrolls_switchTo _ _ _

theorem scrolls_handleInputMe (G : GoLib) (E : Env) (s s' : Session) (arg : Str)
    (h : s.handleInputMe G E arg = some s') : s'.scrolls = s.scrolls := by
  unfold Session.handleInputMe at h
  split at h
  · cases h; rfl
  · split at h
    · cases h
    · split at h <;> cases h
      · rfl
      · exact scrolls_addMsg _ _ _

theorem scrollsKept_handleInputMsg (G : GoLib) (E : Env) (s s' : Session) (arg : Str)
    (h : s.handleInputMsg G E arg = some s') : scrollsKept s s' := by
  unfold Session.handleInputMsg at h
  split at h
  · dsimp only at h
    split at h
    · split at h <;> cases h
      exact scrollsKept_eq_right _ _ _
        (scrollsKept_getOrMakeChan G.toStrOps s (splitSpace arg).1)
        ((scrolls_switchTo _ _ _).trans (scrolls_addMsg _ _ _))
    · cases h
      exact scrollsKept_eq_right _ _ _
        (scrollsKept_getOrMakeChan G.toStrOps s (splitSpace arg).1) (scrolls_switchTo _ _ _)
  · cases h; exact scrollsKept_refl s

theorem scrollsKept_handleInputQuery (L : StrOps) (s s' : Session) (arg : Str)
    (h : s.handleInputQuery L arg = some s') : scrollsKept s s' := by
  unfold Session.handleInputQuery at h
  split at h
  · cases h; exact scrollsKept_refl s
  · split at h <;> cases h
    rename_i target _
    exact scrollsKept_eq_right _ _ _ (scrollsKept_getOrMakeChan L s target)
      (scrolls_switchTo _ _ _)

theorem scrolls_handleInputNl (G : GoLib) (E : Env) (s s' : Session)
    (h : s.handleInputNl G E = some s') : s'.scrolls = s.scrolls := by
  unfold Session.handleInputNl at h
  exact (scrolls_addMsgActive _ _ _ h).trans rfl

theorem scrolls_handleInputCl (G : GoLib) (E : Env) (s s' : Session)
    (h : s.handleInputCl G E = some s') : s'.scrolls = s.scrolls := by
  unfold Session.handleInputCl at h
  exact (scrolls_addMsgActive _ _ _ h).trans rfl

theorem nonneg_of_scrollsKept (s s' : Session) (h : scrollsKept s s')
    (hn : ∀ c ∈ s.heap, 0 ≤ c.nickScroll) : ∀ c ∈ s'.heap, 0 ≤ c.nickScroll := by
  obtain ⟨k, e⟩ := h
  intro c hc
  have hm : c.nickScroll ∈ s'.scrolls := List.mem_map.2 ⟨c, hc, rfl⟩
  rw [e, List.mem_append] at hm
  rcases hm with hm | hm
  · obtain ⟨c', hc', e'⟩ := List.mem_map.1 hm
    rw [← e']; exact hn c' hc'
  · rw [(List.mem_replicate.1 hm).2]

theorem deref_nonneg (s : Session) (hn : ∀ c ∈ s.heap, 0 ≤ c.nickScroll) (p : Ptr) :
    0 ≤ (s.deref p).nickScroll := by
  unfold Session.deref
  by_cases hp : p < s.heap.length
  · rw [List.getD_eq_getElem _ _ hp]
    exact hn _ (List.getElem_mem hp)
  · rw [List.getD_eq_default _ _ (Nat.le_of_not_lt hp)]
    exact le_refl _

theorem nonneg_modify (s : Session) (p : Ptr) (f : Channel → Channel)
    (hn : ∀ c ∈ s.heap, 0 ≤ c.nickScroll) (hf : 0 ≤ (f (s.deref p)).nickScroll) :
    ∀ c ∈ (s.modify p f).heap, 0 ≤ c.nickScroll := by
  intro c hc
  rcases List.mem_or_eq_of_mem_set hc with h | h
  · exact hn c h
  · rw [h]; exact hf

theorem wrapInt_of_range (y : Int) (h0 : -2 ^ 63 ≤ y) (h1 : y < 2 ^ 63) : wrapInt y = y := by
  unfold wrapInt
  rw [Int.emod_eq_of_lt (by omega) (by omega)]
  omega

theorem wrapInt_lt (y : Int) : wrapInt y < 2 ^ 63 := by
  unfold wrapInt
  have := Int.emod_lt_of_pos (y + 2 ^ 63) (show (0 : Int) < 2 ^ 64 by norm_num)
  omega

theorem scrollStep_pos (arg : Str) : 0 < scrollStep arg := by
  unfold scrollStep
  split
  · rename_i h; exact h.2
  · norm_num

theorem maxScroll_nonneg (s : Session) (total : Nat) : 0 ≤ s.maxScroll total := by
  unfold Session.maxScroll
  split
  · exact le_refl _
  · omega

theorem mainH_range (s : Session) : 1 ≤ s.mainH ∧ s.mainH < 2 ^ 63 := by
  unfold Session.mainH
  split
  · constructor <;> norm_num
  · exact ⟨by omega, wrapInt_lt _⟩

theorem maxScroll_eq (s : Session) (total : Nat) (ht : (total : Int) + 1 < 2 ^ 63) :
    s.maxScroll total = max 0 ((total : Int) - s.mainH + 2) := by
  obtain ⟨h1, h2⟩ := mainH_range s
  unfold Session.maxScroll
  rw [wrapInt_of_range ((total : Int) - s.mainH) (by omega) (by omega),
    wrapInt_of_range ((total : Int) - s.mainH + 2) (by omega) (by omega)]
  split
  · rw [max_eq_left (by omega)]
  · rw [max_eq_right (by omega)]

theorem nonneg_handleInputNup (s s' : Session) (arg : Str)
    (h : s.handleInputNup arg = some s') (hn : ∀ c ∈ s.heap, 0 ≤ c.nickScroll) :
    ∀ c ∈ s'.heap, 0 ≤ c.nickScroll := by
  unfold Session.handleInputNup at h
  split at h
  · cases h
  · cases h
    apply nonneg_modify _ _ _ hn
    dsimp only
    split
    · exact le_refl _
    · dsimp only; omega

theorem nonneg_handleInputNdown (s s' : Session) (arg : Str)
    (h : s.handleInputNdown arg = some s') (hn : ∀ c ∈ s.heap, 0 ≤ c.nickScroll)
    (hfit : ∀ a, s.activeChan = some a → (s.deref a).nickScroll + scrollStep arg < 2 ^ 63) :
    ∀ c ∈ s'.heap, 0 ≤ c.nickScroll := by
  unfold Session.handleInputNdown at h
  split at h
  · cases h
  · rename_i ac hac
    cases h
    apply nonneg_modify _ _ _ hn
    have h0 := deref_nonneg s hn ac
    have hp := scrollStep_pos arg
    have hw := wrapInt_of_range ((s.deref ac).nickScroll + scrollStep arg) (by omega)
      (hfit ac hac)
    split
    · exact maxScroll_nonneg _ _
    · show 0 ≤ wrapInt ((s.deref ac).nickScroll + scrollStep arg)
      rw [hw]; omega

theorem ndown_fun (s : Session) (arg : Str) (c : Channel) :
    (if wrapInt (c.nickScroll + scrollStep arg) > s.maxScroll (mapLen c.nicks) then
        { c with nickScroll := s.maxScroll (mapLen c.nicks) }
      else { c with nickScroll := wrapInt (c.nickScroll + scrollStep arg) }).nicks = c.nicks ∧
    (if wrapInt (c.nickScroll + scrollStep arg) > s.maxScroll (mapLen c.nicks) then
        { c with nickScroll := s.maxScroll (mapLen c.nicks) }
      else { c with nickScroll := wrapInt (c.nickScroll + scrollStep arg) }).nickScroll
      ≤ s.maxScroll (mapLen c.nicks) := by
  split
  · exact ⟨rfl, le_refl _⟩
  · rename_i hgt
    exact ⟨rfl, not_lt.1 hgt⟩

theorem ndown_upper (s s' : Session) (arg : Str) (a : Ptr)
    (h : s.handleInputNdown arg = some s') (ha : s'.activeChan = some a)
    (ht : (mapLen (s'.deref a).nicks : Int) + 1 < 2 ^ 63) :
    (s'.deref a).nickScroll ≤ max 0 ((mapLen (s'.deref a).nicks : Int) - s'.mainH + 2) := by
  unfold Session.handleInputNdown at h
  split at h
  · cases h
  · rename_i ac hac
    cases h
    rw [activeChan_modify, hac] at ha
    cases ha
    have hm : ∀ f, (s.modify a f).mainH = s.mainH := fun _ => rfl
    rw [hm]
    by_cases hp : a < s.heap.length
    · rw [deref_modify_same _ _ _ hp] at ht ⊢
      obtain ⟨e1, e2⟩ := ndown_fun s arg (s.deref a)
      rw [e1] at ht ⊢
      rw [← maxScroll_eq s _ ht]
      exact e2
    · have e : ∀ f, (s.modify a f).deref a = newChannel [] := by
        intro f
        unfold Session.modify Session.deref
        simp only [List.set_eq_of_length_le (Nat.le_of_not_lt hp)]
        exact List.getD_eq_default _ _ (Nat.le_of_not_lt hp)
      rw [e]
      exact le_max_left _ _

theorem nonneg_handleInputCmd (G : GoLib) (E : Env) (s s' : Session) (cmd arg : Str)
    (h : s.handleInputCmd G E cmd arg = some s') (hn : ∀ c ∈ s.heap, 0 ≤ c.nickScroll)
    (hfit : (cmd = ascii "/ndown" ∨ cmd = ascii "/nd") → ∀ a, s.activeChan = some a →
      (s.deref a).nickScroll + scrollStep arg < 2 ^ 63) :
    ∀ c ∈ s'.heap, 0 ≤ c.nickScroll := by
  unfold Session.handleInputCmd at h
  by_cases c0 : cmd = ascii "/quit" ∨ cmd = ascii "/exit"
  · rw [if_pos c0] at h
    obtain ⟨a, ha, rfl⟩ := Option.map_eq_some'.1 h
    exact nonneg_of_scrollsKept _ _ (scrollsKept_of_eq _ _ ((scrolls_addMsgActive _ _ _ ha).trans rfl)) hn
  rw [if_neg c0] at h
  by_cases c1 : cmd = ascii "/join" ∨ cmd = ascii "/j"
  · rw [if_pos c1] at h
    split at h
    · cases h; exact hn
    · obtain ⟨a, _, rfl⟩ := Option.map_eq_some'.1 h
      exact hn
  rw [if_neg c1] at h
  by_cases c2 : cmd = ascii "/part" ∨ cmd = ascii "/leave"
  · rw [if_pos c2] at h
    exact nonneg_of_scrollsKept _ _ (scrollsKept_of_eq _ _ (scrolls_handleInputPart _ _ _ _ h)) hn
  rw [if_neg c2] at h
  by_cases c3 : cmd = ascii "/sw" ∨ cmd = ascii "/switch" ∨ cmd = ascii "/w"
  · rw [if_pos c3] at h
    cases h
    exact nonneg_of_scrollsKept _ _ (scrollsKept_of_eq _ _ (scrolls_handleInputSw _ _ _)) hn
  rw [if_neg c3] at h
  by_cases c4 : cmd = ascii "/nick"
  · rw [if_pos c4] at h
    cases h; exact hn
  rw [if_neg c4] at h
  by_cases c5 : cmd = ascii "/me"
  · rw [if_pos c5] at h
    exact nonneg_of_scrollsKept _ _ (scrollsKept_of_eq _ _ (scrolls_handleInputMe _ _ _ _ _ h)) hn
  rw [if_neg c5] at h
  by_cases c6 : cmd = ascii "/msg"
  · rw [if_pos c6] at h
    exact nonneg_of_scrollsKept _ _ (scrollsKept_handleInputMsg _ _ _ _ _ h) hn
  rw [if_neg c6] at h
  by_cases c7 : cmd = ascii "/query" ∨ cmd = ascii "/q"
  · rw [if_pos c7] at h
    exact nonneg_of_scrollsKept _ _ (scrollsKept_handleInputQuery _ _ _ _ h) hn
  rw [if_neg c7] at h
  by_cases c8 : cmd = ascii "/close"
  · rw [if_pos c8] at h
    exact nonneg_of_scrollsKept _ _ (scrollsKept_of_eq _ _ (scrolls_handleInputClose _ _ _ h)) hn
  rw [if_neg c8] at h
  by_cases c9 : cmd = ascii "/topic"
  · rw [if_pos c9] at h
    obtain ⟨a, _, rfl⟩ := Option.map_eq_some'.1 h
    exact hn
  rw [if_neg c9] at h
  by_cases c10 : cmd = ascii "/nicklist" ∨ cmd = ascii "/nl"
  · rw [if_pos c10] at h
    exact nonneg_of_scrollsKept _ _ (scrollsKept_of_eq _ _ (scrolls_handleInputNl _ _ _ _ h)) hn
  rw [if_neg c10] at h
  by_cases c11 : cmd = ascii "/chanlist" ∨ cmd = ascii "/cl"
  · rw [if_pos c11] at h
    exact nonneg_of_scrollsKept _ _ (scrollsKept_of_eq _ _ (scrolls_handleInputCl _ _ _ _ h)) hn
  rw [if_neg c11] at h
  by_cases c12 : cmd = ascii "/nup"
  · rw [if_pos c12] at h
    exact nonneg_handleInputNup _ _ _ h hn
  rw [if_neg c12] at h
  by_cases c13 : cmd = ascii "/ndown" ∨ cmd = ascii "/nd"
  · rw [if_pos c13] at h
    exact nonneg_handleInputNdown _ _ _ h hn (hfit c13)
  rw [if_neg c13] at h
  by_cases c14 : cmd = ascii "/redraw" ∨ cmd = ascii "/rd"
  · rw [if_pos c14] at h
    cases h; exact hn
  rw [if_neg c14] at h
  by_cases c15 : cmd = ascii "/resize"
  · rw [if_pos c15] at h
    exact nonneg_of_scrollsKept _ _ (scrollsKept_of_eq _ _ (scrolls_addMsgActive _ _ _ h)) hn
  rw [if_neg c15] at h
  by_cases c16 : cmd = ascii "/help"
  · rw [if_pos c16] at h
    obtain ⟨a, _, rfl⟩ := Option.map_eq_some'.1 h
    exact nonneg_of_scrollsKept _ _ (scrollsKept_of_eq _ _ (scrolls_addLines _ _ _ _ _ _)) hn
  rw [if_neg c16] at h
  exact nonneg_of_scrollsKept _ _ (scrollsKept_of_eq _ _ (scrolls_addMsgActive _ _ _ h)) hn

theorem nonneg_handleInput (G : GoLib) (E : Env) (s s' : Session) (text : Str)
    (h : s.handleInput G E text = some s') (hn : ∀ c ∈ s.heap, 0 ≤ c.nickScroll)
    (hfit : scrollFits G.toStrOps s text) : ∀ c ∈ s'.heap, 0 ≤ c.nickScroll := by
  unfold Session.handleInput at h
  split at h
  · exact nonneg_of_scrollsKept _ _ (scrollsKept_of_eq _ _ (scrolls_handleInputText _ _ _ _ _ h)) hn
  · rename_i hp
    refine nonneg_handleInputCmd G E s s' _ _ h hn (fun hc => hfit ⟨?_, hc⟩)
    cases hq : hasPrefix text (ascii "/")
    · exact absurd hq hp
    · rfl

theorem reach_nonneg (G : GoLib) (s : Session) (h : Reach G s) :
    ∀ c ∈ s.heap, 0 ≤ c.nickScroll := by
  induction h with
  | start nick =>
    intro c hc
    have e : c = newChannel statusName := by simpa [newSession] using hc
    rw [e]; exact le_refl _
  | status s line _ ih =>
    exact nonneg_of_scrollsKept _ _ (scrollsKept_of_eq _ _ (scrolls_addMsg _ _ _)) ih
  | irc E s joined line s' j out _ hl ih =>
    exact nonneg_of_scrollsKept _ _ (scrollsKept_onLine G E s joined line _ hl) ih
  | geom s w h _ _ _ ih =>
    unfold Session.resize
    split
    · exact ih
    · exact ih
  | hist s line _ ih => exact ih
  | input E s text s' _ hi hf ih => exact nonneg_handleInput G E s s' text hi ih hf

theorem scrollsKept_deref (s s' : Session) (h : scrollsKept s s') (p : Ptr)
    (hp : p < s.heap.length) : (s'.deref p).nickScroll = (s.deref p).nickScroll := by
  obtain ⟨k, e⟩ := h
  have hl : s'.heap.length = s.heap.length + k := by
    have := congrArg List.length e
    simpa [Session.scrolls] using this
  have hp' : p < s'.heap.length := by rw [hl]; exact Nat.lt_add_right k hp
  have e1 : s'.scrolls[p]? = s.scrolls[p]? := by
    rw [e, List.getElem?_append_left (by simpa [Session.scrolls] using hp)]
  unfold Session.scrolls at e1
  rw [List.getElem?_map, List.getElem?_map, List.getElem?_eq_getElem hp,
    List.getElem?_eq_getElem hp'] at e1
  unfold Session.deref
  rw [List.getD_eq_getElem _ _ hp, List.getD_eq_getElem _ _ hp']
  simpa using e1

theorem handleInput_ndown (G : GoLib) (E : Env) (s : Session) (text : Str)
    (h : isNdown G.toStrOps text) :
    s.handleInput G E text = s.handleInputNdown (commandOf G.toStrOps text).2 := by
  obtain ⟨hp, hc⟩ := h
  unfold Session.handleInput
  rw [if_neg (by rw [hp]; exact Bool.noConfusion)]
  unfold Session.handleInputCmd
  rcases hc with hc | hc
  · rw [hc]
    simp +decide only [if_false, if_true]
  · rw [hc]
    simp +decide only [if_false, if_true]

/-- C19, as amended: in every session state reachable from `newSession` by lines of `run`
to the status window, lines of the server, geometry changes, history updates and lines
typed, where no `/ndown` makes `nickScroll + n` leave the `int` range, every window has
`0 ≤ nickScroll`; right after a `/ndown` the active window has
`nickScroll ≤ max(0, roster size - mainH() + 2)`; and a line of the server or a geometry
change leaves the offset of every channel object as it was, so the upper bound is not
restored when the roster shrinks or the terminal grows. -/
theorem nickScroll_range (G : GoLib) (s : Session) (h : Reach G s) :
    (∀ p ∈ s.channels, 0 ≤ (s.deref p).nickScroll) ∧
    (∀ E text s' a, isNdown G.toStrOps text → s.handleInput G E text = some s' →
      s'.activeChan = some a → (mapLen (s'.deref a).nicks : Int) + 1 < 2 ^ 63 →
      (s'.deref a).nickScroll ≤ max 0 ((mapLen (s'.deref a).nicks : Int) - s'.mainH + 2)) ∧
    (∀ E joined line s' j out, s.onLine G E joined line = some (s', j, out) →
      ∀ p, p < s.heap.length → (s'.deref p).nickScroll = (s.deref p).nickScroll) ∧
    (∀ w h p, ((s.resize w h).deref p).nickScroll = (s.deref p).nickScroll) := by
  refine ⟨fun p _ => deref_nonneg s (reach_nonneg G s h) p, ?_, ?_, ?_⟩
  · intro E text s' a hn hi ha ht
    rw [handleInput_ndown G E s text hn] at hi
    exact ndown_upper s s' _ a hi ha ht
  · intro E joined line s' j out hl p hp
    exact scrollsKept_deref s s' (scrollsKept_onLine G E s joined line _ hl) p hp
  · intro w h p
    unfold Session.resize
    split <;> rfl

/-- The session after the terminal reported 80 x 6 and `/nd 3` was typed in the status
window. -/
theorem nickScroll_range_witness :
    (∀ p ∈ ((newSession (ascii "neo123")).resize 80 6).channels,
      0 ≤ (((newSession (ascii "neo123")).resize 80 6).deref p).nickScroll) ∧
    (∀ E text s' a, isNdown asciiLib.toStrOps text →
      ((newSession (ascii "neo123")).resize 80 6).handleInput asciiLib E text = some s' →
      s'.activeChan = some a → (mapLen (s'.deref a).nicks : Int) + 1 < 2 ^ 63 →
      (s'.deref a).nickScroll ≤ max 0 ((mapLen (s'.deref a).nicks : Int) - s'.mainH + 2)) ∧
    (∀ E joined line s' j out,
      ((newSession (ascii "neo123")).resize 80 6).onLine asciiLib E joined line
        = some (s', j, out) →
      ∀ p, p < ((newSession (ascii "neo123")).resize 80 6).heap.length →
        (s'.deref p).nickScroll
          = (((newSession (ascii "neo123")).resize 80 6).deref p).nickScroll) ∧
    (∀ w h p, ((((newSession (ascii "neo123")).resize 80 6).resize w h).deref p).nickScroll
      = (((newSession (ascii "neo123")).resize 80 6).deref p).nickScroll) :=
  nickScroll_range asciiLib ((newSession (ascii "neo123")).resize 80 6)
    (Reach.input ⟨fun _ => ascii "12:00", 0, 0⟩ ((newSession (ascii "neo123")).resize 80 6)
      (ascii "/nd 3") ((newSession (ascii "neo123")).resize 80 6)
      (Reach.geom (newSession (ascii "neo123")) 80 6 (Reach.start (ascii "neo123"))
        (by decide) (by decide))
      (by decide)
      (fun _ a ha => by
        have e : a = 0 := by
          have h0 : ((newSession (ascii "neo123")).resize 80 6).activeChan = some 0 := by decide
          rw [h0] at ha
          exact (Option.some.inj ha).symm
        subst e
        have e1 : (((newSession (ascii "neo123")).resize 80 6).deref 0).nickScroll = 0 := by
          decide
        have e2 : scrollStep (commandOf asciiLib.toStrOps (ascii "/nd 3")).2 = 3 := by decide
        rw [e1, e2]
        norm_num))

/-- C19, the claim as stated fails: the terminal reports 80 x 6 (so `mainH()` is 3), the
user joins `#c`, the name-reply lists `alice` and `bob`, the user types `/ndown` (the
offset of `#c` becomes 1), then `alice` quits.  The roster of `#c` has one entry, the
valid range is `0..max(0, 1 - 3 + 2) = 0..0`, and the offset is still 1. -/
theorem nickScroll_counterexample :
    ((Session.onLine asciiLib ⟨fun _ => ascii "12:00", 0, 0⟩
        (clientReader.ingest ⟨newSession (ascii "neo123"), []⟩
          [255, 250, 31, 0, 80, 0, 6, 255, 240]).sess
        true (ascii ":neo123!u@h JOIN #c")).bind (fun r1 =>
      (r1.1.onLine asciiLib ⟨fun _ => ascii "12:01", 0, 0⟩ true
        (ascii ":irc 353 neo123 = #c :alice bob")).bind (fun r2 =>
      (r2.1.handleInput asciiLib ⟨fun _ => ascii "12:02", 0, 0⟩ (ascii "/ndown")).bind
        (fun s3 =>
      (s3.onLine asciiLib ⟨fun _ => ascii "12:03", 0, 0⟩ true
        (ascii ":alice!u@h QUIT :bye")).map (fun r4 =>
        ((r4.1.deref 1).nickScroll, mapLen (r4.1.deref 1).nicks, r4.1.mainH,
          decide (∀ p ∈ r4.1.channels, (r4.1.deref p).nickScroll
            ≤ max 0 ((mapLen (r4.1.deref p).nicks : Int) - r4.1.mainH + 2))))))))
      = some (1, 1, 3, false) := by
  decide

/-! ## clientReader.ingest: option negotiations and the escaped IAC -/

theorem ingest_data (r : clientReader) (x : Str) (hx : 255 ∉ x) :
    r.ingest x = { r with buf := r.buf ++ x } := by
  induction x generalizing r with
  | nil => simp [clientReader.ingest, clientReader.ingestLoop]
  | cons b x ih =>
    have hb : b ≠ iacByte := fun e => hx (by rw [e]; simp [iacByte])
    have hx' : 255 ∉ x := fun e => hx (by simp [e])
    have e1 : r.ingest [b] = { r with buf := r.buf ++ [b] } := by
      simp [clientReader.ingest, clientReader.ingestLoop, hb]
    have := ingest_unit r [b] x (IsUnit.data b hb)
    rw [List.singleton_append] at this
    rw [this, e1, ih _ hx']
    simp

theorem ingest_data_append (r : clientReader) (x d : Str) (hx : 255 ∉ x) :
    r.ingest (x ++ d) = ({ r with buf := r.buf ++ x } : clientReader).ingest d := by
  induction x generalizing r with
  | nil => simp
  | cons b x ih =>
    have hb : b ≠ iacByte := fun e => hx (by rw [e]; simp [iacByte])
    have hx' : 255 ∉ x := fun e => hx (by simp [e])
    have e1 : r.ingest [b] = { r with buf := r.buf ++ [b] } := by
      simp [clientReader.ingest, clientReader.ingestLoop, hb]
    have := ingest_unit r [b] (x ++ d) (IsUnit.data b hb)
    rw [List.singleton_append] at this
    rw [List.cons_append, this, e1, ih _ hx']
    simp

/-- C21: for byte sequences `x` and `y` without the byte 255, a verb among WILL, WONT, DO,
DONT and any option byte `o`, `ingest (x ++ [255, verb, o] ++ y)` appends exactly `x ++ y`
to the line buffer and `ingest (x ++ [255, 255] ++ y)` appends exactly `x ++ [255] ++ y`;
the session, so its geometry, is as before. -/
theorem ingest_negotiation (r : clientReader) (x y : Str) (verb o : Nat)
    (hx : 255 ∉ x) (hy : 255 ∉ y) (hv : verb ∈ [iacWILL, iacWONT, iacDO, iacDONT]) :
    r.ingest (x ++ [255, verb, o] ++ y) = { r with buf := r.buf ++ (x ++ y) } ∧
    r.ingest (x ++ [255, 255] ++ y) = { r with buf := r.buf ++ (x ++ [255] ++ y) } := by
  constructor
  · have hu : IsUnit [iacByte, verb, o] := IsUnit.neg verb o hv
    have e1 : ∀ q : clientReader, q.ingest [iacByte, verb, o] = q := by
      intro q
      simp only [List.mem_cons, List.mem_singleton, List.not_mem_nil, or_false] at hv
      rcases hv with rfl | rfl | rfl | rfl <;>
        simp [clientReader.ingest, clientReader.ingestLoop, clientReader.handleIAC, iacByte,
          iacWILL, iacWONT, iacDO, iacDONT, iacSB]
    rw [List.append_assoc, ingest_data_append r x _ hx]
    have := ingest_unit ({ r with buf := r.buf ++ x } : clientReader) [iacByte, verb, o] y hu
    rw [show ([255, verb, o] : Str) = [iacByte, verb, o] from rfl, this, e1, ingest_data _ y hy]
    simp
  · have hu : IsUnit [iacByte, iacByte] := IsUnit.two iacByte (by decide)
    have e1 : ∀ q : clientReader, q.ingest [iacByte, iacByte] = { q with buf := q.buf ++ [255] } := by
      intro q
      simp [clientReader.ingest, clientReader.ingestLoop, clientReader.handleIAC, iacByte]
    rw [List.append_assoc, ingest_data_append r x _ hx]
    have := ingest_unit ({ r with buf := r.buf ++ x } : clientReader) [iacByte, iacByte] y hu
    rw [show ([255, 255] : Str) = [iacByte, iacByte] from rfl, this, e1, ingest_data _ y hy]
    simp

/-- A typed word with a WILL NAWS negotiation and an escaped 255 in it. -/
theorem ingest_negotiation_witness :
    (clientReader.mk (newSession (ascii "neo123")) (ascii "a")).ingest
        (ascii "hi" ++ [255, 251, 31] ++ ascii "!\n")
      = { clientReader.mk (newSession (ascii "neo123")) (ascii "a") with
          buf := ascii "a" ++ (ascii "hi" ++ ascii "!\n") } ∧
    (clientReader.mk (newSession (ascii "neo123")) (ascii "a")).ingest
        (ascii "hi" ++ [255, 255] ++ ascii "!\n")
      = { clientReader.mk (newSession (ascii "neo123")) (ascii "a") with
          buf := ascii "a" ++ (ascii "hi" ++ [255] ++ ascii "!\n") } :=
  ingest_negotiation (clientReader.mk (newSession (ascii "neo123")) (ascii "a"))
    (ascii "hi") (ascii "!\n") 251 31 (by decide) (by decide) (by decide)

/-! ## clientReader.ReadLine -/

theorem extractCPR_no_esc (s : Session) (a : Str) (ha : 27 ∉ a) :
    (clientReader.mk s a).extractCPR = clientReader.mk s a := by
  unfold clientReader.extractCPR
  have h := extractCPRLoop_skip a ha [] [] 0 s
  simp only [List.nil_append, List.append_nil, List.length_nil, Nat.zero_add] at h
  rw [h]
  exact extractCPRLoop_end 0 _ _ (le_refl _)

theorem ReadLine_found (G : GoLib) (r : clientReader) (reads : List Str) (i : Nat)
    (h : indexByte r.extractCPR.buf 10 = some i) :
    r.ReadLine G reads = some (G.trimSpace (trimRightCR (r.extractCPR.buf.take i)),
        { r.extractCPR with buf := r.extractCPR.buf.drop (i + 1) }, reads) := by
  cases reads with
  | nil => rw [clientReader.ReadLine, h]
  | cons d reads => rw [clientReader.ReadLine, h]

theorem trimRightCR_append_cr (t : Str) : trimRightCR (t ++ [13]) = trimRightCR t := by
  unfold trimRightCR
  rw [List.reverse_append, List.reverse_singleton, List.singleton_append,
    List.dropWhile_cons_of_pos (by decide)]

theorem trimSpace_trimRightCR (G : GoLib) (hG : ∀ t, G.trimSpace (t ++ [13]) = G.trimSpace t)
    (a : Str) : G.trimSpace (trimRightCR a) = G.trimSpace a := by
  induction a using List.reverseRecOn with
  | nil => rfl
  | append_singleton a b ih =>
    by_cases hb : b = 13
    · subst hb
      rw [trimRightCR_append_cr, ih, hG]
    · have : trimRightCR (a ++ [b]) = a ++ [b] := by
        unfold trimRightCR
        rw [List.reverse_append, List.reverse_singleton, List.singleton_append,
          List.dropWhile_cons_of_neg (by simpa using hb), List.reverse_cons, List.reverse_reverse]
      rw [this]

/-- C22: on the buffer `a ++ [LF] ++ b`, where `a` holds no line feed and no ESC and `b`
no ESC, `ReadLine` returns without a call of `conn.Read` (the reads to come are all
left), the line is `TrimSpace(TrimRight(a, "\r"))`, and the buffer left is `b`; the
session is as before.  As `strings.TrimSpace` drops a trailing carriage return, the line
is `TrimSpace(a)`. -/
theorem ReadLine_buffered (G : GoLib) (s : Session) (a b : Str) (reads : List Str)
    (ha : 10 ∉ a) (hae : 27 ∉ a) (hbe : 27 ∉ b) :
    (clientReader.mk s (a ++ [10] ++ b)).ReadLine G reads
      = some (G.trimSpace (trimRightCR a), clientReader.mk s b, reads) ∧
    ((∀ t, G.trimSpace (t ++ [13]) = G.trimSpace t) →
      G.trimSpace (trimRightCR a) = G.trimSpace a) := by
  refine ⟨?_, fun hG => trimSpace_trimRightCR G hG a⟩
  have hne : 27 ∉ a ++ [10] ++ b := by
    simp only [List.mem_append, List.mem_singleton, not_or]
    exact ⟨⟨hae, by decide⟩, hbe⟩
  have he := extractCPR_no_esc s (a ++ [10] ++ b) hne
  have hi : indexByte (clientReader.mk s (a ++ [10] ++ b)).extractCPR.buf 10 = some a.length := by
    rw [he]
    show indexByte (a ++ [10] ++ b) 10 = some a.length
    rw [List.append_assoc, List.singleton_append]
    exact indexByte_append ha b
  rw [ReadLine_found G _ reads a.length hi, he]
  simp

theorem dropWhile_append_of_exists (p : Nat → Bool) (t u : Str)
    (h : ∃ x ∈ t, p x = false) : (t ++ u).dropWhile p = t.dropWhile p ++ u := by
  induction t with
  | nil => obtain ⟨x, hx, _⟩ := h; cases hx
  | cons y t ih =>
    by_cases hy : p y = true
    · rw [List.cons_append, List.dropWhile_cons_of_pos hy, List.dropWhile_cons_of_pos hy]
      apply ih
      obtain ⟨x, hx, hxs⟩ := h
      rcases List.mem_cons.1 hx with rfl | hx
      · rw [hy] at hxs; cases hxs
      · exact ⟨x, hx, hxs⟩
    · rw [List.cons_append, List.dropWhile_cons_of_neg hy, List.dropWhile_cons_of_neg hy,
        List.cons_append]

theorem asciiTrimSpace_cr (t : Str) : asciiTrimSpace (t ++ [13]) = asciiTrimSpace t := by
  unfold asciiTrimSpace
  by_cases h : ∀ x ∈ t, isAsciiSpace x = true
  · have e1 : (t ++ [13]).dropWhile isAsciiSpace = [] := by
      rw [List.dropWhile_eq_nil_iff]
      intro x hx
      rcases List.mem_append.1 hx with hx | hx
      · exact h x hx
      · rw [List.mem_singleton.1 hx]; decide
    have e2 : t.dropWhile isAsciiSpace = [] := List.dropWhile_eq_nil_iff.2 h
    rw [e1, e2]
  · push_neg at h
    obtain ⟨x, hx, hxs⟩ := h
    rw [dropWhile_append_of_exists isAsciiSpace t [13] ⟨x, hx, by simpa using hxs⟩,
      List.reverse_append, List.reverse_singleton, List.singleton_append,
      List.dropWhile_cons_of_pos (by decide)]

/-- A typed line ending in CR CR LF, with bytes of the next line behind it; no read is
made, and the line returned is `/join #c`. -/
theorem ReadLine_buffered_witness :
    ((clientReader.mk (newSession (ascii "neo123"))
        (ascii "  /join #c \r\r" ++ [10] ++ ascii "he")).ReadLine asciiLib [ascii "llo\n"]
      = some (asciiLib.trimSpace (trimRightCR (ascii "  /join #c \r\r")),
          clientReader.mk (newSession (ascii "neo123")) (ascii "he"), [ascii "llo\n"]) ∧
    ((∀ t, asciiLib.trimSpace (t ++ [13]) = asciiLib.trimSpace t) →
      asciiLib.trimSpace (trimRightCR (ascii "  /join #c \r\r"))
        = asciiLib.trimSpace (ascii "  /join #c \r\r"))) ∧
    (∀ t, asciiLib.trimSpace (t ++ [13]) = asciiLib.trimSpace t) ∧
    asciiLib.trimSpace (ascii "  /join #c \r\r") = ascii "/join #c" :=
  ⟨ReadLine_buffered asciiLib (newSession (ascii "neo123")) (ascii "  /join #c \r\r")
      (ascii "he") [ascii "llo\n"] (by decide) (by decide) (by decide),
    asciiTrimSpace_cr, by decide⟩

/-! ## removeChan and the active window -/

theorem splice_get?_lt {α : Type} (l : List α) (i k : Nat) (hk : k < i) (hi : i < l.length) :
    (l.take i ++ l.drop (i + 1)).get? k = l.get? k := by
  rw [List.get?_eq_getElem?, List.get?_eq_getElem?,
    List.getElem?_append_left (by rw [List.length_take]; omega), List.getElem?_take_of_lt hk]

theorem splice_get?_ge {α : Type} (l : List α) (i k : Nat) (hk : i ≤ k) (hi : i < l.length) :
    (l.take i ++ l.drop (i + 1)).get? k = l.get? (k + 1) := by
  have hl : (l.take i).length = i := by rw [List.length_take]; omega
  rw [List.get?_eq_getElem?, List.get?_eq_getElem?,
    List.getElem?_append_right (by rw [hl]; exact hk), hl, List.getElem?_drop]
  congr 1
  omega

theorem activeChan_of_valid (s : Session) (k : Nat) (ha : s.active = (k : Int))
    (hk : k < s.channels.length) : s.activeChan = s.channels.get? k := by
  unfold Session.activeChan
  rw [ha, if_pos (by exact_mod_cast hk), if_pos (by omega)]
  rfl

theorem removeChan_active_eq (L : StrOps) (s : Session) (name : Str) (i k : Nat)
    (hf : s.findIdx L (L.toLower name) = some i) (ha : s.active = (k : Int)) :
    (k + 1 < s.channels.length → (s.removeChan L name).active = (k : Int)) ∧
    (k + 1 = s.channels.length → 1 ≤ k → (s.removeChan L name).active = ((k - 1 : Nat) : Int)) := by
  have hi := findIdx_some_lt L s _ i hf
  obtain ⟨_, h2⟩ := removeChan_of_some L s name i hf
  rw [splice_length _ i hi, ha] at h2
  constructor
  · intro h
    rw [h2]
    split_ifs <;> omega
  · intro h h1
    rw [h2]
    split_ifs <;> omega

/-- C23, as amended: `removeChan name` keeps the window position `active` and clamps it to
the last position.  With a valid active index and `name` matching first at position `i`:
when `i` lies after the active position, or before it while the active window is the last
one, the same window is active afterwards; when `i` lies before the active position and
the active window is not the last one, `active` keeps its value, so the window that
followed the active one is active afterwards.  No `Channel` object is changed. -/
theorem removeChan_active_window (L : StrOps) (s : Session) (name : Str) (i k : Nat)
    (hf : s.findIdx L (L.toLower name) = some i) (ha : s.active = (k : Int))
    (hk : k < s.channels.length) :
    (s.removeChan L name).heap = s.heap ∧
    (k < i → (s.removeChan L name).activeChan = s.activeChan) ∧
    (i < k → k + 1 = s.channels.length →
      (s.removeChan L name).activeChan = s.activeChan) ∧
    (i < k → k + 1 < s.channels.length →
      (s.removeChan L name).active = s.active ∧
      (s.removeChan L name).activeChan = s.channels.get? (k + 1)) := by
  have hi := findIdx_some_lt L s _ i hf
  obtain ⟨hch, _⟩ := removeChan_of_some L s name i hf
  obtain ⟨e1, e2⟩ := removeChan_active_eq L s name i k hf ha
  have hlen : (s.removeChan L name).channels.length = s.channels.length - 1 := by
    rw [hch, splice_length _ i hi]
  have hheap : (s.removeChan L name).heap = s.heap := by
    unfold Session.removeChan
    simp only [hf]
  refine ⟨hheap, ?_, ?_, ?_⟩
  · intro hki
    rw [activeChan_of_valid s k ha hk,
      activeChan_of_valid _ k (e1 (by omega)) (by rw [hlen]; omega), hch,
      splice_get?_lt _ i k hki hi]
  · intro hik hlast
    rw [activeChan_of_valid s k ha hk,
      activeChan_of_valid _ (k - 1) (e2 hlast (by omega)) (by rw [hlen]; omega), hch,
      splice_get?_ge _ i (k - 1) (by omega) hi]
    congr 1
    omega
  · intro hik hnl
    refine ⟨by rw [e1 hnl, ha], ?_⟩
    rw [activeChan_of_valid _ k (e1 hnl) (by rw [hlen]; omega), hch,
      splice_get?_ge _ i k (by omega) hi]

/-- Four windows, `#b` active: removing `#c` (typed as `#C`) keeps `#b` active. -/
theorem removeChan_active_window_witness :
    (Session.removeChan asciiOps fourWindows (ascii "#C")).activeChan
      = fourWindows.activeChan :=
  (removeChan_active_window asciiOps fourWindows (ascii "#C") 3 2 (by decide) (by decide)
    (by decide)).2.1 (by decide)

/-- C23, the claim as stated fails: with the windows `*status`, `#a`, `#b`, `#c` and `#b`
active, `removeChan("#a")` leaves `active` at 2, which is now the position of `#c`. -/
theorem removeChan_active_counterexample :
    fourWindows.activeChan.map (fun p => (fourWindows.deref p).name) = some (ascii "#b") ∧
    ((Session.removeChan asciiOps fourWindows (ascii "#a")).activeChan).map
      (fun p => ((Session.removeChan asciiOps fourWindows (ascii "#a")).deref p).name)
      = some (ascii "#c") ∧
    (fourWindows.lowNames asciiOps).Nodup := by
  decide

/-! ## extractCPR: all reports of a buffer -/

theorem extractCPRLoop_all (ps : List (Str × Str)) :
    ∀ (d0 pre : Str) (s : Session) (f : Nat), 27 ∉ d0 →
      (∀ p ∈ ps, isNums p.1 ∧ 27 ∉ p.2) →
      ∃ s', (clientReader.mk s (pre ++ cprBuffer d0 ps)).extractCPRLoop
          (f + cprPasses d0 ps) pre.length = clientReader.mk s' (pre ++ cprData d0 ps) := by
  induction ps with
  | nil =>
    intro d0 pre s f h0 _
    refine ⟨s, ?_⟩
    have h := extractCPRLoop_skip d0 h0 pre [] f s
    simp only [List.append_nil] at h
    show (clientReader.mk s (pre ++ d0)).extractCPRLoop (f + d0.length) pre.length = _
    rw [h]
    exact extractCPRLoop_end f _ _ (by simp)
  | cons p ps ih =>
    intro d0 pre s f h0 hps
    obtain ⟨hn, hd⟩ := hps p (by simp)
    have hps' : ∀ q ∈ ps, isNums q.1 ∧ 27 ∉ q.2 := fun q hq => hps q (by simp [hq])
    have h1 := extractCPRLoop_skip d0 h0 pre (27 :: 91 :: (p.1 ++ 82 :: cprBuffer p.2 ps))
      (f + cprPasses p.2 ps + 1) s
    have h2 := extractCPRLoop_report (pre ++ d0) p.1 (cprBuffer p.2 ps) (f + cprPasses p.2 ps) s hn
    obtain ⟨s', h3⟩ := ih p.2 (pre ++ d0)
      (if (splitByte 59 p.1).length = 2 then
        (if simpleAtoi ((splitByte 59 p.1).getD 0 []) > 5 ∧
            simpleAtoi ((splitByte 59 p.1).getD 1 []) > 10
          then s.resize (simpleAtoi ((splitByte 59 p.1).getD 1 []))
            (simpleAtoi ((splitByte 59 p.1).getD 0 []))
          else s)
       else s) f hd hps'
    refine ⟨s', ?_⟩
    show (clientReader.mk s (pre ++ (d0 ++ 27 :: 91 :: (p.1 ++ 82 :: cprBuffer p.2 ps)))).extractCPRLoop
      (f + (d0.length + (cprPasses p.2 ps + 1))) pre.length
      = clientReader.mk s' (pre ++ (d0 ++ cprData p.2 ps))
    rw [show f + (d0.length + (cprPasses p.2 ps + 1)) = f + cprPasses p.2 ps + 1 + d0.length
      from by omega, ← List.append_assoc, h1, ← List.length_append, h2, h3, List.append_assoc]

theorem cprPasses_le (ps : List (Str × Str)) :
    ∀ d0 : Str, cprPasses d0 ps ≤ (cprBuffer d0 ps).length := by
  induction ps with
  | nil => intro d0; exact le_refl _
  | cons p ps ih =>
    intro d0
    have := ih p.2
    simp only [cprPasses, cprBuffer, List.length_append, List.length_cons]
    omega

theorem cprData_no_esc (ps : List (Str × Str)) :
    ∀ d0 : Str, 27 ∉ d0 → (∀ p ∈ ps, isNums p.1 ∧ 27 ∉ p.2) → 27 ∉ cprData d0 ps := by
  induction ps with
  | nil => intro d0 h0 _; exact h0
  | cons p ps ih =>
    intro d0 h0 hps
    simp only [cprData, List.mem_append, not_or]
    exact ⟨h0, ih p.2 (hps p (by simp)).2 (fun q hq => hps q (by simp [hq]))⟩

theorem not_hasReport_of_no_esc (buf : Str) (h : 27 ∉ buf) : ¬ hasReport buf := by
  rintro ⟨pre, nums, post, _, e⟩
  apply h
  rw [e]
  simp

/-- C24, as amended: on a buffer made of stretches without an ESC byte and of
cursor-position reports between them, one call of `extractCPR` leaves exactly the
stretches; what is left holds no ESC byte, so no report, and a second call changes neither
the buffer nor the session. -/
theorem extractCPR_all (s : Session) (d0 : Str) (ps : List (Str × Str)) (h0 : 27 ∉ d0)
    (hps : ∀ p ∈ ps, isNums p.1 ∧ 27 ∉ p.2) :
    ((clientReader.mk s (cprBuffer d0 ps)).extractCPR).buf = cprData d0 ps ∧
    27 ∉ cprData d0 ps ∧
    ¬ hasReport ((clientReader.mk s (cprBuffer d0 ps)).extractCPR).buf ∧
    ((clientReader.mk s (cprBuffer d0 ps)).extractCPR).extractCPR
      = (clientReader.mk s (cprBuffer d0 ps)).extractCPR := by
  obtain ⟨s', h⟩ := extractCPRLoop_all ps d0 [] s
    ((cprBuffer d0 ps).length - cprPasses d0 ps) h0 hps
  have hle := cprPasses_le ps d0
  have hne := cprData_no_esc ps d0 h0 hps
  have e : (clientReader.mk s (cprBuffer d0 ps)).extractCPR = clientReader.mk s' (cprData d0 ps) := by
    unfold clientReader.extractCPR
    simp only [List.nil_append, List.length_nil] at h
    rw [← h]
    congr 1
    show (cprBuffer d0 ps).length = _
    omega
  rw [e]
  exact ⟨rfl, hne, not_hasReport_of_no_esc _ hne, extractCPR_no_esc s' _ hne⟩

/-- Two reports between typed bytes: both are cut out, the geometry is that of the last. -/
theorem extractCPR_all_witness :
    ((clientReader.mk (newSession (ascii "neo123"))
        (cprBuffer (ascii "he") [(ascii "40;120", ascii "l"), (ascii "50;130", ascii "lo")])).extractCPR).buf
      = ascii "hello" ∧
    ((clientReader.mk (newSession (ascii "neo123"))
        (cprBuffer (ascii "he") [(ascii "40;120", ascii "l"), (ascii "50;130", ascii "lo")])).extractCPR).extractCPR
      = (clientReader.mk (newSession (ascii "neo123"))
        (cprBuffer (ascii "he") [(ascii "40;120", ascii "l"), (ascii "50;130", ascii "lo")])).extractCPR :=
  have h := extractCPR_all (newSession (ascii "neo123")) (ascii "he")
    [(ascii "40;120", ascii "l"), (ascii "50;130", ascii "lo")] (by decide)
    (by
      intro p hp
      simp only [List.mem_cons, List.mem_singleton, List.not_mem_nil, or_false] at hp
      rcases hp with rfl | rfl
      · exact ⟨by unfold isNums; decide, by decide⟩
      · exact ⟨by unfold isNums; decide, by decide⟩)
  ⟨h.1, h.2.2.2⟩

/-- C24, the claim as stated fails: in the buffer `ESC ESC[40;120R [50;130R` the first ESC
is passed over, the report behind it is cut out, and the bytes on both sides of the cut
form the report `ESC[50;130R`, which stays in the buffer; a second call removes it and
changes the geometry from 120 x 40 to 130 x 50. -/
theorem extractCPR_counterexample :
    ((clientReader.mk (newSession (ascii "neo123"))
        ([27] ++ [27, 91] ++ ascii "40;120" ++ [82] ++ ascii "[50;130R")).extractCPR).buf
      = [27, 91] ++ ascii "50;130" ++ [82] ∧
    hasReport ((clientReader.mk (newSession (ascii "neo123"))
        ([27] ++ [27, 91] ++ ascii "40;120" ++ [82] ++ ascii "[50;130R")).extractCPR).buf ∧
    (((clientReader.mk (newSession (ascii "neo123"))
        ([27] ++ [27, 91] ++ ascii "40;120" ++ [82] ++ ascii "[50;130R")).extractCPR).sess.w,
     ((clientReader.mk (newSession (ascii "neo123"))
        ([27] ++ [27, 91] ++ ascii "40;120" ++ [82] ++ ascii "[50;130R")).extractCPR).sess.h)
      = (120, 40) ∧
    ((((clientReader.mk (newSession (ascii "neo123"))
        ([27] ++ [27, 91] ++ ascii "40;120" ++ [82] ++ ascii "[50;130R")).extractCPR).extractCPR).buf,
     (((clientReader.mk (newSession (ascii "neo123"))
        ([27] ++ [27, 91] ++ ascii "40;120" ++ [82] ++ ascii "[50;130R")).extractCPR).extractCPR).sess.w,
     (((clientReader.mk (newSession (ascii "neo123"))
        ([27] ++ [27, 91] ++ ascii "40;120" ++ [82] ++ ascii "[50;130R")).extractCPR).extractCPR).sess.h)
      = ([], 130, 50) := by
  have h1 : ((clientReader.mk (newSession (ascii "neo123"))
        ([27] ++ [27, 91] ++ ascii "40;120" ++ [82] ++ ascii "[50;130R")).extractCPR).buf
      = [27, 91] ++ ascii "50;130" ++ [82] := by decide
  refine ⟨h1, ?_, by decide, by decide⟩
  rw [h1]
  exact ⟨[], ascii "50;130", [], by unfold isNums; decide, by decide⟩

/-! ## nickColor -/

theorem wrapInt_ge (y : Int) : -2 ^ 63 ≤ wrapInt y := by
  unfold wrapInt
  have := Int.emod_nonneg (y + 2 ^ 63) (show (2 : Int) ^ 64 ≠ 0 by norm_num)
  omega

theorem hash_range (rs : List Nat) (h0 : Int) (hlo : -2 ^ 63 ≤ h0) (hhi : h0 < 2 ^ 63) :
    -2 ^ 63 ≤ rs.foldl hashStep h0 ∧ rs.foldl hashStep h0 < 2 ^ 63 := by
  induction rs generalizing h0 with
  | nil => exact ⟨hlo, hhi⟩
  | cons r rs ih => exact ih _ (wrapInt_ge _) (wrapInt_lt _)

theorem nickColors_get (n : Int) (h0 : 0 ≤ n) (h6 : n < 6) :
    ∃ c, nickColors.get? n.toNat = some c ∧ c ∈ nickColors := by
  have hn : n.toNat < nickColors.length := by
    have : nickColors.length = 6 := rfl
    omega
  exact ⟨nickColors.get ⟨n.toNat, hn⟩, List.get?_eq_get hn, List.get_mem _ _ _⟩

theorem nickColor_none_iff (G : GoLib) (nick : Str) :
    (nickColor G nick = none ↔ (G.runes nick).foldl hashStep 0 = -2 ^ 63) ∧
    (∀ c, nickColor G nick = some c → c ∈ nickColors) := by
  obtain ⟨hlo, hhi⟩ := hash_range (G.runes nick) 0 (by norm_num) (by norm_num)
  unfold nickColor
  simp only
  generalize (G.runes nick).foldl hashStep 0 = h at hlo hhi
  by_cases hneg : h < 0
  · rw [if_pos hneg]
    by_cases hmin : h = -2 ^ 63
    · subst hmin
      have e1 : wrapInt (-(-2 ^ 63)) = -2 ^ 63 := by decide
      have e2 : Int.tmod (-2 ^ 63) 6 = -2 := by decide
      rw [e1, e2]
      simp
    · have e1 : wrapInt (-h) = -h := wrapInt_of_range _ (by omega) (by omega)
      have e2 : Int.tmod (-h) 6 = (-h) % 6 := Int.tmod_eq_emod (by omega) (by norm_num)
      rw [e1, e2, if_pos (by omega)]
      obtain ⟨c, hc, hm⟩ := nickColors_get ((-h) % 6) (by omega) (by omega)
      rw [hc]
      refine ⟨⟨(fun hh => by cases hh), fun hh => absurd hh hmin⟩, ?_⟩
      intro c' hc'
      cases hc'
      exact hm
  · rw [if_neg hneg]
    have e2 : Int.tmod h 6 = h % 6 := Int.tmod_eq_emod (by omega) (by norm_num)
    rw [e2, if_pos (by omega)]
    obtain ⟨c, hc, hm⟩ := nickColors_get (h % 6) (by omega) (by omega)
    rw [hc]
    refine ⟨⟨(fun hh => by cases hh), fun hh => by omega⟩, ?_⟩
    intro c' hc'
    cases hc'
    exact hm

set_option maxRecDepth 100000 in
theorem hash_min_int :
    (asciiLib.runes (ascii "OY[T^]CY_DXRW")).foldl hashStep 0 = -9223372036854775808 := by
  decide

set_option maxRecDepth 100000 in
theorem nickColor_min_int_eval : nickColor asciiLib (ascii "OY[T^]CY_DXRW") = none := by
  decide

set_option maxRecDepth 100000 in
theorem privmsg_min_int_eval :
    Session.onMsg asciiLib ⟨fun _ => ascii "12:00", 0, 0⟩ fourWindows true
      ⟨ascii "OY[T^]CY_DXRW!u@h", ascii "PRIVMSG", [ascii "#c", ascii "hi"]⟩ = none := by
  decide

/-- C25, the claim fails in the code: the nick `OY[T^]CY_DXRW` hashes to the least `int`,
-9223372036854775808, whose negation wraps to itself; the Go remainder by 6 is then -2 and
the index expression `nickColors[-2]` panics; a channel message of a user with that nick
makes the reader loop panic.  On every other hash `nickColor` returns an entry of the
palette: the panic happens exactly when the hash is the least `int`. -/
theorem nickColor_min_int :
    (asciiLib.runes (ascii "OY[T^]CY_DXRW")).foldl hashStep 0 = -9223372036854775808 ∧
    wrapInt (-(-9223372036854775808)) = -9223372036854775808 ∧
    Int.tmod (-9223372036854775808) 6 = -2 ∧
    nickColor asciiLib (ascii "OY[T^]CY_DXRW") = none ∧
    Session.onMsg asciiLib ⟨fun _ => ascii "12:00", 0, 0⟩ fourWindows true
      ⟨ascii "OY[T^]CY_DXRW!u@h", ascii "PRIVMSG", [ascii "#c", ascii "hi"]⟩ = none ∧
    (∀ (G : GoLib) (nick : Str),
      (nickColor G nick = none ↔ (G.runes nick).foldl hashStep 0 = -2 ^ 63) ∧
      (∀ c, nickColor G nick = some c → c ∈ nickColors)) :=
  ⟨hash_min_int, by decide, by decide, nickColor_min_int_eval, privmsg_min_int_eval,
    nickColor_none_iff⟩

/-! ## CTCP ACTION unwrapping -/

/-- C26: a text that starts with the 8 bytes `\x01ACTION ` and ends with the byte `\x01`
has at least 9 bytes, so the slice `msg[8 : len(msg)-1]` is within bounds, and the text is
the header, the slice and the final `\x01`. -/
theorem action_unwrap (msg : Str) (h : isAction msg = true) :
    9 ≤ msg.length ∧
    ∃ t, slice msg 8 (msg.length - 1) = some t ∧ msg = (1 :: ascii "ACTION ") ++ t ++ [1] := by
  unfold isAction hasPrefix hasSuffix at h
  rw [Bool.and_eq_true] at h
  obtain ⟨hp, hs⟩ := h
  obtain ⟨rest, hrest⟩ := List.isPrefixOf_iff_prefix.1 hp
  obtain ⟨front, hfront⟩ := List.isSuffixOf_iff_suffix.1 hs
  have hh : (1 :: ascii "ACTION ") = [1, 65, 67, 84, 73, 79, 78, 32] := by decide
  rw [hh] at hrest ⊢
  subst hrest
  rcases List.eq_nil_or_concat rest with rfl | ⟨init, x, rfl⟩
  · exfalso
    have := congrArg List.getLast? hfront
    simp at this
  · rw [List.concat_eq_append] at hfront ⊢
    have hx : x = 1 := by
      have h2 : front ++ [1] = ([1, 65, 67, 84, 73, 79, 78, 32] ++ init) ++ [x] := by
        rw [hfront, List.append_assoc]
      exact (List.singleton_inj.1 (List.append_inj' h2 rfl).2).symm
    subst hx
    refine ⟨by simp, init, ?_, by simp⟩
    unfold slice
    rw [if_pos (by simp)]
    congr 1
    rw [← List.append_assoc, List.length_append, List.length_singleton, Nat.add_sub_cancel,
      List.take_left, List.drop_left' (by rfl)]

/-- The action `waves`. -/
theorem action_unwrap_witness :
    9 ≤ ([1] ++ ascii "ACTION waves" ++ [1]).length ∧
    ∃ t, slice ([1] ++ ascii "ACTION waves" ++ [1]) 8
          (([1] ++ ascii "ACTION waves" ++ [1]).length - 1) = some t ∧
      [1] ++ ascii "ACTION waves" ++ [1] = (1 :: ascii "ACTION ") ++ t ++ [1] :=
  action_unwrap ([1] ++ ascii "ACTION waves" ++ [1]) (by decide)

/-! ## The column math of draw -/

theorem five_le_clamp (x : Int) : 5 ≤ (if x < 5 then 5 else x) := by
  split
  · exact le_refl _
  · omega

theorem clW_eq (s : Session) :
    s.clW = (if s.showChan = true ∧ s.w ≥ 50 then chanListW else 0) := by
  unfold Session.clW
  by_cases h1 : s.showChan = true
  · by_cases h2 : s.w < 50
    · rw [if_pos (Or.inr h2), if_neg (by omega)]
    · rw [if_neg (by simp [h1, h2]), if_pos ⟨h1, by omega⟩]
  · rw [if_pos (Or.inl (by simpa using h1)), if_neg (fun h => h1 h.1)]

theorem nlW_eq (s : Session) (name : Str) :
    (if hasPrefix name (ascii "#") = false then 0 else s.nlW)
      = (if s.showNick = true ∧ s.w ≥ 60 ∧ hasPrefix name (ascii "#") = true
          then nickListW else 0) := by
  unfold Session.nlW
  by_cases h0 : hasPrefix name (ascii "#") = true
  · rw [if_neg (by simp [h0])]
    by_cases h1 : s.showNick = true
    · by_cases h2 : s.w < 60
      · rw [if_pos (Or.inr h2), if_neg (by omega)]
      · rw [if_neg (by simp [h1, h2]), if_pos ⟨h1, by omega, h0⟩]
    · rw [if_pos (Or.inl (by simpa using h1)), if_neg (fun h => h1 h.1)]
  · rw [if_pos (by simpa using h0), if_neg (fun h => h0 h.2.2)]

/-- C28: for a width `w` with `5 ≤ w` (a Go `int`), every setting of the toggles and every
active window, `draw` computes `clW = clW()`, which is 14 when the channel-list toggle is
on and `w ≥ 50` and 0 otherwise, `nlW`, which is 22 when the nick-list toggle is on,
`w ≥ 60` and the name of the active window starts with `#`, and 0 otherwise, `seps`, the
number of side panes shown, and `cw = w - clW - nlW - seps`, never raised; so
`clW + nlW + seps + cw = w` and `5 ≤ cw`. -/
theorem drawColumns_tile (s : Session) (a : Ptr) (ha : s.activeChan = some a)
    (hw : 5 ≤ s.w) (hmax : s.w < 2 ^ 63) :
    ∃ clW nlW seps cw, s.drawColumns = some (clW, nlW, seps, cw) ∧
      clW = s.clW ∧
      clW = (if s.showChan = true ∧ s.w ≥ 50 then chanListW else 0) ∧
      nlW = (if hasPrefix (s.deref a).name (ascii "#") = false then 0 else s.nlW) ∧
      nlW = (if s.showNick = true ∧ s.w ≥ 60 ∧ hasPrefix (s.deref a).name (ascii "#") = true
        then nickListW else 0) ∧
      seps = (if clW > 0 then 1 else 0) + (if nlW > 0 then 1 else 0) ∧
      cw = s.w - clW - nlW - seps ∧
      clW + nlW + seps + cw = s.w ∧ 5 ≤ cw := by
  have hcl := clW_eq s
  have hnl := nlW_eq s (s.deref a).name
  unfold Session.drawColumns
  rw [ha]
  simp only
  refine ⟨_, _, _, _, rfl, rfl, hcl, rfl, hnl, ?_⟩
  generalize s.clW = c at hcl ⊢
  generalize (if hasPrefix (s.deref a).name (ascii "#") = false then 0 else s.nlW) = n at hnl ⊢
  have w1 : wrapInt (0 + 1) = 1 := by decide
  have w2 : wrapInt (1 + 1) = 2 := by decide
  have hc : (c = 0 ∨ c = 14 ∧ s.w ≥ 50) := by
    rw [hcl]
    unfold chanListW
    split
    · rename_i h; exact Or.inr ⟨rfl, h.2⟩
    · exact Or.inl rfl
  have hn : (n = 0 ∨ n = 22 ∧ s.w ≥ 60) := by
    rw [hnl]
    unfold nickListW
    split
    · rename_i h; exact Or.inr ⟨rfl, h.2.1⟩
    · exact Or.inl rfl
  clear hcl hnl
  rcases hc with rfl | ⟨rfl, hc⟩ <;> rcases hn with rfl | ⟨rfl, hn⟩
  · have a1 : wrapInt (s.w - 0) = s.w - 0 := wrapInt_of_range _ (by omega) (by omega)
    have a2 : wrapInt (s.w - 0 - 0) = s.w - 0 - 0 := wrapInt_of_range _ (by omega) (by omega)
    have a3 : wrapInt (s.w - 0 - 0 - 0) = s.w - 0 - 0 - 0 :=
      wrapInt_of_range _ (by omega) (by omega)
    simp only [gt_iff_lt, lt_self_iff_false, if_false, a1, a2, a3]
    rw [if_neg (by omega)]
    omega
  · have a1 : wrapInt (s.w - 0) = s.w - 0 := wrapInt_of_range _ (by omega) (by omega)
    have a2 : wrapInt (s.w - 0 - 22) = s.w - 0 - 22 :=
      wrapInt_of_range _ (by omega) (by omega)
    have a3 : wrapInt (s.w - 0 - 22 - 1) = s.w - 0 - 22 - 1 :=
      wrapInt_of_range _ (by omega) (by omega)
    simp only [gt_iff_lt, lt_self_iff_false, if_false, show (0 : Int) < 22 by norm_num,
      if_true, w1, a1, a2, a3]
    rw [if_neg (by omega)]
    omega
  · have a1 : wrapInt (s.w - 14) = s.w - 14 := wrapInt_of_range _ (by omega) (by omega)
    have a2 : wrapInt (s.w - 14 - 0) = s.w - 14 - 0 :=
      wrapInt_of_range _ (by omega) (by omega)
    have a3 : wrapInt (s.w - 14 - 0 - 1) = s.w - 14 - 0 - 1 :=
      wrapInt_of_range _ (by omega) (by omega)
    simp only [gt_iff_lt, lt_self_iff_false, if_false, show (0 : Int) < 14 by norm_num,
      if_true, w1, a1, a2, a3]
    rw [if_neg (by omega)]
    omega
  · have a1 : wrapInt (s.w - 14) = s.w - 14 := wrapInt_of_range _ (by omega) (by omega)
    have a2 : wrapInt (s.w - 14 - 22) = s.w - 14 - 22 :=
      wrapInt_of_range _ (by omega) (by omega)
    have a3 : wrapInt (s.w - 14 - 22 - 2) = s.w - 14 - 22 - 2 :=
      wrapInt_of_range _ (by omega) (by omega)
    simp only [gt_iff_lt, show (0 : Int) < 14 by norm_num, show (0 : Int) < 22 by norm_num,
      if_true, w1, w2, a1, a2, a3]
    rw [if_neg (by omega)]
    omega

/-- A channel window at width 80 with both panes on: `draw` computes the widths 14, 22, 2
and 42, and 14 + 22 + 2 + 42 = 80. -/
theorem drawColumns_tile_witness :
    fourWindows.drawColumns = some (14, 22, 2, 42) ∧ (14 : Int) + 22 + 2 + 42 = fourWindows.w := by
  obtain ⟨clW, nlW, seps, cw, h, _, h1, _, h2, h3, h4, h5, _⟩ :=
    drawColumns_tile fourWindows 2 (by decide) (by decide) (by decide)
  have e1 : clW = 14 := by rw [h1]; decide
  have e2 : nlW = 22 := by rw [h2]; decide
  subst e1 e2
  have e3 : seps = 2 := by rw [h3]; decide
  subst e3
  have e4 : cw = 42 := by rw [h4]; decide
  subst e4
  exact ⟨h, h5⟩

/-! ## truncVis: prefix, fixed points, idempotence -/

theorem truncVisLoop_pre (s : List Nat) (maxW : Int) :
    ∀ (vis : Int) (inEsc : Bool), truncVisLoop s maxW vis inEsc <+: s := by
  induction s with
  | nil => intro vis inEsc; exact List.prefix_refl _
  | cons r rest ih =>
    intro vis inEsc
    rw [truncVisLoop]
    split
    · exact (List.prefix_cons_inj r).2 (ih _ _)
    · split
      · exact (List.prefix_cons_inj r).2 (ih _ _)
      · split
        · exact List.nil_prefix
        · exact (List.prefix_cons_inj r).2 (ih _ _)

theorem truncVisLoop_fixed (s : List Nat) (maxW : Int) :
    ∀ (vis : Int) (inEsc : Bool), ((visCount s inEsc : Nat) : Int) + vis ≤ maxW →
      truncVisLoop s maxW vis inEsc = s := by
  induction s with
  | nil => intro vis inEsc _; rfl
  | cons r rest ih =>
    intro vis inEsc h
    rw [truncVisLoop]
    rw [visCount] at h
    by_cases hr : r = 27
    · rw [if_pos hr] at h
      rw [if_pos hr, ih _ _ h]
    · rw [if_neg hr] at h
      rw [if_neg hr]
      cases inEsc with
      | true =>
        rw [if_pos rfl] at h
        rw [if_pos rfl]
        cases hl : isAsciiLetter r with
        | true =>
          rw [hl] at h
          rw [if_pos rfl, ih _ _ (by simpa using h)]
        | false =>
          rw [hl] at h
          rw [if_neg (by simp), ih _ _ (by simpa using h)]
      | false =>
        rw [if_neg (by simp)] at h
        rw [if_neg (by simp)]
        push_cast at h
        rw [if_neg (by omega), ih _ _ (by omega)]

theorem truncVisLoop_idem (s : List Nat) (maxW : Int) :
    ∀ (vis : Int) (inEsc : Bool),
      truncVisLoop (truncVisLoop s maxW vis inEsc) maxW vis inEsc
        = truncVisLoop s maxW vis inEsc := by
  induction s with
  | nil => intro vis inEsc; rfl
  | cons r rest ih =>
    intro vis inEsc
    rw [truncVisLoop]
    by_cases hr : r = 0x1B
    · rw [if_pos hr, truncVisLoop, if_pos hr, ih]
    · rw [if_neg hr]
      cases inEsc with
      | true => rw [if_pos rfl, truncVisLoop, if_neg hr, if_pos rfl, ih]
      | false =>
        rw [if_neg (by simp)]
        by_cases hv : vis ≥ maxW
        · rw [if_pos hv]; rfl
        · rw [if_neg hv, truncVisLoop, if_neg hr, if_neg (by simp), if_neg hv, ih]

theorem isCont_iff (b : Nat) : isCont b = true ↔ 128 ≤ b ∧ b ≤ 191 := by
  unfold isCont
  simp

theorem decodeRune_width (s : Str) (hs : s ≠ []) :
    1 ≤ (decodeRune s).2 ∧ (decodeRune s).2 ≤ s.length := by
  have hl : 1 ≤ s.length := List.length_pos.2 hs
  unfold decodeRune
  split_ifs <;> simp only <;> omega

theorem decodeRune_valid (s : Str) : validRune (decodeRune s).1 := by
  unfold decodeRune validRune
  generalize s.getD 0 0 = b0
  generalize s.getD 1 0 = b1
  generalize s.getD 2 0 = b2
  generalize s.getD 3 0 = b3
  simp only [isCont_iff]
  split_ifs <;> simp only <;> omega

theorem utf8RunesLoop_fuel (f : Nat) : ∀ (f' : Nat) (s : Str), s.length ≤ f → s.length ≤ f' →
    utf8RunesLoop f s = utf8RunesLoop f' s := by
  induction f with
  | zero =>
    intro f' s h _
    have : s = [] := List.length_eq_zero.1 (Nat.le_zero.1 h)
    subst this
    cases f' <;> simp [utf8RunesLoop]
  | succ f ih =>
    intro f' s h h'
    cases f' with
    | zero =>
      have : s = [] := List.length_eq_zero.1 (Nat.le_zero.1 h')
      subst this
      simp [utf8RunesLoop]
    | succ f' =>
      rw [utf8RunesLoop, utf8RunesLoop]
      by_cases hs : s = []
      · rw [if_pos hs, if_pos hs]
      · rw [if_neg hs, if_neg hs]
        obtain ⟨h1, h2⟩ := decodeRune_width s hs
        have hd : (s.drop (decodeRune s).2).length = s.length - (decodeRune s).2 :=
          List.length_drop _ _
        rw [ih f' _ (by omega) (by omega)]

theorem utf8RunesLoop_valid (f : Nat) : ∀ (s : Str), ∀ r ∈ utf8RunesLoop f s, validRune r := by
  induction f with
  | zero => intro s r hr; simp [utf8RunesLoop] at hr
  | succ f ih =>
    intro s r hr
    rw [utf8RunesLoop] at hr
    split at hr
    · cases hr
    · rcases List.mem_cons.1 hr with rfl | hr
      · exact decodeRune_valid s
      · exact ih _ r hr

theorem utf8Runes_valid (s : Str) : ∀ r ∈ utf8Runes s, validRune r :=
  utf8RunesLoop_valid _ s

theorem encodeRune_ne_nil (r : Nat) : encodeRune r ≠ [] := by
  unfold encodeRune
  split_ifs <;> simp

theorem decodeRune_encode (r : Nat) (rest : Str) (h : validRune r) :
    decodeRune (encodeRune r ++ rest) = (r, (encodeRune r).length) := by
  unfold validRune at h
  unfold encodeRune
  split_ifs with h1 h2 h3 h4
  · unfold decodeRune
    simp only [List.singleton_append, List.getD_cons_zero, List.length_singleton]
    rw [if_pos (by omega)]
  · unfold decodeRune
    simp only [List.cons_append, List.nil_append, List.getD_cons_zero, List.getD_cons_succ,
      List.length_cons, List.length_nil, isCont_iff]
    rw [if_neg (by omega), if_pos (by omega), if_pos (by omega)]
    rw [Prod.mk.injEq]
    constructor <;> omega
  · omega
  · unfold decodeRune
    simp only [List.cons_append, List.nil_append, List.getD_cons_zero, List.getD_cons_succ,
      List.length_cons, List.length_nil, isCont_iff]
    rw [if_neg (by omega), if_neg (by omega), if_pos (by omega)]
    have hc : 3 ≤ rest.length + 1 + 1 + 1 ∧
        (if 224 + r / 4096 = 224 then 160 else 128) ≤ 128 + r / 64 % 64 ∧
        128 + r / 64 % 64 ≤ (if 224 + r / 4096 = 237 then 159 else 191) ∧
        (128 ≤ 128 + r % 64 ∧ 128 + r % 64 ≤ 191) := by
      refine ⟨by omega, ?_, ?_, by omega⟩
      · split_ifs <;> omega
      · split_ifs <;> omega
    rw [if_pos hc]
    rw [Prod.mk.injEq]
    constructor <;> omega
  · unfold decodeRune
    simp only [List.cons_append, List.nil_append, List.getD_cons_zero, List.getD_cons_succ,
      List.length_cons, List.length_nil, isCont_iff]
    rw [if_neg (by omega), if_neg (by omega), if_neg (by omega), if_pos (by omega)]
    have hc : 4 ≤ rest.length + 1 + 1 + 1 + 1 ∧
        (if 240 + r / 262144 = 240 then 144 else 128) ≤ 128 + r / 4096 % 64 ∧
        128 + r / 4096 % 64 ≤ (if 240 + r / 262144 = 244 then 143 else 191) ∧
        (128 ≤ 128 + r / 64 % 64 ∧ 128 + r / 64 % 64 ≤ 191) ∧
        (128 ≤ 128 + r % 64 ∧ 128 + r % 64 ≤ 191) := by
      refine ⟨by omega, ?_, ?_, by omega, by omega⟩
      · split_ifs <;> omega
      · split_ifs <;> omega
    rw [if_pos hc]
    rw [Prod.mk.injEq]
    constructor <;> omega

theorem utf8Runes_encode (rs : List Nat) (h : ∀ r ∈ rs, validRune r) :
    utf8Runes (utf8Encode rs) = rs := by
  induction rs with
  | nil => rfl
  | cons r rs ih =>
    have hr := h r (by simp)
    have hrs : ∀ x ∈ rs, validRune x := fun x hx => h x (by simp [hx])
    have hne := encodeRune_ne_nil r
    have hpos : 1 ≤ (encodeRune r).length := List.length_pos.2 hne
    unfold utf8Runes utf8Encode
    rw [List.map_cons, List.flatten_cons]
    rw [show (encodeRune r ++ (rs.map encodeRune).flatten).length
        = ((encodeRune r).length - 1 + ((rs.map encodeRune).flatten).length) + 1 from by
      rw [List.length_append]; omega]
    rw [utf8RunesLoop, if_neg (by simp [hne]), decodeRune_encode r _ hr]
    simp only [List.drop_left]
    rw [utf8RunesLoop_fuel _ ((rs.map encodeRune).flatten).length _ (by omega) (le_refl _)]
    congr 1
    exact ih hrs

theorem truncVis_valid (s : Str) (maxW : Int) :
    ∀ r ∈ truncVis (utf8Runes s) maxW, validRune r := fun r hr =>
  utf8Runes_valid s r ((truncVisLoop_pre (utf8Runes s) maxW 0 false).subset hr)

theorem utf8Runes_truncVisStr (s : Str) (maxW : Int) :
    utf8Runes (truncVisStr s maxW) = truncVis (utf8Runes s) maxW :=
  utf8Runes_encode _ (truncVis_valid s maxW)

/-- C27, as amended: on rune sequences `truncVis` returns a prefix of its argument,
returns the argument itself when that has at most `maxW` visible runes, and is idempotent,
for every width.  On strings the same holds of the runes that `range` yields, and
`truncVis(truncVis(s, maxW), maxW) = truncVis(s, maxW)` for every string; but for a string
with at most `maxW` visible runes `truncVis(s, maxW) = s` holds exactly when `s` is
well-formed UTF-8, that is, when writing back the runes of `s` gives `s`. -/
theorem truncVis_prefix_fixed_idem (rs : List Nat) (s : Str) (maxW : Int) :
    truncVis rs maxW <+: rs ∧
    (((visCount rs false : Nat) : Int) ≤ maxW → truncVis rs maxW = rs) ∧
    truncVis (truncVis rs maxW) maxW = truncVis rs maxW ∧
    utf8Runes (truncVisStr s maxW) <+: utf8Runes s ∧
    (((visCount (utf8Runes s) false : Nat) : Int) ≤ maxW →
      utf8Runes (truncVisStr s maxW) = utf8Runes s ∧
      (truncVisStr s maxW = s ↔ utf8Encode (utf8Runes s) = s)) ∧
    truncVisStr (truncVisStr s maxW) maxW = truncVisStr s maxW := by
  have hfix : ∀ l : List Nat, ((visCount l false : Nat) : Int) ≤ maxW → truncVis l maxW = l :=
    fun l h => truncVisLoop_fixed l maxW 0 false (by omega)
  refine ⟨truncVisLoop_pre rs maxW 0 false, hfix rs, truncVisLoop_idem rs maxW 0 false,
    ?_, ?_, ?_⟩
  · rw [utf8Runes_truncVisStr]
    exact truncVisLoop_pre _ maxW 0 false
  · intro h
    have e : truncVisStr s maxW = utf8Encode (utf8Runes s) := by
      unfold truncVisStr
      rw [hfix _ h]
    refine ⟨by rw [utf8Runes_truncVisStr, hfix _ h], ?_⟩
    rw [e]
  · have e := utf8Runes_truncVisStr s maxW
    show utf8Encode (truncVis (utf8Runes (truncVisStr s maxW)) maxW) = truncVisStr s maxW
    rw [e]
    have hi : truncVis (truncVis (utf8Runes s) maxW) maxW = truncVis (utf8Runes s) maxW :=
      truncVisLoop_idem (utf8Runes s) maxW 0 false
    rw [hi]
    rfl

/-- A bold `hello` cut to three visible runes, and the Latin-1 text `caf\xe9`. -/
theorem truncVis_prefix_fixed_idem_witness :
    truncVis ([27] ++ ascii "[1mhello") 3 <+: [27] ++ ascii "[1mhello" ∧
    truncVisStr (truncVisStr (ascii "caf" ++ [0xE9]) 10) 10
      = truncVisStr (ascii "caf" ++ [0xE9]) 10 :=
  ⟨(truncVis_prefix_fixed_idem ([27] ++ ascii "[1mhello") (ascii "caf" ++ [0xE9]) 3).1,
    (truncVis_prefix_fixed_idem ([27] ++ ascii "[1mhello") (ascii "caf" ++ [0xE9]) 10).2.2.2.2.2⟩

/-- C27, the claim as stated fails: the Latin-1 text `caf\xe9` has four visible runes, the
last one U+FFFD for the byte 0xE9 that starts no well-formed sequence; `truncVis` with
width 10 writes that rune back as the three bytes `EF BF BD`, so the result is not the
argument. -/
theorem truncVis_invalid_counterexample :
    utf8Runes (ascii "caf" ++ [0xE9]) = [99, 97, 102, 0xFFFD] ∧
    ((visCount (utf8Runes (ascii "caf" ++ [0xE9])) false : Nat) : Int) ≤ 10 ∧
    truncVisStr (ascii "caf" ++ [0xE9]) 10 = ascii "caf" ++ [0xEF, 0xBF, 0xBD] ∧
    truncVisStr (ascii "caf" ++ [0xE9]) 10 ≠ ascii "caf" ++ [0xE9] := by
  decide

end Irctun
